import Mathlib

/-!
Shallow embedding of the SlimCryptDB storage engine (src/SlimCryptDB.js) and
proofs about the claims of its specification.

The embedding models JavaScript JSON values, the query/filter evaluator, the
in-memory index structures and their maintenance, the transaction commit
pipeline, the table-file codec (AES-GCM is modelled at its interface, as a
family of functions together with the round-trip law of the Node crypto
library), the WAL padding scheme, the lock manager and the close/summary
bookkeeping.  Machine integers are modelled as `Nat`/`Int` with explicit
wrap-around only where the source can overflow.
-/

set_option maxHeartbeats 1000000

/-! # JavaScript value model

JSON-shaped runtime values, as stored in rows and used by filters.  Numbers
are modelled as integers (the claims under study never depend on float
behaviour).  `undefined` is represented as `Option.none` at access sites.
-/

/-- A JSON-shaped JavaScript value. -/
inductive JsVal where
  | vnull : JsVal
  | vbool : Bool → JsVal
  | vnum : Int → JsVal
  | vstr : String → JsVal
  | varr : List JsVal → JsVal
  | vobj : List (String × JsVal) → JsVal

/-- JavaScript truthiness of a value. -/
def jsTruthy : JsVal → Bool
  | .vnull => false
  | .vbool b => b
  | .vnum n => n != 0
  | .vstr s => s ≠ ""
  | .varr _ => true
  | .vobj _ => true

/-- Whether a value is a primitive (compared structurally by `===`). -/
def jsPrim : JsVal → Bool
  | .varr _ => false
  | .vobj _ => false
  | _ => true

/-- JavaScript strict equality `===`.  Primitives compare structurally;
arrays and objects compare by reference, which is `false` whenever the two
operands originate from distinct allocations — the case at every call site
modelled here (one operand always comes from a fresh JSON parse or a fresh
object spread). -/
def jsEq : JsVal → JsVal → Bool
  | .vnull, .vnull => true
  | .vbool a, .vbool b => a == b
  | .vnum a, .vnum b => a == b
  | .vstr a, .vstr b => a == b
  | _, _ => false

/-- Strict equality lifted to possibly-`undefined` operands
(`undefined === undefined` is `true`). -/
def jsEqO : Option JsVal → Option JsVal → Bool
  | none, none => true
  | some a, some b => jsEq a b
  | _, _ => false

mutual

/-- String conversion `String(v)` of a value (used by `RegExp.test`,
`Array.prototype.join` and string coercions).  Arrays render as their
comma-join, objects as `"[object Object]"`; `String(undefined)` is
handled at call sites. -/
def jsToString : JsVal → String
  | .vnull => "null"
  | .vbool b => if b then "true" else "false"
  | .vnum n => toString n
  | .vstr s => s
  | .varr xs => jsArrJoinComma xs
  | .vobj _ => "[object Object]"
termination_by v => (sizeOf v, 0)

/-- `Array.prototype.join(',')` over converted elements. -/
def jsArrJoinComma : List JsVal → String
  | [] => ""
  | [x] => jsArrElemStr x
  | x :: y :: xs => jsArrElemStr x ++ "," ++ jsArrJoinComma (y :: xs)
termination_by xs => (sizeOf xs, 2)

/-- A join element: `null` (and `undefined`) render empty, the rest via
`String(v)`. -/
def jsArrElemStr : JsVal → String
  | .vnull => ""
  | v => jsToString v
termination_by v => (sizeOf v, 1)

end

/-- Element conversion used by `Array.prototype.join`: `null` and
`undefined` render as the empty string, other values via `String(v)`. -/
def jsJoinElem : Option JsVal → String
  | none => ""
  | some .vnull => ""
  | some v => jsToString v

/-- A row is a JavaScript object: an ordered association list from field
names to values.  Field lookup takes the first binding. -/
abbrev JsRow := List (String × JsVal)

/-- Property read `row[key]`; `none` is JavaScript `undefined`. -/
def rowGet (r : JsRow) (k : String) : Option JsVal :=
  (r.find? (fun p => p.1 == k)).map (·.2)

/-- Property write `row[key] = v`: overwrite the first binding of `key`,
or append a fresh binding. -/
def rowSet (r : JsRow) (k : String) (v : JsVal) : JsRow :=
  match r with
  | [] => [(k, v)]
  | (k', v') :: rest =>
    if k' == k then (k', v) :: rest else (k', v') :: rowSet rest k v

/-! # Claim C6: WAL length-prefixed padding

`_applyWALPaddingBuffer` / `_removeWALPaddingBuffer`
(src/SlimCryptDB.js lines 417–461).  Buffers are `List Nat` of bytes.
`crypto.randomBytes` is a parameter (only its length contract matters).
-/

/-- Big-endian 4-byte encoding, `Buffer.writeUInt32BE`. -/
def writeUInt32BE (n : Nat) : List Nat :=
  [n / 2 ^ 24 % 256, n / 2 ^ 16 % 256, n / 2 ^ 8 % 256, n % 256]

/-- Big-endian 4-byte decoding of the first four bytes,
`Buffer.readUInt32BE`. -/
def readUInt32BE (bs : List Nat) : Nat :=
  bs.getD 0 0 * 2 ^ 24 + bs.getD 1 0 * 2 ^ 16 + bs.getD 2 0 * 2 ^ 8 + bs.getD 3 0

/-- The padded size chosen by `_applyWALPaddingBuffer`: one block for small
entries, otherwise `Math.ceil((textLength + 4) / blockSize)` blocks.  The
size comparison is the JavaScript integer comparison
`textLength >= blockSize - 4`. -/
def walPaddedSize (blockSize textLength : Nat) : Nat :=
  if (textLength : Int) ≥ (blockSize : Int) - 4 then
    ((textLength + 4 + blockSize - 1) / blockSize) * blockSize
  else
    blockSize

/-- `_applyWALPaddingBuffer`: plaintext, then random padding, then the
original length as a big-endian 32-bit suffix. -/
def applyWALPaddingBuffer (randomBytes : Nat → List Nat) (blockSize : Nat)
    (ptext : List Nat) : List Nat :=
  let textLength := ptext.length
  let paddedSize := walPaddedSize blockSize textLength
  let paddingLength := paddedSize - textLength - 4
  ptext ++ randomBytes paddingLength ++ writeUInt32BE textLength

/-- `_removeWALPaddingBuffer`: read the last 4 bytes as the original length,
validate `0 ≤ L ≤ padded.length - 4` (the lower bound is vacuous over
`Nat`), and slice the plaintext out. -/
def removeWALPaddingBuffer (padded : List Nat) : Except String (List Nat) :=
  if padded.length < 4 then
    .error "Invalid padded buffer: too short"
  else
    let originalLength := readUInt32BE (padded.drop (padded.length - 4))
    if originalLength > padded.length - 4 then
      .error "Invalid original length"
    else
      .ok (padded.take originalLength)

theorem readUInt32BE_writeUInt32BE (n : Nat) (h : n < 2 ^ 32) :
    readUInt32BE (writeUInt32BE n) = n := by
  simp [writeUInt32BE, readUInt32BE, List.getD]
  omega

theorem walPaddedSize_ge (blockSize textLength : Nat) (hbs : 0 < blockSize) :
    textLength + 4 ≤ walPaddedSize blockSize textLength := by
  unfold walPaddedSize
  split
  · rename_i h
    have hd := Nat.div_add_mod (textLength + 4 + blockSize - 1) blockSize
    have hm : (textLength + 4 + blockSize - 1) % blockSize < blockSize :=
      Nat.mod_lt _ hbs
    set q := (textLength + 4 + blockSize - 1) / blockSize with hq
    have : blockSize * q = q * blockSize := Nat.mul_comm _ _
    omega
  · rename_i h
    omega

theorem length_applyWALPaddingBuffer
    (randomBytes : Nat → List Nat) (blockSize : Nat) (ptext : List Nat)
    (hr : ∀ n, (randomBytes n).length = n) (hbs : 0 < blockSize) :
    (applyWALPaddingBuffer randomBytes blockSize ptext).length
      = walPaddedSize blockSize ptext.length := by
  have hge := walPaddedSize_ge blockSize ptext.length hbs
  simp [applyWALPaddingBuffer, hr, writeUInt32BE]
  omega

/-- C6.  For every plaintext buffer `b` shorter than `2^32` and every
positive block size: removing the padding applied by
`_applyWALPaddingBuffer` recovers `b` exactly, the padded length is the
block size when `b.length < blockSize - 4` (JavaScript integer
comparison), and otherwise it is the least multiple of the block size
that is at least `b.length + 4`.  `crypto.randomBytes` enters only
through its length contract. -/
theorem walPadding_roundtrip_and_blocks
    (randomBytes : Nat → List Nat) (blockSize : Nat) (ptext : List Nat)
    (hr : ∀ n, (randomBytes n).length = n) (hbs : 0 < blockSize)
    (hlen : ptext.length < 2 ^ 32) :
    removeWALPaddingBuffer (applyWALPaddingBuffer randomBytes blockSize ptext)
        = .ok ptext
    ∧ ((ptext.length : Int) < (blockSize : Int) - 4 →
        (applyWALPaddingBuffer randomBytes blockSize ptext).length = blockSize)
    ∧ ((ptext.length : Int) ≥ (blockSize : Int) - 4 →
        (applyWALPaddingBuffer randomBytes blockSize ptext).length % blockSize = 0
        ∧ ptext.length + 4 ≤ (applyWALPaddingBuffer randomBytes blockSize ptext).length
        ∧ ∀ m, m % blockSize = 0 → ptext.length + 4 ≤ m →
            (applyWALPaddingBuffer randomBytes blockSize ptext).length ≤ m) := by
  have hge := walPaddedSize_ge blockSize ptext.length hbs
  have hL := length_applyWALPaddingBuffer randomBytes blockSize ptext hr hbs
  have hfront : (ptext ++ randomBytes (walPaddedSize blockSize ptext.length
      - ptext.length - 4)).length = walPaddedSize blockSize ptext.length - 4 := by
    simp [hr]; omega
  refine ⟨?_, ?_, ?_⟩
  · unfold removeWALPaddingBuffer
    rw [hL]
    rw [if_neg (by omega)]
    have hdrop : (applyWALPaddingBuffer randomBytes blockSize ptext).drop
        (walPaddedSize blockSize ptext.length - 4) = writeUInt32BE ptext.length := by
      unfold applyWALPaddingBuffer
      exact List.drop_left' hfront
    rw [hdrop, readUInt32BE_writeUInt32BE ptext.length hlen]
    rw [if_neg (by omega)]
    have htake : (applyWALPaddingBuffer randomBytes blockSize ptext).take
        ptext.length = ptext := by
      unfold applyWALPaddingBuffer
      rw [List.append_assoc]
      exact List.take_left' rfl
    rw [htake]
  · intro h
    rw [hL]
    unfold walPaddedSize
    rw [if_neg (by omega)]
  · intro h
    rw [hL]
    have hps : walPaddedSize blockSize ptext.length
        = ((ptext.length + 4 + blockSize - 1) / blockSize) * blockSize := by
      unfold walPaddedSize; rw [if_pos (by omega)]
    refine ⟨by rw [hps]; exact Nat.mul_mod_left _ _, hge, ?_⟩
    intro m hm hlem
    obtain ⟨k, hk⟩ := Nat.dvd_of_mod_eq_zero hm
    rw [hps, hk]
    have hqk : (ptext.length + 4 + blockSize - 1) / blockSize ≤ k := by
      rw [Nat.div_le_iff_le_mul_add_pred hbs]
      have : ptext.length + 4 ≤ blockSize * k := by omega
      omega
    calc ((ptext.length + 4 + blockSize - 1) / blockSize) * blockSize
        ≤ k * blockSize := Nat.mul_le_mul_right _ hqk
      _ = blockSize * k := Nat.mul_comm _ _

/-- C6 witness: the round-trip and block-length statement evaluated at a
concrete buffer (3 bytes, block size 8). -/
theorem walPadding_roundtrip_and_blocks_witness :
    removeWALPaddingBuffer (applyWALPaddingBuffer
        (fun n => List.replicate n 0) 8 [10, 20, 30]) = .ok [10, 20, 30] := by
  have h := walPadding_roundtrip_and_blocks (fun n => List.replicate n 0) 8 [10, 20, 30]
    (fun n => List.length_replicate n 0) (by decide) (by decide)
  exact h.1

/-! # Claim C9: schema validation

`_validateDataAgainstSchema` (src/SlimCryptDB.js lines 744–771).  A schema
is the recognized recursive shape `{type, properties, required}` (only the
normatively enforced fields are modelled; the remaining fields of the
declared schema grammar are advisory and never read by this function).
The function mutates `schema.type` from `"array"` to `"object"` when the
data is an array; a single validation call is modelled, so the mutation is
local to the call.
-/

/-- The recursive schema shape read by the validator.  `none` models an
absent (`undefined`) field. -/
inductive JsSchema where
  | mk : Option String → Option (List (String × JsSchema)) → Option (List String) → JsSchema

/-- JavaScript `typeof` tag of a value (`typeof null` and `typeof []` are
both `"object"`). -/
def jsTypeof : JsVal → String
  | .vnull => "object"
  | .vbool _ => "boolean"
  | .vnum _ => "number"
  | .vstr _ => "string"
  | .varr _ => "object"
  | .vobj _ => "object"

/-- `Array.isArray`. -/
def isArr : JsVal → Bool
  | .varr _ => true
  | _ => false

/-- Validation errors, keeping the distinctions the messages carry. -/
inductive ValErr where
  | typeMismatch : String → String → ValErr
  | missingRequired : String → ValErr
  | typeError : ValErr
deriving DecidableEq

/-- The `in` operator `key in data`: property membership for objects,
index-or-length membership for arrays, a `TypeError` for primitives and
`null`. -/
def jsHasProp : JsVal → String → Except ValErr Bool
  | .vobj kvs, k => .ok (kvs.any (fun p => p.1 == k))
  | .varr xs, k =>
    .ok (k == "length" || ((List.range xs.length).map (fun i => toString i)).contains k)
  | _, _ => .error .typeError

/-- Property access `data[key]` for the values the validator recurses
into. -/
def jsGetProp : JsVal → String → Option JsVal
  | .vobj kvs, k => rowGet kvs k
  | .varr xs, k =>
    if k == "length" then some (.vnum xs.length)
    else ((List.range xs.length).find? (fun i => toString i == k)).bind
      (fun i => xs[i]?)
  | _, _ => none

mutual

/-- `_validateDataAgainstSchema`: rewrite a declared `"array"` type to
`"object"` when the data is an array, enforce the `typeof` tag when the
declared type is truthy, then walk `properties` enforcing `required` and
recursing into present fields. -/
def validateDataAgainstSchema (data : JsVal) : JsSchema → Except ValErr Unit
  | .mk ty props req =>
    let ty' := if ty == some "array" && isArr data then some "object" else ty
    if (match ty' with | some t => t ≠ "" | none => false)
        && jsTypeof data != ty'.getD "" then
      .error (.typeMismatch (ty'.getD "") (jsTypeof data))
    else
      match props with
      | none => .ok ()
      | some ps => validateProps data req ps

/-- The `for (const [key, propSchema] of Object.entries(schema.properties))`
loop body, in order. -/
def validateProps (data : JsVal) (req : Option (List String)) :
    List (String × JsSchema) → Except ValErr Unit
  | [] => .ok ()
  | (k, ps) :: rest => do
    if (match req with | some r => r.contains k | none => false) then
      match jsHasProp data k with
      | .error e => throw e
      | .ok true => pure ()
      | .ok false => throw (.missingRequired k)
    match jsHasProp data k with
    | .error e => throw e
    | .ok true => validateDataAgainstSchema ((jsGetProp data k).getD .vnull) ps
    | .ok false => pure ()
    validateProps data req rest

end

/-- C9 counterexample: validating the non-array JSON object `{}` against
the schema `{type: "array"}` throws a type mismatch — the validator does
not accept it as the claim states. -/
theorem validate_object_against_array_schema_throws :
    validateDataAgainstSchema (.vobj []) (.mk (some "array") none none)
      = .error (.typeMismatch "array" "object") := by
  rfl

/-- C9 (amended).  Any value whose `typeof` tag is not produced by an
array fails a declared top-level type `"array"` with a type mismatch
before properties are examined; against the bare schema
`{type: "array"}` exactly the JSON arrays are accepted (the validator
rewrites the declared type to `"object"`, and `typeof` of an array is
`"object"`). -/
theorem validate_array_type_behaviour (data : JsVal)
    (props : Option (List (String × JsSchema))) (req : Option (List String)) :
    (isArr data = false →
      validateDataAgainstSchema data (.mk (some "array") props req)
        = .error (.typeMismatch "array" (jsTypeof data)))
    ∧ (validateDataAgainstSchema data (.mk (some "array") none req) = .ok ()
        ↔ isArr data = true) := by
  constructor
  · intro h
    cases data <;> simp_all [validateDataAgainstSchema, isArr, jsTypeof]
  · cases data <;> simp [validateDataAgainstSchema, isArr, jsTypeof]

/-- C9 witness: the amended statement evaluated at the concrete object
`{}` (rejected) and the concrete array `[]` (accepted). -/
theorem validate_array_type_behaviour_witness :
    validateDataAgainstSchema (.vobj [("a", .vnum 1)]) (.mk (some "array") none none)
        = .error (.typeMismatch "array" "object")
    ∧ validateDataAgainstSchema (.varr []) (.mk (some "array") none none) = .ok () := by
  constructor
  · exact (validate_array_type_behaviour (.vobj [("a", .vnum 1)]) none none).1 rfl
  · exact (validate_array_type_behaviour (.varr []) none none).2.mpr rfl

/-! # Association-list model of JavaScript `Map`

`Map.get`/`Map.set`/`Map.delete` preserving insertion order, used for
`this.locks`, `this.lockQueue`, `this.indexes` and index bucket maps.
-/

/-- `Map.get`. -/
def alGet {α : Type} (m : List (String × α)) (k : String) : Option α :=
  (m.find? (fun p => p.1 == k)).map (·.2)

/-- `Map.set`: overwrite in place, or append a fresh binding. -/
def alSet {α : Type} (m : List (String × α)) (k : String) (v : α) :
    List (String × α) :=
  match m with
  | [] => [(k, v)]
  | (k', v') :: rest =>
    if k' == k then (k', v) :: rest else (k', v') :: alSet rest k v

/-- `Map.delete`: remove the binding of `k`, if any. -/
def alDel {α : Type} (m : List (String × α)) (k : String) : List (String × α) :=
  match m with
  | [] => []
  | (k', v') :: rest =>
    if k' == k then rest else (k', v') :: alDel rest k

/-- `Map.has`. -/
def alHas {α : Type} (m : List (String × α)) (k : String) : Bool :=
  m.any (fun p => p.1 == k)

/-! # Claim C10: WAL recovery summary

`_recoverFromWAL` / `getWALRecoverySummary` (src/SlimCryptDB.js lines
565–647).  The per-entry decrypt-and-apply outcome is the loop's input;
the claim is about the bookkeeping around it.
-/

/-- One record of the recovery-failure summary
(`{file, entry, error}`; `entry = none` for a whole-file read failure). -/
structure RecFailure where
  file : String
  entry : Option String
  err : String
deriving DecidableEq

/-- The entry preview stored on failure:
`entryLine.slice(0, 80) + (entryLine.length > 80 ? '...' : '')`. -/
def entryPreview (line : String) : String :=
  line.take 80 ++ (if line.length > 80 then "..." else "")

/-- A WAL segment as the recovery loop sees it: its file name and either a
read error or its entry lines, each line paired with the outcome of
decrypting and applying it (`none` = applied, `some e` = failed). -/
abbrev WalSegment := String × Except String (List (String × Option String))

/-- The recovery loop of `_recoverFromWAL`: walk segments in order,
counting successfully applied entries and accumulating one failure record
per failed entry and one (with `entry = null`) per unreadable file.
Returns `(recoveredEntries, recoveryFailures)`. -/
def runWALRecovery (files : List WalSegment) : Nat × List RecFailure :=
  files.foldl
    (fun acc seg =>
      match seg.2 with
      | .error e => (acc.1, acc.2 ++ [⟨seg.1, none, e⟩])
      | .ok entries =>
        entries.foldl
          (fun acc2 ent =>
            match ent.2 with
            | none => (acc2.1 + 1, acc2.2)
            | some e => (acc2.1, acc2.2 ++ [⟨seg.1, some (entryPreview ent.1), e⟩]))
          acc)
    (0, [])

/-- The summary object returned by `getWALRecoverySummary`, reading the
`lastWALRecoveryFailures` field (`none` = still `undefined`, i.e. recovery
has never completed).  `successCount` is
`typeof last === 'undefined' ? null : last.length || 0` — note that
`last.length || 0` is the `failures` count. -/
def getWALRecoverySummary (last : Option (List RecFailure)) :
    List RecFailure × Option Nat :=
  (last.getD [], match last with
    | none => none
    | some l => some l.length)

/-- C10.  After the recovery loop completes, `_recoverFromWAL` stores the
failure list (possibly empty) into `lastWALRecoveryFailures`, and
`getWALRecoverySummary` then reports `successCount` equal to the length of
that failure list — the count of failed entries, not the count
`recoveredEntries` of successfully applied ones; before recovery has ever
run the field is `undefined` and `successCount` is `null`. -/
theorem walRecoverySummary_successCount_is_failure_count
    (files : List WalSegment) :
    (getWALRecoverySummary (some (runWALRecovery files).2)).2
        = some (runWALRecovery files).2.length
    ∧ (getWALRecoverySummary (some (runWALRecovery files).2)).1
        = (runWALRecovery files).2
    ∧ (getWALRecoverySummary none).2 = none := by
  exact ⟨rfl, rfl, rfl⟩

/-! # Claim C4: lock manager

`_acquireLock` / `_releaseLock` (src/SlimCryptDB.js lines 1442–1512).
Wall-clock instants are explicit `now` arguments; the per-transaction
`transaction.locks` bookkeeping plays no part in the claim and is not
modelled. -/

/-- A queued lock waiter, as pushed by `_acquireLock`. -/
structure Waiter where
  transactionId : String
  startTime : Nat
  timeout : Nat
deriving DecidableEq

/-- The lock-manager state: `this.locks` and `this.lockQueue`. -/
structure LockState where
  locks : List (String × String)
  lockQueue : List (String × List Waiter)
deriving DecidableEq

/-- What a single `attemptLock` invocation did. -/
inductive AcqResult where
  | acquired : AcqResult
  | rejected : AcqResult
  | queued : AcqResult
deriving DecidableEq

/-- `_acquireLock`: take a free (or self-held) lock immediately, reject if
the timeout already elapsed, otherwise append the caller to the FIFO wait
queue.  `attemptLock` runs exactly once per call. -/
def acquireLock (s : LockState) (tableName txnId : String)
    (now lockTimeout : Nat) : LockState × AcqResult :=
  match alGet s.locks tableName with
  | some holder =>
    if holder == txnId then
      ({ s with locks := alSet s.locks tableName txnId }, .acquired)
    else if (now : Int) - now ≥ (lockTimeout : Int) then
      (s, .rejected)
    else
      let q := (alGet s.lockQueue tableName).getD []
      let lq := alSet s.lockQueue tableName (q ++ [⟨txnId, now, lockTimeout⟩])
      ({ s with lockQueue := lq }, .queued)
  | none =>
    ({ s with locks := alSet s.locks tableName txnId }, .acquired)

/-- Outcome delivered to a waiter woken by `_releaseLock`. -/
inductive RelOutcome where
  | granted : String → RelOutcome
  | timedOut : String → RelOutcome
deriving DecidableEq

/-- `_releaseLock`: if the caller holds the lock, free it and, when the
wait queue is non-empty, shift exactly its head waiter: grant it the lock
if its deadline has not passed, otherwise reject it with a lock timeout —
leaving the lock free and the remaining waiters untouched either way. -/
def releaseLock (s : LockState) (tableName txnId : String) (now : Nat) :
    LockState × Option RelOutcome :=
  match alGet s.locks tableName with
  | some holder =>
    if holder == txnId then
      let locks1 := alDel s.locks tableName
      match alGet s.lockQueue tableName with
      | some (w :: rest) =>
        let lq := if rest.isEmpty then alDel s.lockQueue tableName
                  else alSet s.lockQueue tableName rest
        if (now : Int) - w.startTime < (w.timeout : Int) then
          (⟨alSet locks1 tableName w.transactionId, lq⟩,
            some (.granted w.transactionId))
        else
          (⟨locks1, lq⟩, some (.timedOut w.transactionId))
      | _ => (⟨locks1, s.lockQueue⟩, none)
    else (s, none)
  | none => (s, none)

/-- C4 counterexample: table `t` held by `T0`, queue `[T1 (deadline 10),
T2 (deadline 18)]`, released at instant 15.  The claim says the earliest
waiter whose deadline has not passed — `T2` — acquires the lock and every
expired waiter fails; instead the code only examines the head `T1`,
rejects it, and leaves the lock free with `T2` still queued. -/
theorem releaseLock_expired_head_starves_queue :
    (releaseLock
        ⟨[("t", "T0")], [("t", [⟨"T1", 0, 10⟩, ⟨"T2", 8, 10⟩])]⟩
        "t" "T0" 15)
      = (⟨[], [("t", [⟨"T2", 8, 10⟩])]⟩, some (.timedOut "T1")) := by
  decide


theorem alGet_alSet_self {α : Type} (m : List (String × α)) (k : String) (v : α) :
    alGet (alSet m k v) k = some v := by
  induction m with
  | nil => simp [alGet, alSet, List.find?]
  | cons p rest ih =>
    obtain ⟨k', v'⟩ := p
    by_cases h : k' = k
    · simp [alGet, alSet, h, List.find?]
    · have hb : (k' == k) = false := beq_eq_false_iff_ne.mpr h
      simp only [alSet, hb, Bool.false_eq_true, if_false]
      simp only [alGet, List.find?, hb]
      exact ih

theorem alGet_eq_none_of_not_mem_keys {α : Type} (m : List (String × α))
    (k : String) (h : k ∉ m.map Prod.fst) : alGet m k = none := by
  induction m with
  | nil => rfl
  | cons p rest ih =>
    simp only [List.map_cons, List.mem_cons] at h
    push_neg at h
    have hb : (p.1 == k) = false := beq_eq_false_iff_ne.mpr (fun hh => h.1 hh.symm)
    simp only [alGet, List.find?, hb]
    exact ih h.2

theorem alGet_alDel_self_of_nodup {α : Type} (m : List (String × α))
    (k : String) (h : (m.map Prod.fst).Nodup) : alGet (alDel m k) k = none := by
  induction m with
  | nil => rfl
  | cons p rest ih =>
    obtain ⟨k', v'⟩ := p
    simp only [List.map_cons, List.nodup_cons] at h
    by_cases hk : k' = k
    · simp only [alDel, beq_iff_eq, hk, if_true]
      exact alGet_eq_none_of_not_mem_keys rest k (hk ▸ h.1)
    · have hb : (k' == k) = false := beq_eq_false_iff_ne.mpr hk
      simp only [alDel, hb, Bool.false_eq_true, if_false]
      simp only [alGet, List.find?, hb]
      exact ih h.2

/-- C4 (amended).  On release with a non-empty waiter queue, exactly the
head waiter is dequeued: it acquires the lock when its deadline
(`startTime + timeout`) has not passed, and otherwise it alone fails with
the lock timeout while the lock is left free and the remaining waiters
stay queued, unexamined.  Waiters queued in order T1, T2, T3 on a free
table acquire the lock in that order, provided each wait uses a positive
timeout and is unexpired when its turn comes. -/
theorem releaseLock_head_waiter_and_fifo :
    (∀ (s : LockState) (t txn : String) (now : Nat) (w : Waiter)
        (rest : List Waiter),
      alGet s.locks t = some txn →
      alGet s.lockQueue t = some (w :: rest) →
      (s.locks.map Prod.fst).Nodup →
      (s.lockQueue.map Prod.fst).Nodup →
      (((now : Int) - w.startTime < (w.timeout : Int) →
          alGet (releaseLock s t txn now).1.locks t = some w.transactionId
          ∧ (releaseLock s t txn now).2 = some (.granted w.transactionId)
          ∧ (alGet (releaseLock s t txn now).1.lockQueue t).getD [] = rest)
        ∧ ((now : Int) - w.startTime ≥ (w.timeout : Int) →
          alGet (releaseLock s t txn now).1.locks t = none
          ∧ (releaseLock s t txn now).2 = some (.timedOut w.transactionId)
          ∧ (alGet (releaseLock s t txn now).1.lockQueue t).getD [] = rest)))
    ∧ (∀ (s0 : LockState) (t T1 T2 T3 : String) (n1 n2 n3 r1 r2 τ1 τ2 τ3 : Nat),
      alGet s0.locks t = none →
      alGet s0.lockQueue t = none →
      T2 ≠ T1 → T3 ≠ T1 → 0 < τ2 → 0 < τ3 →
      (r1 : Int) - n2 < (τ2 : Int) →
      (r2 : Int) - n3 < (τ3 : Int) →
      (acquireLock s0 t T1 n1 τ1).2 = .acquired
      ∧ alGet (acquireLock s0 t T1 n1 τ1).1.locks t = some T1
      ∧ (let s1 := (acquireLock s0 t T1 n1 τ1).1
         let s2 := (acquireLock s1 t T2 n2 τ2).1
         let s3 := (acquireLock s2 t T3 n3 τ3).1
         let q1 := releaseLock s3 t T1 r1
         let q2 := releaseLock q1.1 t T2 r2
         (acquireLock s1 t T2 n2 τ2).2 = .queued
         ∧ (acquireLock s2 t T3 n3 τ3).2 = .queued
         ∧ q1.2 = some (.granted T2) ∧ alGet q1.1.locks t = some T2
         ∧ q2.2 = some (.granted T3) ∧ alGet q2.1.locks t = some T3)) := by
  constructor
  · intro s t txn now w rest hlock hq hnl hnq
    have hqrest : (alGet (if rest.isEmpty then alDel s.lockQueue t
        else alSet s.lockQueue t rest) t).getD [] = rest := by
      cases rest with
      | nil => simp [alGet_alDel_self_of_nodup s.lockQueue t hnq]
      | cons a l => simp [alGet_alSet_self]
    constructor
    · intro hfresh
      refine ⟨?_, ?_, ?_⟩ <;>
        simp only [releaseLock, hlock, hq, beq_self_eq_true, if_true,
          if_pos hfresh]
      · exact alGet_alSet_self _ _ _
      · exact hqrest
    · intro hexp
      have hns : ¬ ((now : Int) - w.startTime < (w.timeout : Int)) := by omega
      refine ⟨?_, ?_, ?_⟩ <;>
        simp only [releaseLock, hlock, hq, beq_self_eq_true, if_true,
          if_neg hns]
      · exact alGet_alDel_self_of_nodup s.locks t hnl
      · exact hqrest
  · intro s0 t T1 T2 T3 n1 n2 n3 r1 r2 τ1 τ2 τ3 hl0 hq0 h21 h31 hτ2 hτ3 hr1 hr2
    have hb21 : (T1 == T2) = false := beq_eq_false_iff_ne.mpr (fun hh => h21 hh.symm)
    have hb31 : (T1 == T3) = false := beq_eq_false_iff_ne.mpr (fun hh => h31 hh.symm)
    have hnt2 : ¬ ((n2 : Int) - n2 ≥ (τ2 : Int)) := by omega
    have hnt3 : ¬ ((n3 : Int) - n3 ≥ (τ3 : Int)) := by omega
    have ha1 : acquireLock s0 t T1 n1 τ1 =
        ({ s0 with locks := alSet s0.locks t T1 }, .acquired) := by
      simp only [acquireLock, hl0]
    refine ⟨by rw [ha1], by rw [ha1]; exact alGet_alSet_self _ _ _, ?_⟩
    simp only
    rw [ha1]
    have hl1 : alGet (alSet s0.locks t T1) t = some T1 := alGet_alSet_self _ _ _
    have ha2 : acquireLock ⟨alSet s0.locks t T1, s0.lockQueue⟩ t T2 n2 τ2 =
        (⟨alSet s0.locks t T1, alSet s0.lockQueue t [⟨T2, n2, τ2⟩]⟩, .queued) := by
      simp only [acquireLock, hl1, hb21, Bool.false_eq_true, if_false,
        if_neg hnt2, hq0, Option.getD_none, List.nil_append]
    rw [ha2]
    have hq2 : alGet (alSet s0.lockQueue t [⟨T2, n2, τ2⟩]) t
        = some [⟨T2, n2, τ2⟩] := alGet_alSet_self _ _ _
    have ha3 : acquireLock ⟨alSet s0.locks t T1, alSet s0.lockQueue t [⟨T2, n2, τ2⟩]⟩
          t T3 n3 τ3 =
        (⟨alSet s0.locks t T1,
          alSet (alSet s0.lockQueue t [⟨T2, n2, τ2⟩]) t
            [⟨T2, n2, τ2⟩, ⟨T3, n3, τ3⟩]⟩, .queued) := by
      simp only [acquireLock, hl1, hb31, Bool.false_eq_true, if_false,
        if_neg hnt3, hq2, Option.getD_some, List.cons_append, List.nil_append]
    rw [ha3]
    have hq3 : alGet (alSet (alSet s0.lockQueue t [⟨T2, n2, τ2⟩]) t
          [⟨T2, n2, τ2⟩, ⟨T3, n3, τ3⟩]) t
        = some [⟨T2, n2, τ2⟩, ⟨T3, n3, τ3⟩] := alGet_alSet_self _ _ _
    have hrel1 : releaseLock ⟨alSet s0.locks t T1,
          alSet (alSet s0.lockQueue t [⟨T2, n2, τ2⟩]) t
            [⟨T2, n2, τ2⟩, ⟨T3, n3, τ3⟩]⟩ t T1 r1 =
        (⟨alSet (alDel (alSet s0.locks t T1) t) t T2,
          alSet (alSet (alSet s0.lockQueue t [⟨T2, n2, τ2⟩]) t
            [⟨T2, n2, τ2⟩, ⟨T3, n3, τ3⟩]) t [⟨T3, n3, τ3⟩]⟩,
          some (.granted T2)) := by
      simp only [releaseLock, hl1, hq3, beq_self_eq_true, if_true,
        List.isEmpty_cons, Bool.false_eq_true, if_false, if_pos hr1]
    rw [hrel1]
    have hlT2 : alGet (alSet (alDel (alSet s0.locks t T1) t) t T2) t = some T2 :=
      alGet_alSet_self _ _ _
    refine ⟨rfl, rfl, rfl, hlT2, ?_⟩
    have hq4 : alGet (alSet (alSet (alSet s0.lockQueue t [⟨T2, n2, τ2⟩]) t
          [⟨T2, n2, τ2⟩, ⟨T3, n3, τ3⟩]) t [⟨T3, n3, τ3⟩]) t
        = some [⟨T3, n3, τ3⟩] := alGet_alSet_self _ _ _
    have hrel2 : releaseLock ⟨alSet (alDel (alSet s0.locks t T1) t) t T2,
          alSet (alSet (alSet s0.lockQueue t [⟨T2, n2, τ2⟩]) t
            [⟨T2, n2, τ2⟩, ⟨T3, n3, τ3⟩]) t [⟨T3, n3, τ3⟩]⟩ t T2 r2 =
        (⟨alSet (alDel (alSet (alDel (alSet s0.locks t T1) t) t T2) t) t T3,
          alDel (alSet (alSet (alSet s0.lockQueue t [⟨T2, n2, τ2⟩]) t
            [⟨T2, n2, τ2⟩, ⟨T3, n3, τ3⟩]) t [⟨T3, n3, τ3⟩]) t⟩,
          some (.granted T3)) := by
      simp only [releaseLock, hlT2, hq4, beq_self_eq_true, if_true,
        List.isEmpty_nil, if_pos hr2]
    rw [hrel2]
    exact ⟨rfl, alGet_alSet_self _ _ _⟩

/-- C4 witness: the head-waiter release behaviour evaluated at a concrete
state (holder `T0`, fresh head waiter `T1`), discharging every
hypothesis. -/
theorem releaseLock_head_waiter_and_fifo_witness :
    alGet (releaseLock ⟨[("t", "T0")], [("t", [⟨"T1", 0, 10⟩])]⟩
        "t" "T0" 5).1.locks "t" = some "T1"
    ∧ (releaseLock ⟨[("t", "T0")], [("t", [⟨"T1", 0, 10⟩])]⟩
        "t" "T0" 5).2 = some (.granted "T1") := by
  have h := (releaseLock_head_waiter_and_fifo.1
    ⟨[("t", "T0")], [("t", [⟨"T1", 0, 10⟩])]⟩ "t" "T0" 5 ⟨"T1", 0, 10⟩ []
    rfl rfl (by decide) (by decide)).1 (by decide)
  exact ⟨h.1, h.2.1⟩

/-! # Claim C7: close, WAL flush and final checkpoint

`close` / `_flushWAL` / `_checkpoint` (src/SlimCryptDB.js lines 538–560,
687–716, 1639–1678).  File writes are collected as an output list; each
write records which buffered entries it persisted (`_encryptWALData` is a
per-entry map and does not change which entries a flush persists, so the
payload is modelled as the entry list itself).  Key zeroization
(`buffer.fill(0)` followed by nulling the reference) is modelled as the
reference becoming `none`.
-/

/-- The engine state read and written by `close`. -/
structure EngineState where
  isClosed : Bool
  isCheckpointing : Bool
  checkpointTimer : Bool
  walBuffer : List String
  locks : List (String × String)
  lockQueue : List (String × List Waiter)
  transactions : List String
  encryptionKey : Option (List Nat)
  walKey : Option (List Nat)
  walSalt : Option (List Nat)
deriving DecidableEq

/-- `_flushWAL`: do nothing when the buffer is empty **or the engine is
closed**; otherwise write the encrypted buffer as one segment file and
clear the buffer. -/
def flushWALModel (s : EngineState) : EngineState × List (List String) :=
  if s.walBuffer.isEmpty || s.isClosed then (s, [])
  else ({ s with walBuffer := [] }, [s.walBuffer])

/-- `_checkpoint`: do nothing when a checkpoint is running **or the engine
is closed**; otherwise flush the WAL (and garbage-collect old segments,
which touches no buffered entry).  The third component reports whether the
checkpoint body ran. -/
def checkpointModel (s : EngineState) : EngineState × List (List String) × Bool :=
  if s.isCheckpointing || s.isClosed then (s, [], false)
  else
    let s1 := { s with isCheckpointing := true }
    let fl := flushWALModel s1
    ({ fl.1 with isCheckpointing := false }, fl.2, true)

/-- `close()`: early-return if already closed; otherwise set
`isClosed := true`, cancel the timer, call `_flushWAL`, call
`_checkpoint`, clear the lock/transaction maps and zeroize the key
buffers.  The second component is every file write performed, the third
whether the final checkpoint body ran. -/
def closeModel (s : EngineState) : EngineState × List (List String) × Bool :=
  if s.isClosed then (s, [], false)
  else
    let s1 := { s with isClosed := true, checkpointTimer := false }
    let fl := flushWALModel s1
    let cp := checkpointModel fl.1
    let s4 := { cp.1 with
                locks := []
                lockQueue := []
                transactions := []
                encryptionKey := none
                walKey := none
                walSalt := none }
    (s4, fl.2 ++ cp.2.1, cp.2.2)

/-- C7 failing input: an open engine with one buffered WAL entry. -/
def closeFailingState : EngineState :=
  { isClosed := false, isCheckpointing := false, checkpointTimer := true
  , walBuffer := ["wal-entry-1"], locks := [("t", "T")], lockQueue := []
  , transactions := ["T"], encryptionKey := some [1, 2], walKey := some [3]
  , walSalt := some [4] }

/-- C7.  `close()` sets `isClosed` before calling `_flushWAL` and
`_checkpoint`, and both early-return on `isClosed`: with one entry still
buffered, close performs **no** file write, the final checkpoint body
never runs, and the buffered entry is silently discarded (still sitting
in the in-memory buffer of a closed engine) — contradicting the code's
own comments. The second `close()` returns unchanged without throwing. -/
theorem close_discards_buffered_wal_and_skips_checkpoint :
    (closeModel closeFailingState).2.1 = []
    ∧ (closeModel closeFailingState).2.2 = false
    ∧ (closeModel closeFailingState).1.walBuffer = ["wal-entry-1"]
    ∧ (closeModel closeFailingState).1.isClosed = true
    ∧ closeFailingState.walBuffer ≠ []
    ∧ closeModel (closeModel closeFailingState).1
        = ((closeModel closeFailingState).1, [], false) := by
  decide

/-! # Claim C8: condition evaluation on missing columns

`_evaluateCondition` (src/SlimCryptDB.js lines 1343–1369).  Regular
expression matching (`like` / `contains`) is a parameter: only the
pattern, the flag and the input string that reach `RegExp.test` matter to
the claims. -/

/-- JavaScript `Number(string)` restricted to the integer-valued number
domain of the model: trimmed empty string is `0`, optionally signed digit
strings are parsed, anything else — including the fractional and
exponent literals that fall outside the integer domain — is `NaN`
(`none`). -/
def jsStrToNum (s : String) : Option Int :=
  let t := s.trim
  if t = "" then some 0
  else
    let (sgn, digits) :=
      if t.startsWith "-" then ((-1 : Int), t.drop 1)
      else if t.startsWith "+" then ((1 : Int), t.drop 1)
      else ((1 : Int), t)
    if digits ≠ "" ∧ digits.all (·.isDigit) then
      some (sgn * (digits.toNat!))
    else none

/-- `ToPrimitive` with number hint: arrays and objects go through
`toString`. -/
def jsToPrim (v : JsVal) : JsVal :=
  match v with
  | .varr xs => .vstr (jsToString (.varr xs))
  | .vobj kvs => .vstr (jsToString (.vobj kvs))
  | p => p

/-- `ToNumber` of a primitive. -/
def jsPrimToNum : JsVal → Option Int
  | .vnull => some 0
  | .vbool b => some (if b then 1 else 0)
  | .vnum n => some n
  | .vstr s => jsStrToNum s
  | v => jsStrToNum (jsToString v)

/-- The ECMAScript abstract relational comparison `a < b`: string–string
pairs compare lexicographically, otherwise both sides are converted to
numbers; `none` is the *undefined* outcome (a `NaN` was involved, or an
operand is `undefined`). -/
def jsCmpLt (a b : Option JsVal) : Option Bool :=
  match a, b with
  | some x, some y =>
    match jsToPrim x, jsToPrim y with
    | .vstr p, .vstr q => some (decide (p < q))
    | px, py =>
      match jsPrimToNum px, jsPrimToNum py with
      | some m, some n => some (decide (m < n))
      | _, _ => none
  | _, _ => none

/-- `a < b` (undefined outcome is `false`). -/
def jsLtO (a b : Option JsVal) : Bool := (jsCmpLt a b).getD false

/-- `a > b`. -/
def jsGtO (a b : Option JsVal) : Bool := (jsCmpLt b a).getD false

/-- `a <= b` (`!(b < a)` unless the comparison is undefined). -/
def jsLeO (a b : Option JsVal) : Bool :=
  match jsCmpLt b a with
  | some r => !r
  | none => false

/-- `a >= b`. -/
def jsGeO (a b : Option JsVal) : Bool :=
  match jsCmpLt a b with
  | some r => !r
  | none => false

/-- A filter condition `{column, operator, value}`. -/
structure QCond where
  column : String
  operator : String
  value : JsVal

/-- The input string handed to `RegExp.test` — `ToString` of the row
value, with `undefined` rendering as `"undefined"`. -/
def jsTestInput : Option JsVal → String
  | some v => jsToString v
  | none => "undefined"

/-- `_evaluateCondition`: switch on the comparison operator; unknown
operators yield `false`.  `regexTest pattern ignoreCase input` models
`new RegExp(pattern, flags).test(input)`. -/
def evaluateCondition (regexTest : String → Bool → String → Bool)
    (item : JsRow) (cond : QCond) : Bool :=
  let itemValue := rowGet item cond.column
  match cond.operator with
  | "==" => jsEqO itemValue (some cond.value)
  | "!=" => !(jsEqO itemValue (some cond.value))
  | ">" => jsGtO itemValue (some cond.value)
  | ">=" => jsGeO itemValue (some cond.value)
  | "<" => jsLtO itemValue (some cond.value)
  | "<=" => jsLeO itemValue (some cond.value)
  | "in" =>
    match cond.value, itemValue with
    | .varr xs, some iv => xs.any (fun x => jsEq x iv)
    | _, _ => false
  | "like" => regexTest (jsToString cond.value) true (jsTestInput itemValue)
  | "contains" => regexTest (jsToString cond.value) false (jsTestInput itemValue)
  | _ => false

/-- C8 counterexample: on the row `{}` (column `a` missing) the condition
`{column: "a", operator: "!=", value: 5}` evaluates to `true`
(`undefined !== 5`), not `false` as the claim states. -/
theorem evaluateCondition_missing_column_bang_eq_true :
    evaluateCondition (fun _ _ _ => false) []
      ⟨"a", "!=", .vnum 5⟩ = true := by
  rfl

/-- C8 (amended).  On a row lacking the named column, `==`, `>`, `>=`,
`<`, `<=` and `in` evaluate to `false`; `!=` evaluates to `true`
(`undefined !== value` for every modelled JSON value); and `like` /
`contains` coerce the missing value to the string `"undefined"` and
return whatever the compiled pattern says about it. -/
theorem evaluateCondition_missing_column (regexTest : String → Bool → String → Bool)
    (item : JsRow) (cond : QCond) (hmiss : rowGet item cond.column = none) :
    (cond.operator = "==" → evaluateCondition regexTest item cond = false)
    ∧ (cond.operator = ">" → evaluateCondition regexTest item cond = false)
    ∧ (cond.operator = ">=" → evaluateCondition regexTest item cond = false)
    ∧ (cond.operator = "<" → evaluateCondition regexTest item cond = false)
    ∧ (cond.operator = "<=" → evaluateCondition regexTest item cond = false)
    ∧ (cond.operator = "in" → evaluateCondition regexTest item cond = false)
    ∧ (cond.operator = "!=" → evaluateCondition regexTest item cond = true)
    ∧ (cond.operator = "like" →
        evaluateCondition regexTest item cond
          = regexTest (jsToString cond.value) true "undefined")
    ∧ (cond.operator = "contains" →
        evaluateCondition regexTest item cond
          = regexTest (jsToString cond.value) false "undefined") := by
  refine ⟨?_, ?_, ?_, ?_, ?_, ?_, ?_, ?_, ?_⟩ <;> intro hop <;>
    simp only [evaluateCondition, hop, hmiss]
  · rfl
  · rfl
  · rfl
  · rfl
  · rfl
  · cases cond.value <;> rfl
  · rfl
  · rfl
  · rfl

/-- C8 witness: the amended statement evaluated on the empty row at each
operator. -/
theorem evaluateCondition_missing_column_witness :
    evaluateCondition (fun _ _ _ => false) [] ⟨"a", "==", .vnum 5⟩ = false
    ∧ evaluateCondition (fun _ _ _ => false) [] ⟨"a", "<", .vnum 5⟩ = false
    ∧ evaluateCondition (fun _ _ s => s = "undefined") [] ⟨"a", "like", .vstr "undef"⟩
        = true := by
  refine ⟨?_, ?_, ?_⟩
  · exact (evaluateCondition_missing_column (fun _ _ _ => false) []
      ⟨"a", "==", .vnum 5⟩ rfl).1 rfl
  · exact (evaluateCondition_missing_column (fun _ _ _ => false) []
      ⟨"a", "<", .vnum 5⟩ rfl).2.2.2.1 rfl
  · have h := (evaluateCondition_missing_column (fun _ _ s => s = "undefined") []
      ⟨"a", "like", .vstr "undef"⟩ rfl).2.2.2.2.2.2.2.1 rfl
    rw [h]
    decide

/-! # Claim C2: queryData and the index-assisted path

`queryData` / `_getDataWithIndex` / `_applyFilter` / `_applySort`
(src/SlimCryptDB.js lines 1261–1382).  The state is the decoded data
layer: per-table row lists (the file codec behind `readData` is modelled
with claim C1) and the in-memory index registry.  `join` is omitted: the
class does not define the `_applyJoin` it would call, so a join query
throws and is outside every claim. -/

/-- An entry of `this.indexes`: owning table, indexed columns, type,
uniqueness flag, and the key → id-list bucket map. -/
structure DBIndex where
  tableName : String
  columns : List String
  itype : String
  unique : Bool
  data : List (String × List (Option JsVal))

/-- The decoded data layer: `this.indexes` plus one decoded row list per
existing table file. -/
structure DataState where
  tables : List (String × List JsRow)
  indexes : List (String × DBIndex)

/-- `_buildIndexKey`: `columns.map(col => item[col]).join('::')`. -/
def buildIndexKey (item : JsRow) (columns : List String) : String :=
  String.intercalate "::" (columns.map (fun c => jsJoinElem (rowGet item c)))

/-- One element of a filter's `conditions` array: a plain condition or a
nested filter object.  The code never recurses into nested filters: their
`operator` (`"and"`/`"or"` by the query grammar) falls through
`_evaluateCondition`'s switch to the `false` default, and
`_getDataWithIndex` skips them because their `column` is `undefined`. -/
inductive QElem where
  | simple : QCond → QElem
  | nested : String → List QElem → QElem

/-- A filter `{operator, conditions}`. -/
structure QFilter where
  operator : String
  conditions : List QElem

/-- `_evaluateCondition` applied to a conditions-array element. -/
def evaluateElem (regexTest : String → Bool → String → Bool)
    (item : JsRow) : QElem → Bool
  | .simple c => evaluateCondition regexTest item c
  | .nested _ _ => false

/-- `_applyFilter`: `and` conjoins, `or` disjoins, any other operator
keeps every row. -/
def applyFilter (regexTest : String → Bool → String → Bool)
    (rows : List JsRow) (f : QFilter) : List JsRow :=
  rows.filter (fun item =>
    if f.operator = "and" then f.conditions.all (evaluateElem regexTest item)
    else if f.operator = "or" then f.conditions.any (evaluateElem regexTest item)
    else true)

/-- A sort clause; `direction` defaults to `"asc"`. -/
structure QSort where
  column : String
  direction : Option String

/-- The `_applySort` comparator on two rows. -/
def sortComparator (s : QSort) (a b : JsRow) : Int :=
  let dir := s.direction.getD "asc"
  let aVal := rowGet a s.column
  let bVal := rowGet b s.column
  if jsLtO aVal bVal then (if dir = "asc" then -1 else 1)
  else if jsGtO aVal bVal then (if dir = "asc" then 1 else -1)
  else 0

/-- `_applySort`: a stable sort of a copy of the data by the comparator
(JavaScript `Array.prototype.sort` is stable). -/
def applySort (rows : List JsRow) (s : QSort) : List JsRow :=
  rows.mergeSort (fun a b => sortComparator s a b ≤ 0)

/-- A query `{filter, sort, limit, offset}`. -/
structure DBQuery where
  filter : Option QFilter
  sort : Option QSort
  limit : Option Nat
  offset : Option Nat

/-- `readData(tableName, {})` at the data layer: all rows of the table, in
order (the empty query keeps every row), or a table-missing error. -/
def readRows (s : DataState) (t : String) : Except String (List JsRow) :=
  match alGet s.tables t with
  | some rows => .ok rows
  | none => .error "Table does not exist"

/-- The index-selection loop of `_getDataWithIndex`: the first registered
index owned by the table for which `conditions.find?` produces an
equality condition on one of the index's columns. -/
def findIndexMatch : List (String × DBIndex) → String → List QElem →
    Option (DBIndex × QCond)
  | [], _, _ => none
  | (_, idx) :: rest, t, conds =>
    if idx.tableName == t then
      match conds.find? (fun e =>
        match e with
        | .simple c => idx.columns.contains c.column && c.operator == "=="
        | .nested _ _ => false) with
      | some (.simple c) => some (idx, c)
      | _ => findIndexMatch rest t conds
    else findIndexMatch rest t conds

/-- `_getDataWithIndex`: `none` when no filter/index applies; otherwise
look the condition's value up in the bucket map (the bucket keys are the
strings produced by `_buildIndexKey`, so only a string value can hit) and
keep the rows whose `id` is in the bucket. -/
def getDataWithIndex (s : DataState) (t : String) (filter : Option QFilter) :
    Except String (Option (List JsRow)) :=
  match filter with
  | none => .ok none
  | some f =>
    match findIndexMatch s.indexes t f.conditions with
    | some (idx, cond) =>
      let ids := match cond.value with
        | .vstr sv => (alGet idx.data sv).getD []
        | _ => []
      (readRows s t).map (fun allData =>
        some (allData.filter (fun item =>
          ids.any (fun idv => jsEqO idv (rowGet item "id")))))
    | none => .ok none

/-- `queryData`: index-assisted fetch with full-scan fallback, then
filter, sort and pagination. -/
def queryData (regexTest : String → Bool → String → Bool)
    (s : DataState) (t : String) (q : DBQuery) : Except String (List JsRow) :=
  match getDataWithIndex s t q.filter with
  | .error e => .error e
  | .ok dOpt =>
    match (match dOpt with | some d => Except.ok d | none => readRows s t) with
    | .error e => .error e
    | .ok data0 =>
      let data1 := match q.filter with
        | some f => applyFilter regexTest data0 f
        | none => data0
      let data2 := match q.sort with
        | some srt => applySort data1 srt
        | none => data1
      let data3 :=
        if q.limit.getD 0 ≠ 0 ∨ q.offset.getD 0 ≠ 0 then
          let start := q.offset.getD 0
          if q.limit.getD 0 ≠ 0 then (data2.drop start).take (q.limit.getD 0)
          else data2.drop start
        else data2
      .ok data3

/-- C2 counterexample, the table. -/
def cexRow1 : JsRow := [("id", .vstr "1"), ("a", .vstr "x")]

/-- C2 counterexample, second row. -/
def cexRow2 : JsRow := [("id", .vstr "2"), ("a", .vstr "y")]

/-- C2 counterexample state: two rows and a perfectly synchronized
single-column index on `a`. -/
def cexState : DataState :=
  ⟨[("t", [cexRow1, cexRow2])],
   [("idx", ⟨"t", ["a"], "btree", false,
      [("x", [some (.vstr "1")]), ("y", [some (.vstr "2")])]⟩)]⟩

/-- C2 counterexample filter: `or(a == "x", a == "y")`, satisfied by both
rows. -/
def cexFilter : QFilter :=
  ⟨"or", [.simple ⟨"a", "==", .vstr "x"⟩, .simple ⟨"a", "==", .vstr "y"⟩]⟩

/-- C2 counterexample: with the filter operator `or`, the index-assisted
path pre-restricts the table to the bucket of the first equality condition
(`a == "x"`), then applies the `or` filter — returning only the first row,
while both rows satisfy the filter semantics.  `queryData` therefore does
not return the satisfying row set. -/
theorem queryData_or_with_index_drops_rows :
    queryData (fun _ _ _ => false) cexState "t" ⟨some cexFilter, none, none, none⟩
      = .ok [cexRow1]
    ∧ applyFilter (fun _ _ _ => false) [cexRow1, cexRow2] cexFilter
      = [cexRow1, cexRow2]
    ∧ queryData (fun _ _ _ => false) cexState "t" ⟨some cexFilter, none, none, none⟩
      ≠ .ok (applyFilter (fun _ _ _ => false) [cexRow1, cexRow2] cexFilter) := by
  refine ⟨rfl, rfl, ?_⟩
  intro h
  rw [show applyFilter (fun _ _ _ => false) [cexRow1, cexRow2] cexFilter
      = [cexRow1, cexRow2] from rfl] at h
  rw [show queryData (fun _ _ _ => false) cexState "t"
        ⟨some cexFilter, none, none, none⟩ = .ok [cexRow1] from rfl] at h
  injection h with h'
  injection h' with h1 h2
  exact List.noConfusion h2

theorem findIndexMatch_spec (inds : List (String × DBIndex)) (t : String)
    (conds : List QElem) (idx : DBIndex) (c : QCond)
    (h : findIndexMatch inds t conds = some (idx, c)) :
    QElem.simple c ∈ conds ∧ idx.columns.contains c.column = true
      ∧ c.operator = "==" := by
  induction inds with
  | nil => simp [findIndexMatch] at h
  | cons p rest ih =>
    obtain ⟨nm, i⟩ := p
    simp only [findIndexMatch] at h
    by_cases ht : (i.tableName == t) = true
    · rw [if_pos ht] at h
      cases hf : conds.find? (fun e =>
          match e with
          | .simple c => i.columns.contains c.column && c.operator == "=="
          | .nested _ _ => false) with
      | none => rw [hf] at h; exact ih h
      | some e =>
        rw [hf] at h
        cases e with
        | simple c' =>
          simp only [Option.some.injEq, Prod.mk.injEq] at h
          obtain ⟨h1, h2⟩ := h
          subst h1; subst h2
          have hm := List.mem_of_find?_eq_some hf
          have hp := List.find?_some hf
          simp only [Bool.and_eq_true, beq_iff_eq] at hp
          exact ⟨hm, hp.1, hp.2⟩
        | nested op cs => exact ih h
    · rw [if_neg ht] at h; exact ih h

theorem filter_filter_of_imp {α : Type} (p q : α → Bool) (l : List α)
    (h : ∀ x ∈ l, p x = true → q x = true) :
    (l.filter q).filter p = l.filter p := by
  induction l with
  | nil => rfl
  | cons x xs ih =>
    have hx := h x (List.mem_cons_self x xs)
    have ih' := ih (fun y hy => h y (List.mem_cons_of_mem _ hy))
    by_cases hq : q x = true
    · by_cases hp : p x = true <;> simp [List.filter_cons, hq, hp, ih']
    · have hp : p x = false := by
        cases hpx : p x
        · rfl
        · exact absurd (hx hpx) hq
      simp [List.filter_cons, hq, hp, ih']

/-- C2 (amended).  When the filter's operator is `and` and the index the
code selects (the first index of the table with an equality condition on
one of its columns) is queried at a string value whose bucket contains
the id of every row whose indexed column strictly equals that value, the
index-assisted `queryData` returns exactly the rows satisfying the `and`
filter semantics — the same list the full-table-scan path produces.
With operator `or` the index path can drop satisfying rows. -/
theorem queryData_index_scan_equivalence
    (regexTest : String → Bool → String → Bool) (s : DataState) (t : String)
    (f : QFilter) (rows : List JsRow) (idx : DBIndex) (cond : QCond) (sv : String)
    (hrows : alGet s.tables t = some rows)
    (hop : f.operator = "and")
    (hsel : findIndexMatch s.indexes t f.conditions = some (idx, cond))
    (hval : cond.value = .vstr sv)
    (hcomplete : ∀ r ∈ rows,
      jsEqO (rowGet r cond.column) (some (.vstr sv)) = true →
      ((alGet idx.data sv).getD []).any
          (fun idv => jsEqO idv (rowGet r "id")) = true) :
    queryData regexTest s t ⟨some f, none, none, none⟩
      = .ok (applyFilter regexTest rows f)
    ∧ applyFilter regexTest rows f
      = rows.filter (fun item => f.conditions.all (evaluateElem regexTest item)) := by
  obtain ⟨op, conds⟩ := f
  simp only at hop
  subst hop
  obtain ⟨hmem, hcols, hcop⟩ := findIndexMatch_spec s.indexes t conds idx cond hsel
  have hAnd : applyFilter regexTest rows ⟨"and", conds⟩
      = rows.filter (fun item => conds.all (evaluateElem regexTest item)) := by
    simp [applyFilter]
  have himp : ∀ x ∈ rows,
      conds.all (evaluateElem regexTest x) = true →
      ((alGet idx.data sv).getD []).any
        (fun idv => jsEqO idv (rowGet x "id")) = true := by
    intro x hxmem hall
    have hc := (List.all_eq_true.mp hall) (QElem.simple cond) hmem
    have hev : jsEqO (rowGet x cond.column) (some cond.value) = true := by
      simpa [evaluateElem, evaluateCondition, hcop] using hc
    rw [hval] at hev
    exact hcomplete x hxmem hev
  have hgd : getDataWithIndex s t (some ⟨"and", conds⟩)
      = .ok (some (rows.filter (fun item =>
          ((alGet idx.data sv).getD []).any
            (fun idv => jsEqO idv (rowGet item "id"))))) := by
    simp only [getDataWithIndex, hsel, hval, readRows, hrows]
    rfl
  constructor
  · simp only [queryData, hgd]
    simp only [Option.getD_none, ne_eq, not_true_eq_false, or_self, if_false]
    rw [hAnd]
    have := filter_filter_of_imp
      (fun item => conds.all (evaluateElem regexTest item))
      (fun item => ((alGet idx.data sv).getD []).any
        (fun idv => jsEqO idv (rowGet item "id")))
      rows himp
    simp only [applyFilter]
    simp only [reduceIte]
    rw [this]
  · exact hAnd

/-- C2 witness: the equivalence evaluated on the concrete synchronized
single-column index state with the `and` filter `a == "x"`. -/
theorem queryData_index_scan_equivalence_witness :
    queryData (fun _ _ _ => false) cexState "t"
        ⟨some ⟨"and", [.simple ⟨"a", "==", .vstr "x"⟩]⟩, none, none, none⟩
      = .ok (applyFilter (fun _ _ _ => false) [cexRow1, cexRow2]
          ⟨"and", [.simple ⟨"a", "==", .vstr "x"⟩]⟩) := by
  exact (queryData_index_scan_equivalence (fun _ _ _ => false) cexState "t"
    ⟨"and", [.simple ⟨"a", "==", .vstr "x"⟩]⟩ [cexRow1, cexRow2]
    ⟨"t", ["a"], "btree", false,
      [("x", [some (.vstr "1")]), ("y", [some (.vstr "2")])]⟩
    ⟨"a", "==", .vstr "x"⟩ "x" rfl rfl rfl rfl
    (by
      intro r hr hx
      simp only [cexRow1, cexRow2, List.mem_cons, List.mem_singleton] at hr
      rcases hr with rfl | rfl | h
      · rfl
      · simp [rowGet, jsEqO, jsEq] at hx
      · cases h)).1

/-! # Claim C3: the index entry invariant

`_updateIndexesForAdd` / `_updateIndexesForUpdate` /
`_updateIndexesForDelete`, the CRUD entry points `addData` / `updateData`
/ `deleteData` with their implicit-transaction commit path, and
`rollbackTransaction` (src/SlimCryptDB.js lines 995–1256, 1517–1606).
Indexes are updated eagerly while operations are only *buffered*; commits
apply the buffered operations to the table file.  The data layer of claim
C2 is reused. -/

theorem jsEq_eq_of_true {a b : JsVal} (h : jsEq a b = true) : a = b := by
  cases a <;> cases b <;> simp_all [jsEq]

theorem jsEqO_eq_of_true {x y : Option JsVal} (h : jsEqO x y = true) : x = y := by
  cases x <;> cases y <;> simp_all [jsEqO]
  exact jsEq_eq_of_true h

theorem jsEq_refl_of_prim {v : JsVal} (h : jsPrim v = true) : jsEq v v = true := by
  cases v <;> simp_all [jsEq, jsPrim]

theorem jsEqO_comm (x y : Option JsVal) : jsEqO x y = jsEqO y x := by
  cases x
  all_goals cases y
  all_goals simp [jsEqO]
  rename_i a b
  cases a <;> cases b <;> simp [jsEq, BEq.comm]

theorem rowGet_rowSet_self (r : JsRow) (k : String) (v : JsVal) :
    rowGet (rowSet r k v) k = some v := by
  induction r with
  | nil => simp [rowGet, rowSet, List.find?]
  | cons p rest ih =>
    obtain ⟨k', v'⟩ := p
    by_cases h : k' = k
    · simp [rowGet, rowSet, h, List.find?]
    · have hb : (k' == k) = false := beq_eq_false_iff_ne.mpr h
      simp only [rowSet, hb, Bool.false_eq_true, if_false]
      simp only [rowGet, List.find?, hb]
      exact ih

/-- Truthiness of a possibly-`undefined` value (`undefined` is falsy). -/
def jsTruthyO : Option JsVal → Bool
  | some v => jsTruthy v
  | none => false

/-- Well-formedness of one row for the index machinery: its `id` is
present, truthy and primitive. -/
def rowIdOkB (r : JsRow) : Bool :=
  match rowGet r "id" with
  | some v => jsTruthy v && jsPrim v
  | none => false

/-- How many rows of the list carry an id `===`-equal to `q`. -/
def rowIdCount (rows : List JsRow) (q : Option JsVal) : Nat :=
  rows.countP (fun r => jsEqO (rowGet r "id") q)

/-- Well-formedness of a table: every row has a truthy primitive id and
no id occurs on two rows. -/
def tableWfB (rows : List JsRow) : Bool :=
  rows.all rowIdOkB
    && rows.all (fun r => decide (rowIdCount rows (rowGet r "id") ≤ 1))

/-- Bucket-map keys are pairwise distinct (a JavaScript `Map` invariant). -/
def alKeysDistinctB {α : Type} : List (String × α) → Bool
  | [] => true
  | (k, _) :: rest => rest.all (fun p => p.1 != k) && alKeysDistinctB rest

/-- How many `===`-occurrences of `q` one bucket holds. -/
def bucketIdCount (ids : List (Option JsVal)) (q : Option JsVal) : Nat :=
  ids.countP (fun x => jsEqO x q)

/-- How many `===`-occurrences of `q` the whole bucket map holds. -/
def idCount (d : List (String × List (Option JsVal))) (q : Option JsVal) : Nat :=
  (d.map (fun kv => bucketIdCount kv.2 q)).sum

/-- Well-formedness of one index: distinct bucket keys, and no id listed
twice across the buckets. -/
def indexWfB (idx : DBIndex) : Bool :=
  alKeysDistinctB idx.data
    && idx.data.all (fun kv => kv.2.all (fun x => decide (idCount idx.data x ≤ 1)))

/-- Well-formedness of the data layer. -/
def stateWfB (s : DataState) : Bool :=
  s.tables.all (fun tr => tableWfB tr.2)
    && s.indexes.all (fun pr => indexWfB pr.2)

/-- The C3 invariant, exactly as the specification states it: every id
listed under a key `k` of an index resolves (by `===`) to a row currently
present in the owning table whose indexed columns, joined with `::`,
produce exactly `k`. -/
def indexInvariant (s : DataState) : Prop :=
  ∀ pr ∈ s.indexes, ∀ kv ∈ pr.2.data, ∀ idv ∈ kv.2,
    ∃ r ∈ (alGet s.tables pr.2.tableName).getD [],
      jsEqO (rowGet r "id") idv = true ∧ buildIndexKey r pr.2.columns = kv.1

instance (s : DataState) : Decidable (indexInvariant s) := by
  unfold indexInvariant
  infer_instance

/-- Append an id to a key's bucket (`if (!has(key)) set(key, []); get(key).push(id)`). -/
def idxAppendId (d : List (String × List (Option JsVal))) (key : String)
    (idv : Option JsVal) : List (String × List (Option JsVal)) :=
  alSet d key (((alGet d key).getD []) ++ [idv])

/-- Remove the first `===`-occurrence of an id from a bucket
(`indexOf` + `splice(i, 1)`; no change when absent). -/
def bucketRemoveFirst (ids : List (Option JsVal)) (idv : Option JsVal) :
    List (Option JsVal) :=
  match ids with
  | [] => []
  | x :: rest =>
    if jsEqO x idv then rest else x :: bucketRemoveFirst rest idv

/-- Remove an id from a key's bucket, deleting the bucket when it
empties; no change when the key or the id is absent. -/
def idxRemoveId (d : List (String × List (Option JsVal))) (key : String)
    (idv : Option JsVal) : List (String × List (Option JsVal)) :=
  match alGet d key with
  | some ids =>
    if ids.any (fun x => jsEqO x idv) then
      let ids' := bucketRemoveFirst ids idv
      if ids'.isEmpty then alDel d key else alSet d key ids'
    else d
  | none => d

/-- `_updateIndexesForAdd`: walk the registry in order; on a unique-key
violation stop with the error, keeping the updates already made to
earlier indexes (the thrown exception aborts the loop). -/
def updateIndexesForAdd (t : String) (data : JsRow) :
    List (String × DBIndex) → List (String × DBIndex) × Option String
  | [] => ([], none)
  | (nm, idx) :: rest =>
    if idx.tableName == t then
      let key := buildIndexKey data idx.columns
      if idx.unique && (alGet idx.data key).isSome then
        ((nm, idx) :: rest, some "Unique constraint violation")
      else
        let idx' := { idx with data := idxAppendId idx.data key (rowGet data "id") }
        let r := updateIndexesForAdd t data rest
        ((nm, idx') :: r.1, r.2)
    else
      let r := updateIndexesForAdd t data rest
      ((nm, idx) :: r.1, r.2)

/-- `_updateIndexesForUpdate`: for each index of the table whose key
changed, check uniqueness of the new key, remove the id from the old
bucket and append it to the new bucket; stop (with earlier updates kept)
on a unique-key violation. -/
def updateIndexesForUpdate (t : String) (oldData newData : JsRow) :
    List (String × DBIndex) → List (String × DBIndex) × Option String
  | [] => ([], none)
  | (nm, idx) :: rest =>
    if idx.tableName == t then
      let oldKey := buildIndexKey oldData idx.columns
      let newKey := buildIndexKey newData idx.columns
      if oldKey == newKey then
        let r := updateIndexesForUpdate t oldData newData rest
        ((nm, idx) :: r.1, r.2)
      else if idx.unique && (alGet idx.data newKey).isSome
          && !(((alGet idx.data newKey).getD []).any
                (fun x => jsEqO x (rowGet oldData "id"))) then
        ((nm, idx) :: rest, some "Unique constraint violation")
      else
        let d1 := idxRemoveId idx.data oldKey (rowGet oldData "id")
        let d2 := idxAppendId d1 newKey (rowGet newData "id")
        let r := updateIndexesForUpdate t oldData newData rest
        ((nm, { idx with data := d2 }) :: r.1, r.2)
    else
      let r := updateIndexesForUpdate t oldData newData rest
      ((nm, idx) :: r.1, r.2)

/-- `_updateIndexesForDelete`: remove the record's id from the bucket of
its key in every index of the table (never throws). -/
def updateIndexesForDelete (t : String) (data : JsRow)
    (idxs : List (String × DBIndex)) : List (String × DBIndex) :=
  idxs.map (fun p =>
    if p.2.tableName == t then
      let d := idxRemoveId p.2.data (buildIndexKey data p.2.columns) (rowGet data "id")
      (p.1, { p.2 with data := d })
    else p)

/-- The plain-object filter match used by `updateData`/`deleteData`
(`Object.entries(filter).every(([k, v]) => item[k] === v)`; the `RegExp`
filter-value branch lies outside the modelled JSON value domain). -/
def rowsMatchQuery (row : JsRow) (filter : List (String × JsVal)) : Bool :=
  filter.all (fun p => jsEqO (rowGet row p.1) (some p.2))

/-- `findIndex(item => item.id === id)` followed by `existingData[index] =
newData`; `none` when no row matches. -/
def replaceFirstById (rows : List JsRow) (idv : Option JsVal)
    (newData : JsRow) : Option (List JsRow) :=
  match rows with
  | [] => none
  | r :: rest =>
    if jsEqO (rowGet r "id") idv then some (newData :: rest)
    else (replaceFirstById rest idv newData).map (r :: ·)

/-- `findIndex` followed by `splice(index, 1)`; `none` when no row
matches. -/
def removeFirstById (rows : List JsRow) (idv : Option JsVal) :
    Option (List JsRow) :=
  match rows with
  | [] => none
  | r :: rest =>
    if jsEqO (rowGet r "id") idv then some rest
    else (removeFirstById rest idv).map (r :: ·)

/-- Object spread `{ ...record, ...updateData }`: the record's fields in
order with updated values substituted, then the update's fresh fields. -/
def rowMerge (r u : JsRow) : JsRow :=
  r.map (fun p => (p.1, (rowGet u p.1).getD p.2))
    ++ u.filter (fun p => (rowGet r p.1).isNone)

/-- The updated record built by `updateData`: the merge, with the
original id restored when the record's id is truthy. -/
def mkUpdatedRecord (r upd : JsRow) : JsRow :=
  let merged := rowMerge r upd
  match rowGet r "id" with
  | some v => if jsTruthy v then rowSet merged "id" v else merged
  | none => merged

/-- `_validateSchema`: look the table's schema up and validate, accepting
everything when no schema is registered. -/
def validateSchemaFor (schemas : List (String × JsSchema)) (t : String)
    (data : JsVal) : Except ValErr Unit :=
  match alGet schemas t with
  | none => .ok ()
  | some sch => validateDataAgainstSchema data sch

/-- `_applyAddOperation` at the data layer: duplicate-id check, then
append and rewrite the table. -/
def applyAddOp (t : String) (data : JsRow) (s : DataState) :
    Except String DataState :=
  match alGet s.tables t with
  | none => .error "Table does not exist"
  | some rows =>
    if rows.any (fun item => jsEqO (rowGet item "id") (rowGet data "id")) then
      .error "Duplicate ID"
    else .ok { s with tables := alSet s.tables t (rows ++ [data]) }

/-- The commit loop over buffered `update` operations
(`_applyUpdateOperation` per operation, in buffer order; an error stops
the loop with the table writes made so far kept). -/
def commitUpdateOps (t : String) :
    List (Option JsVal × JsRow) → DataState → DataState × Option String
  | [], s => (s, none)
  | (idv, nd) :: rest, s =>
    match alGet s.tables t with
    | none => (s, some "Table does not exist")
    | some rows =>
      match replaceFirstById rows idv nd with
      | none => (s, some "Record not found")
      | some rows' =>
        commitUpdateOps t rest { s with tables := alSet s.tables t rows' }

/-- The commit loop over buffered `delete` operations. -/
def commitDeleteOps (t : String) :
    List (Option JsVal) → DataState → DataState × Option String
  | [], s => (s, none)
  | idv :: rest, s =>
    match alGet s.tables t with
    | none => (s, some "Table does not exist")
    | some rows =>
      match removeFirstById rows idv with
      | none => (s, some "Record not found")
      | some rows' =>
        commitDeleteOps t rest { s with tables := alSet s.tables t rows' }

/-- The buffering loop of `updateData`: for each matched record, build
the updated record, buffer the operation and maintain the indexes; a
unique-violation stops the loop (earlier index updates kept, the
transaction is rolled back so the buffered operations are irrelevant). -/
def bufferUpdates (t : String) (upd : JsRow) :
    List JsRow → List (String × DBIndex) →
    List (Option JsVal × JsRow) × List (String × DBIndex) × Option String
  | [], idxs => ([], idxs, none)
  | r :: rest, idxs =>
    let nd := mkUpdatedRecord r upd
    let step := updateIndexesForUpdate t r nd idxs
    match step.2 with
    | some err => ([], step.1, some err)
    | none =>
      let cont := bufferUpdates t upd rest step.1
      ((rowGet r "id", nd) :: cont.1, cont.2.1, cont.2.2)

/-- The effective record inserted by `addData`: the caller's object, with
a fresh random id assigned when its `id` is absent or falsy
(`if (!data.id) data.id = …`). -/
def addEffectiveData (genId : String) (data0 : JsRow) : JsRow :=
  if jsTruthyO (rowGet data0 "id") then data0
  else rowSet data0 "id" (.vstr genId)

/-- `addData` buffered inside a transaction (schema validation, id
generation, operation buffering and the **eager** index update), without
the commit.  The second component is the thrown error, if any. -/
def addDataBuffered (schemas : List (String × JsSchema)) (genId : String)
    (t : String) (data0 : JsRow) (s : DataState) : DataState × Option String :=
  match validateSchemaFor schemas t (.vobj data0) with
  | .error _ => (s, some "VALIDATION_ERROR")
  | .ok _ =>
    let step := updateIndexesForAdd t (addEffectiveData genId data0) s.indexes
    ({ s with indexes := step.1 }, step.2)

/-- `rollbackTransaction`: release locks, discard the operation buffer,
emit the event — tables and indexes are untouched. -/
def rollbackTransactionModel (s : DataState) : DataState := s

/-- Implicit-transaction `addData`: buffer (validating and updating
indexes eagerly), then commit the single buffered add.  Any error leaves
the partial effects already made (the rollback only discards the
buffer). -/
def addDataRun (schemas : List (String × JsSchema)) (genId : String)
    (t : String) (data0 : JsRow) (s : DataState) : DataState × Option String :=
  let buf := addDataBuffered schemas genId t data0 s
  match buf.2 with
  | some err => (buf.1, some err)
  | none =>
    match applyAddOp t (addEffectiveData genId data0) buf.1 with
    | .error err => (buf.1, some err)
    | .ok s2 => (s2, none)

/-- Implicit-transaction `updateData`: validate, read, select the matched
records, buffer one update per record with eager index maintenance, then
commit the buffered operations in order. -/
def updateDataRun (schemas : List (String × JsSchema)) (t : String)
    (filter : List (String × JsVal)) (upd : JsRow) (s : DataState) :
    DataState × Option String :=
  match validateSchemaFor schemas t (.vobj upd) with
  | .error _ => (s, some "VALIDATION_ERROR")
  | .ok _ =>
    match alGet s.tables t with
    | none => (s, some "Table does not exist")
    | some rows =>
      let records := rows.filter (fun r => rowsMatchQuery r filter)
      let buf := bufferUpdates t upd records s.indexes
      let s1 := { s with indexes := buf.2.1 }
      match buf.2.2 with
      | some err => (s1, some err)
      | none => commitUpdateOps t buf.1 s1

/-- Implicit-transaction `deleteData`: read, select, buffer one delete
per record with eager index maintenance (never throwing), then commit. -/
def deleteDataRun (t : String) (filter : List (String × JsVal))
    (s : DataState) : DataState × Option String :=
  match alGet s.tables t with
  | none => (s, some "Table does not exist")
  | some rows =>
    let records := rows.filter (fun r => rowsMatchQuery r filter)
    let idxs' := records.foldl (fun ix r => updateIndexesForDelete t r ix) s.indexes
    let s1 := { s with indexes := idxs' }
    commitDeleteOps t (records.map (fun r => rowGet r "id")) s1

/-- A committed top-level CRUD operation. -/
inductive TopOp where
  | add : String → String → JsRow → TopOp
  | update : String → List (String × JsVal) → JsRow → TopOp
  | del : String → List (String × JsVal) → TopOp

/-- Run one implicit-transaction operation. -/
def runOp (schemas : List (String × JsSchema)) (op : TopOp) (s : DataState) :
    DataState × Option String :=
  match op with
  | .add t genId data0 => addDataRun schemas genId t data0 s
  | .update t filter upd => updateDataRun schemas t filter upd s
  | .del t filter => deleteDataRun t filter s

/-- Input-side condition for an `add`: the generated id is a non-empty
hex string, and a caller-supplied truthy id is primitive (reference
equality of a composite id with its own copy is `false`, which would
break resolution even in JavaScript). -/
def opInputOk : TopOp → Prop
  | .add _ genId data0 => genId ≠ ""
      ∧ (∀ v, rowGet data0 "id" = some v → jsTruthy v = true → jsPrim v = true)
  | _ => True

/-- C3 counterexample state: an empty table with one (empty) index on
column `a`. -/
def rbState : DataState :=
  ⟨[("t", [])], [("i", ⟨"t", ["a"], "btree", false, []⟩)]⟩

/-- C3 counterexample: buffering `addData({a: "x"})` inside an explicit
transaction updates the index eagerly; rolling the transaction back
discards only the buffer, leaving an index entry `"x" → ["r1…"]` whose id
resolves to no row of the (still empty) table. -/
theorem rollback_leaves_dangling_index_entry :
    indexInvariant rbState
    ∧ (addDataBuffered [] "r1" "t" [("a", .vstr "x")] rbState).2 = none
    ∧ ¬ indexInvariant (rollbackTransactionModel
        (addDataBuffered [] "r1" "t" [("a", .vstr "x")] rbState).1) := by
  exact ⟨by decide, rfl, by decide⟩

theorem eq_of_countP_le_one {α : Type} {p : α → Bool} {l : List α}
    (h : l.countP p ≤ 1) {a b : α} (ha : a ∈ l) (hb : b ∈ l)
    (hpa : p a = true) (hpb : p b = true) : a = b := by
  induction l with
  | nil => cases ha
  | cons x rest ih =>
    rw [List.countP_cons] at h
    rcases List.mem_cons.mp ha with rfl | ha' <;>
      rcases List.mem_cons.mp hb with rfl | hb'
    · rfl
    · exfalso
      have h1 : 0 < rest.countP p := List.countP_pos_iff.mpr ⟨b, hb', hpb⟩
      rw [if_pos hpa] at h
      omega
    · exfalso
      have h1 : 0 < rest.countP p := List.countP_pos_iff.mpr ⟨a, ha', hpa⟩
      rw [if_pos hpb] at h
      omega
    · refine ih ?_ ha' hb'
      cases hx : p x with
      | false => rw [if_neg (by simp [hx])] at h; omega
      | true => rw [if_pos hx] at h; omega

theorem alGet_alSet_ne {α : Type} (m : List (String × α)) (k k' : String)
    (v : α) (h : k' ≠ k) : alGet (alSet m k v) k' = alGet m k' := by
  induction m with
  | nil => simp [alGet, alSet, List.find?, beq_eq_false_iff_ne.mpr (fun hh => h hh.symm)]
  | cons p rest ih =>
    obtain ⟨k0, v0⟩ := p
    by_cases hk : k0 = k
    · subst hk
      simp only [alSet, beq_self_eq_true, if_true]
      simp [alGet, List.find?, beq_eq_false_iff_ne.mpr (fun hh => h hh.symm)]
    · have hb : (k0 == k) = false := beq_eq_false_iff_ne.mpr hk
      simp only [alSet, hb, Bool.false_eq_true, if_false]
      by_cases hk' : k0 = k'
      · subst hk'
        simp [alGet, List.find?]
      · have hb' : (k0 == k') = false := beq_eq_false_iff_ne.mpr hk'
        simp only [alGet, List.find?, hb']
        exact ih

theorem mem_alSet {α : Type} {m : List (String × α)} {k : String} {v : α}
    {p : String × α} (h : p ∈ alSet m k v) : p ∈ m ∨ p = (k, v) := by
  induction m with
  | nil => simp [alSet] at h; right; exact h
  | cons q rest ih =>
    obtain ⟨k0, v0⟩ := q
    by_cases hk : k0 = k
    · subst hk
      simp only [alSet, beq_self_eq_true, if_true] at h
      rcases List.mem_cons.mp h with rfl | h'
      · right; rfl
      · left; exact List.mem_cons_of_mem _ h'
    · have hb : (k0 == k) = false := beq_eq_false_iff_ne.mpr hk
      simp only [alSet, hb, Bool.false_eq_true, if_false] at h
      rcases List.mem_cons.mp h with rfl | h'
      · left; exact List.mem_cons_self _ _
      · rcases ih h' with h'' | h''
        · left; exact List.mem_cons_of_mem _ h''
        · right; exact h''

theorem alGet_mem {α : Type} {m : List (String × α)} {k : String} {v : α}
    (h : alGet m k = some v) : (k, v) ∈ m := by
  induction m with
  | nil => simp [alGet, List.find?] at h
  | cons p rest ih =>
    obtain ⟨k0, v0⟩ := p
    by_cases hk : k0 = k
    · subst hk
      simp [alGet, List.find?] at h
      subst h
      exact List.mem_cons_self _ _
    · have hb : (k0 == k) = false := beq_eq_false_iff_ne.mpr hk
      simp only [alGet, List.find?, hb] at h
      exact List.mem_cons_of_mem _ (ih h)

theorem mem_alDel {α : Type} {m : List (String × α)} {k : String}
    {p : String × α} (h : p ∈ alDel m k) : p ∈ m := by
  induction m with
  | nil => simp [alDel] at h
  | cons q rest ih =>
    obtain ⟨k0, v0⟩ := q
    by_cases hk : k0 = k
    · subst hk
      simp only [alDel, beq_self_eq_true, if_true] at h
      exact List.mem_cons_of_mem _ h
    · have hb : (k0 == k) = false := beq_eq_false_iff_ne.mpr hk
      simp only [alDel, hb, Bool.false_eq_true, if_false] at h
      rcases List.mem_cons.mp h with rfl | h'
      · exact List.mem_cons_self _ _
      · exact List.mem_cons_of_mem _ (ih h')

theorem alGet_of_mem_distinct {α : Type} {m : List (String × α)} {k : String}
    {v : α} (hd : alKeysDistinctB m = true) (h : (k, v) ∈ m) :
    alGet m k = some v := by
  induction m with
  | nil => cases h
  | cons q rest ih =>
    obtain ⟨k0, v0⟩ := q
    simp only [alKeysDistinctB, Bool.and_eq_true, List.all_eq_true] at hd
    rcases List.mem_cons.mp h with heq | h'
    · obtain ⟨rfl, rfl⟩ := Prod.mk.injEq .. ▸ heq
      simp [alGet, List.find?]
    · have hk : k0 ≠ k := by
        intro hh
        subst hh
        have := hd.1 (k0, v) h'
        simp at this
      have hb : (k0 == k) = false := beq_eq_false_iff_ne.mpr hk
      simp only [alGet, List.find?, hb]
      exact ih hd.2 h'

theorem alKeysDistinctB_alSet {α : Type} {m : List (String × α)} (k : String)
    (v : α) (h : alKeysDistinctB m = true) :
    alKeysDistinctB (alSet m k v) = true := by
  induction m with
  | nil => simp [alSet, alKeysDistinctB]
  | cons q rest ih =>
    obtain ⟨k0, v0⟩ := q
    simp only [alKeysDistinctB, Bool.and_eq_true, List.all_eq_true] at h
    by_cases hk : k0 = k
    · subst hk
      simp only [alSet, beq_self_eq_true, if_true]
      simp only [alKeysDistinctB, Bool.and_eq_true, List.all_eq_true]
      exact ⟨h.1, h.2⟩
    · have hb : (k0 == k) = false := beq_eq_false_iff_ne.mpr hk
      simp only [alSet, hb, Bool.false_eq_true, if_false]
      simp only [alKeysDistinctB, Bool.and_eq_true, List.all_eq_true]
      refine ⟨?_, ih h.2⟩
      intro p hp
      rcases mem_alSet hp with hp' | rfl
      · exact h.1 p hp'
      · simpa using fun hh => hk hh.symm

theorem alKeysDistinctB_alDel {α : Type} {m : List (String × α)} (k : String)
    (h : alKeysDistinctB m = true) : alKeysDistinctB (alDel m k) = true := by
  induction m with
  | nil => simp [alDel, alKeysDistinctB]
  | cons q rest ih =>
    obtain ⟨k0, v0⟩ := q
    simp only [alKeysDistinctB, Bool.and_eq_true, List.all_eq_true] at h
    by_cases hk : k0 = k
    · subst hk
      simp only [alDel, beq_self_eq_true, if_true]
      exact h.2
    · have hb : (k0 == k) = false := beq_eq_false_iff_ne.mpr hk
      simp only [alDel, hb, Bool.false_eq_true, if_false]
      simp only [alKeysDistinctB, Bool.and_eq_true, List.all_eq_true]
      refine ⟨?_, ih h.2⟩
      intro p hp
      exact h.1 p (mem_alDel hp)

theorem alGet_cons {α : Type} (k0 : String) (v0 : α) (rest : List (String × α))
    (k : String) :
    alGet ((k0, v0) :: rest) k = if k0 == k then some v0 else alGet rest k := by
  by_cases h : (k0 == k) = true
  · simp [alGet, List.find?, h]
  · simp only [Bool.not_eq_true] at h
    simp [alGet, List.find?, h]

theorem idCount_cons (k0 : String) (ids0 : List (Option JsVal))
    (rest : List (String × List (Option JsVal))) (q : Option JsVal) :
    idCount ((k0, ids0) :: rest) q = bucketIdCount ids0 q + idCount rest q := by
  simp [idCount]

theorem idCount_alSet (d : List (String × List (Option JsVal))) (k : String)
    (b' : List (Option JsVal)) (q : Option JsVal) :
    idCount (alSet d k b') q + bucketIdCount ((alGet d k).getD []) q
      = idCount d q + bucketIdCount b' q := by
  induction d with
  | nil =>
    simp [idCount, alSet, alGet, List.find?, bucketIdCount]
  | cons p rest ih =>
    obtain ⟨k0, ids0⟩ := p
    by_cases hk : (k0 == k) = true
    · simp only [alSet, hk, if_true]
      rw [alGet_cons, if_pos hk]
      rw [idCount_cons, idCount_cons]
      simp only [Option.getD_some]
      omega
    · simp only [alSet, hk, Bool.false_eq_true, if_false]
      rw [alGet_cons, if_neg (by simp [hk])]
      rw [idCount_cons, idCount_cons]
      omega

theorem idCount_alDel (d : List (String × List (Option JsVal))) (k : String)
    (q : Option JsVal) :
    idCount (alDel d k) q + bucketIdCount ((alGet d k).getD []) q
      = idCount d q := by
  induction d with
  | nil => simp [idCount, alDel, alGet, List.find?, bucketIdCount]
  | cons p rest ih =>
    obtain ⟨k0, ids0⟩ := p
    by_cases hk : (k0 == k) = true
    · simp only [alDel, hk, if_true]
      rw [alGet_cons, if_pos hk]
      rw [idCount_cons]
      simp only [Option.getD_some]
      omega
    · simp only [alDel, hk, Bool.false_eq_true, if_false]
      rw [alGet_cons, if_neg (by simp [hk])]
      rw [idCount_cons, idCount_cons]
      omega

theorem idCount_idxAppendId (d : List (String × List (Option JsVal)))
    (key : String) (idv q : Option JsVal) :
    idCount (idxAppendId d key idv) q
      = idCount d q + (if jsEqO idv q = true then 1 else 0) := by
  have h := idCount_alSet d key (((alGet d key).getD []) ++ [idv]) q
  have hb : bucketIdCount (((alGet d key).getD []) ++ [idv]) q
      = bucketIdCount ((alGet d key).getD []) q
        + (if jsEqO idv q = true then 1 else 0) := by
    simp [bucketIdCount, List.countP_append, List.countP_cons]
  unfold idxAppendId
  omega

theorem bucketRemoveFirst_of_not_any (ids : List (Option JsVal))
    (idv : Option JsVal) (h : ids.any (fun x => jsEqO x idv) = false) :
    bucketRemoveFirst ids idv = ids := by
  induction ids with
  | nil => rfl
  | cons x rest ih =>
    simp only [List.any_cons, Bool.or_eq_false_iff] at h
    simp only [bucketRemoveFirst, h.1, Bool.false_eq_true, if_false]
    rw [ih h.2]

theorem bucketIdCount_removeFirst (ids : List (Option JsVal))
    (idv q : Option JsVal) (hany : ids.any (fun x => jsEqO x idv) = true) :
    bucketIdCount (bucketRemoveFirst ids idv) q
        + (if jsEqO idv q = true then 1 else 0)
      = bucketIdCount ids q := by
  induction ids with
  | nil => simp at hany
  | cons x rest ih =>
    by_cases hx : jsEqO x idv = true
    · have hxe : x = idv := jsEqO_eq_of_true hx
      subst hxe
      simp only [bucketRemoveFirst, hx, if_true]
      simp only [bucketIdCount, List.countP_cons]
    · have hany' : rest.any (fun x => jsEqO x idv) = true := by
        simp only [List.any_cons, hx, Bool.false_or] at hany
        exact hany
      simp only [bucketRemoveFirst, hx, Bool.false_eq_true, if_false]
      simp only [bucketIdCount, List.countP_cons]
      have := ih hany'
      simp only [bucketIdCount] at this
      omega

theorem mem_bucketRemoveFirst {ids : List (Option JsVal)} {idv x : Option JsVal}
    (h : x ∈ bucketRemoveFirst ids idv) : x ∈ ids := by
  induction ids with
  | nil => simp [bucketRemoveFirst] at h
  | cons y rest ih =>
    by_cases hy : jsEqO y idv = true
    · simp only [bucketRemoveFirst, hy, if_true] at h
      exact List.mem_cons_of_mem _ h
    · simp only [bucketRemoveFirst, hy, Bool.false_eq_true, if_false] at h
      rcases List.mem_cons.mp h with rfl | h'
      · exact List.mem_cons_self _ _
      · exact List.mem_cons_of_mem _ (ih h')

theorem idxRemoveId_of_no_match (d : List (String × List (Option JsVal)))
    (key : String) (idv : Option JsVal)
    (h : ((alGet d key).getD []).any (fun x => jsEqO x idv) = false) :
    idxRemoveId d key idv = d := by
  unfold idxRemoveId
  cases hg : alGet d key with
  | none => rfl
  | some ids =>
    rw [hg] at h
    simp only [Option.getD_some] at h
    simp [h]

theorem idCount_idxRemoveId_match (d : List (String × List (Option JsVal)))
    (key : String) (idv q : Option JsVal)
    (hany : ((alGet d key).getD []).any (fun x => jsEqO x idv) = true) :
    idCount (idxRemoveId d key idv) q
        + (if jsEqO idv q = true then 1 else 0)
      = idCount d q := by
  cases hg : alGet d key with
  | none => rw [hg] at hany; simp at hany
  | some ids =>
    rw [hg] at hany
    simp only [Option.getD_some] at hany
    unfold idxRemoveId
    rw [hg]
    simp only [hany, if_true]
    have hrem := bucketIdCount_removeFirst ids idv q hany
    by_cases he : (bucketRemoveFirst ids idv).isEmpty = true
    · rw [if_pos he]
      have hdel := idCount_alDel d key q
      rw [hg] at hdel
      simp only [Option.getD_some] at hdel
      have hz : bucketIdCount (bucketRemoveFirst ids idv) q = 0 := by
        have hnil : bucketRemoveFirst ids idv = [] := List.isEmpty_iff.mp he
        simp [hnil, bucketIdCount]
      omega
    · rw [if_neg (by simp [he])]
      have hset := idCount_alSet d key (bucketRemoveFirst ids idv) q
      rw [hg] at hset
      simp only [Option.getD_some] at hset
      omega

theorem idCount_pos_of_mem {d : List (String × List (Option JsVal))}
    {k : String} {ids : List (Option JsVal)} {x q : Option JsVal}
    (hkv : (k, ids) ∈ d) (hx : x ∈ ids) (hq : jsEqO x q = true) :
    0 < idCount d q := by
  have hb : 0 < bucketIdCount ids q :=
    List.countP_pos_iff.mpr ⟨x, hx, hq⟩
  have hmem : bucketIdCount ids q ∈ d.map (fun kv => bucketIdCount kv.2 q) :=
    List.mem_map.mpr ⟨(k, ids), hkv, rfl⟩
  have := List.single_le_sum (l := d.map (fun kv => bucketIdCount kv.2 q))
    (fun n _ => Nat.zero_le n) _ hmem
  unfold idCount
  omega

theorem idCount_zero_no_match {d : List (String × List (Option JsVal))}
    {q : Option JsVal} (h : idCount d q = 0) :
    ∀ kv ∈ d, ∀ x ∈ kv.2, jsEqO x q = false := by
  intro kv hkv x hx
  cases hq : jsEqO x q with
  | false => rfl
  | true =>
    exfalso
    have hkv' : (kv.1, kv.2) ∈ d := by
      rw [Prod.mk.eta]
      exact hkv
    have := idCount_pos_of_mem hkv' hx hq
    omega

theorem trace_idxRemoveId {d : List (String × List (Option JsVal))}
    {key : String} {idv : Option JsVal} {k : String} {ids : List (Option JsVal)}
    (h : (k, ids) ∈ idxRemoveId d key idv) :
    ∃ ids₀, (k, ids₀) ∈ d ∧ ∀ x ∈ ids, x ∈ ids₀ := by
  unfold idxRemoveId at h
  cases hg : alGet d key with
  | none =>
    rw [hg] at h
    exact ⟨ids, h, fun x hx => hx⟩
  | some b =>
    rw [hg] at h
    simp only at h
    by_cases hany : b.any (fun x => jsEqO x idv) = true
    · rw [if_pos hany] at h
      by_cases he : (bucketRemoveFirst b idv).isEmpty = true
      · rw [if_pos he] at h
        exact ⟨ids, mem_alDel h, fun x hx => hx⟩
      · rw [if_neg (by simp [he])] at h
        rcases mem_alSet h with h' | heq
        · exact ⟨ids, h', fun x hx => hx⟩
        · obtain ⟨rfl, rfl⟩ := Prod.mk.injEq .. ▸ heq
          exact ⟨b, alGet_mem hg, fun x hx => mem_bucketRemoveFirst hx⟩
    · rw [if_neg (by simp [hany])] at h
      exact ⟨ids, h, fun x hx => hx⟩

theorem trace_idxAppendId {d : List (String × List (Option JsVal))}
    {key : String} {idv : Option JsVal} {k : String} {ids : List (Option JsVal)}
    (h : (k, ids) ∈ idxAppendId d key idv) {x : Option JsVal} (hx : x ∈ ids) :
    (∃ ids₀, (k, ids₀) ∈ d ∧ x ∈ ids₀) ∨ (k = key ∧ x = idv) := by
  unfold idxAppendId at h
  rcases mem_alSet h with h' | heq
  · exact .inl ⟨ids, h', hx⟩
  · obtain ⟨rfl, rfl⟩ := Prod.mk.injEq .. ▸ heq
    rcases List.mem_append.mp hx with hx' | hx'
    · cases hg : alGet d k with
      | none =>
        rw [hg] at hx'
        simp at hx'
      | some b =>
        rw [hg] at hx'
        simp only [Option.getD_some] at hx'
        exact .inl ⟨b, alGet_mem hg, hx'⟩
    · exact .inr ⟨rfl, List.mem_singleton.mp hx'⟩

theorem rowIdOkB_elim {r : JsRow} (h : rowIdOkB r = true) :
    ∃ v, rowGet r "id" = some v ∧ jsTruthy v = true ∧ jsPrim v = true := by
  unfold rowIdOkB at h
  cases hg : rowGet r "id" with
  | none => rw [hg] at h; cases h
  | some v =>
    rw [hg] at h
    simp only [Bool.and_eq_true] at h
    exact ⟨v, rfl, h.1, h.2⟩

theorem jsEqO_id_refl {r : JsRow} (h : rowIdOkB r = true) :
    jsEqO (rowGet r "id") (rowGet r "id") = true := by
  obtain ⟨v, hv, -, hp⟩ := rowIdOkB_elim h
  rw [hv]
  simpa [jsEqO] using jsEq_refl_of_prim hp

theorem mkUpdatedRecord_id {r upd : JsRow} (h : rowIdOkB r = true) :
    rowGet (mkUpdatedRecord r upd) "id" = rowGet r "id" := by
  obtain ⟨v, hv, ht, -⟩ := rowIdOkB_elim h
  unfold mkUpdatedRecord
  rw [hv]
  simp only [ht, if_true]
  rw [rowGet_rowSet_self]

theorem replaceFirstById_mem_new {rows : List JsRow} {idv : Option JsVal}
    {nd : JsRow} {rows' : List JsRow}
    (h : replaceFirstById rows idv nd = some rows') : nd ∈ rows' := by
  induction rows generalizing rows' with
  | nil => simp [replaceFirstById] at h
  | cons r rest ih =>
    unfold replaceFirstById at h
    by_cases hr : jsEqO (rowGet r "id") idv = true
    · rw [if_pos hr] at h
      injection h with h'
      subst h'
      exact List.mem_cons_self _ _
    · rw [if_neg hr] at h
      rcases Option.map_eq_some'.mp h with ⟨rest', hrest, rfl⟩
      exact List.mem_cons_of_mem _ (ih hrest)

theorem replaceFirstById_mem_old {rows : List JsRow} {idv : Option JsVal}
    {nd : JsRow} {rows' : List JsRow}
    (h : replaceFirstById rows idv nd = some rows') :
    ∀ x ∈ rows, jsEqO (rowGet x "id") idv = false → x ∈ rows' := by
  induction rows generalizing rows' with
  | nil => simp [replaceFirstById] at h
  | cons r rest ih =>
    intro x hx hxid
    unfold replaceFirstById at h
    by_cases hr : jsEqO (rowGet r "id") idv = true
    · rw [if_pos hr] at h
      injection h with h'
      subst h'
      rcases List.mem_cons.mp hx with rfl | hx'
      · rw [hxid] at hr; cases hr
      · exact List.mem_cons_of_mem _ hx'
    · rw [if_neg hr] at h
      rcases Option.map_eq_some'.mp h with ⟨rest', hrest, rfl⟩
      rcases List.mem_cons.mp hx with rfl | hx'
      · exact List.mem_cons_self _ _
      · exact List.mem_cons_of_mem _ (ih hrest x hx' hxid)

theorem replaceFirstById_mem_inv {rows : List JsRow} {idv : Option JsVal}
    {nd : JsRow} {rows' : List JsRow}
    (h : replaceFirstById rows idv nd = some rows') :
    ∀ x ∈ rows', x = nd ∨ x ∈ rows := by
  induction rows generalizing rows' with
  | nil => simp [replaceFirstById] at h
  | cons r rest ih =>
    intro x hx
    unfold replaceFirstById at h
    by_cases hr : jsEqO (rowGet r "id") idv = true
    · rw [if_pos hr] at h
      injection h with h'
      subst h'
      rcases List.mem_cons.mp hx with rfl | hx'
      · exact .inl rfl
      · exact .inr (List.mem_cons_of_mem _ hx')
    · rw [if_neg hr] at h
      rcases Option.map_eq_some'.mp h with ⟨rest', hrest, rfl⟩
      rcases List.mem_cons.mp hx with rfl | hx'
      · exact .inr (List.mem_cons_self _ _)
      · rcases ih hrest x hx' with h' | h'
        · exact .inl h'
        · exact .inr (List.mem_cons_of_mem _ h')

theorem replaceFirstById_count {rows : List JsRow} {idv : Option JsVal}
    {nd : JsRow} {rows' : List JsRow}
    (h : replaceFirstById rows idv nd = some rows')
    (hnd : rowGet nd "id" = idv) (q : Option JsVal) :
    rowIdCount rows' q = rowIdCount rows q := by
  induction rows generalizing rows' with
  | nil => simp [replaceFirstById] at h
  | cons r rest ih =>
    unfold replaceFirstById at h
    by_cases hr : jsEqO (rowGet r "id") idv = true
    · rw [if_pos hr] at h
      injection h with h'
      subst h'
      have hre : rowGet r "id" = idv := jsEqO_eq_of_true hr
      simp only [rowIdCount, List.countP_cons, hnd, hre]
    · rw [if_neg hr] at h
      rcases Option.map_eq_some'.mp h with ⟨rest', hrest, rfl⟩
      simp only [rowIdCount, List.countP_cons]
      have := ih hrest
      simp only [rowIdCount] at this
      omega

theorem removeFirstById_mem {rows : List JsRow} {idv : Option JsVal}
    {rows' : List JsRow} (h : removeFirstById rows idv = some rows') :
    ∀ x ∈ rows', x ∈ rows := by
  induction rows generalizing rows' with
  | nil => simp [removeFirstById] at h
  | cons r rest ih =>
    intro x hx
    unfold removeFirstById at h
    by_cases hr : jsEqO (rowGet r "id") idv = true
    · rw [if_pos hr] at h
      injection h with h'
      subst h'
      exact List.mem_cons_of_mem _ hx
    · rw [if_neg hr] at h
      rcases Option.map_eq_some'.mp h with ⟨rest', hrest, rfl⟩
      rcases List.mem_cons.mp hx with rfl | hx'
      · exact List.mem_cons_self _ _
      · exact List.mem_cons_of_mem _ (ih hrest x hx')

theorem removeFirstById_mem_keep {rows : List JsRow} {idv : Option JsVal}
    {rows' : List JsRow} (h : removeFirstById rows idv = some rows') :
    ∀ x ∈ rows, jsEqO (rowGet x "id") idv = false → x ∈ rows' := by
  induction rows generalizing rows' with
  | nil => simp [removeFirstById] at h
  | cons r rest ih =>
    intro x hx hxid
    unfold removeFirstById at h
    by_cases hr : jsEqO (rowGet r "id") idv = true
    · rw [if_pos hr] at h
      injection h with h'
      subst h'
      rcases List.mem_cons.mp hx with rfl | hx'
      · rw [hxid] at hr; cases hr
      · exact hx'
    · rw [if_neg hr] at h
      rcases Option.map_eq_some'.mp h with ⟨rest', hrest, rfl⟩
      rcases List.mem_cons.mp hx with rfl | hx'
      · exact List.mem_cons_self _ _
      · exact List.mem_cons_of_mem _ (ih hrest x hx' hxid)

theorem removeFirstById_count {rows : List JsRow} {idv : Option JsVal}
    {rows' : List JsRow} (h : removeFirstById rows idv = some rows')
    (q : Option JsVal) :
    rowIdCount rows' q + (if jsEqO idv q = true then 1 else 0)
      = rowIdCount rows q := by
  induction rows generalizing rows' with
  | nil => simp [removeFirstById] at h
  | cons r rest ih =>
    unfold removeFirstById at h
    by_cases hr : jsEqO (rowGet r "id") idv = true
    · rw [if_pos hr] at h
      injection h with h'
      subst h'
      have hre : rowGet r "id" = idv := jsEqO_eq_of_true hr
      simp only [rowIdCount, List.countP_cons, hre]
    · rw [if_neg hr] at h
      rcases Option.map_eq_some'.mp h with ⟨rest', hrest, rfl⟩
      simp only [rowIdCount, List.countP_cons]
      have := ih hrest
      simp only [rowIdCount] at this
      omega

/-- The per-index effect of a successful `_updateIndexesForAdd`. -/
def addIdxTransform (t : String) (data : JsRow) (p : String × DBIndex) :
    String × DBIndex :=
  if p.2.tableName == t then
    let d := idxAppendId p.2.data (buildIndexKey data p.2.columns) (rowGet data "id")
    (p.1, { p.2 with data := d })
  else p

theorem updateIndexesForAdd_ok {t : String} {data : JsRow}
    {idxs idxs' : List (String × DBIndex)}
    (h : updateIndexesForAdd t data idxs = (idxs', none)) :
    idxs' = idxs.map (addIdxTransform t data) := by
  induction idxs generalizing idxs' with
  | nil =>
    simp only [updateIndexesForAdd, Prod.mk.injEq] at h
    simp [h.1.symm]
  | cons p rest ih =>
    obtain ⟨nm, idx⟩ := p
    unfold updateIndexesForAdd at h
    by_cases ht : (idx.tableName == t) = true
    · rw [if_pos ht] at h
      by_cases hu : (idx.unique && (alGet idx.data (buildIndexKey data idx.columns)).isSome) = true
      · rw [if_pos hu] at h
        simp only [Prod.mk.injEq] at h
        cases h.2
      · rw [if_neg hu] at h
        simp only [Prod.mk.injEq] at h
        obtain ⟨h1, h2⟩ := h
        subst h1
        rw [List.map_cons]
        simp only [addIdxTransform, ht, if_true]
        congr 1
        exact ih (Prod.ext rfl h2)
    · rw [if_neg ht] at h
      simp only [Prod.mk.injEq] at h
      obtain ⟨h1, h2⟩ := h
      subst h1
      rw [List.map_cons]
      simp only [addIdxTransform, ht, Bool.false_eq_true, if_false]
      congr 1
      exact ih (Prod.ext rfl h2)

/-- The per-index effect of a successful `_updateIndexesForUpdate`. -/
def updIdxTransform (t : String) (oldData newData : JsRow)
    (p : String × DBIndex) : String × DBIndex :=
  if p.2.tableName == t then
    let oldKey := buildIndexKey oldData p.2.columns
    let newKey := buildIndexKey newData p.2.columns
    if oldKey == newKey then p
    else
      let d := idxAppendId (idxRemoveId p.2.data oldKey (rowGet oldData "id"))
        newKey (rowGet newData "id")
      (p.1, { p.2 with data := d })
  else p

theorem updateIndexesForUpdate_ok {t : String} {oldData newData : JsRow}
    {idxs idxs' : List (String × DBIndex)}
    (h : updateIndexesForUpdate t oldData newData idxs = (idxs', none)) :
    idxs' = idxs.map (updIdxTransform t oldData newData) := by
  induction idxs generalizing idxs' with
  | nil =>
    simp only [updateIndexesForUpdate, Prod.mk.injEq] at h
    simp [h.1.symm]
  | cons p rest ih =>
    obtain ⟨nm, idx⟩ := p
    unfold updateIndexesForUpdate at h
    by_cases ht : (idx.tableName == t) = true
    · rw [if_pos ht] at h
      by_cases hk : (buildIndexKey oldData idx.columns == buildIndexKey newData idx.columns) = true
      · rw [if_pos hk] at h
        simp only [Prod.mk.injEq] at h
        obtain ⟨h1, h2⟩ := h
        subst h1
        rw [List.map_cons]
        simp only [updIdxTransform, ht, if_true, hk]
        congr 1
        exact ih (Prod.ext rfl h2)
      · rw [if_neg hk] at h
        by_cases hu : (idx.unique
            && (alGet idx.data (buildIndexKey newData idx.columns)).isSome
            && !(((alGet idx.data (buildIndexKey newData idx.columns)).getD []).any
                  (fun x => jsEqO x (rowGet oldData "id")))) = true
        · rw [if_pos hu] at h
          simp only [Prod.mk.injEq] at h
          cases h.2
        · rw [if_neg hu] at h
          simp only [Prod.mk.injEq] at h
          obtain ⟨h1, h2⟩ := h
          subst h1
          rw [List.map_cons]
          simp only [updIdxTransform, ht, if_true, hk, Bool.false_eq_true, if_false]
          congr 1
          exact ih (Prod.ext rfl h2)
    · rw [if_neg ht] at h
      simp only [Prod.mk.injEq] at h
      obtain ⟨h1, h2⟩ := h
      subst h1
      rw [List.map_cons]
      simp only [updIdxTransform, ht, Bool.false_eq_true, if_false]
      congr 1
      exact ih (Prod.ext rfl h2)

theorem idCount_pos_elim {d : List (String × List (Option JsVal))}
    {q : Option JsVal} (h : 0 < idCount d q) :
    ∃ kv ∈ d, ∃ y ∈ kv.2, jsEqO y q = true := by
  induction d with
  | nil => simp [idCount] at h
  | cons p rest ih =>
    obtain ⟨k0, ids0⟩ := p
    rw [idCount_cons] at h
    by_cases hb : 0 < bucketIdCount ids0 q
    · obtain ⟨y, hy, hyq⟩ := List.countP_pos_iff.mp hb
      exact ⟨(k0, ids0), List.mem_cons_self _ _, y, hy, hyq⟩
    · have : 0 < idCount rest q := by omega
      obtain ⟨kv, hkv, y, hy, hyq⟩ := ih this
      exact ⟨kv, List.mem_cons_of_mem _ hkv, y, hy, hyq⟩

theorem rowIdOkB_addEffectiveData (genId : String) (data0 : JsRow)
    (hgen : genId ≠ "")
    (hid : ∀ v, rowGet data0 "id" = some v → jsTruthy v = true → jsPrim v = true) :
    rowIdOkB (addEffectiveData genId data0) = true := by
  unfold addEffectiveData
  cases hg : rowGet data0 "id" with
  | none =>
    simp only [hg, jsTruthyO, Bool.false_eq_true, if_false]
    unfold rowIdOkB
    rw [rowGet_rowSet_self]
    simp [jsTruthy, jsPrim, hgen]
  | some v =>
    by_cases ht : jsTruthy v = true
    · simp only [hg, jsTruthyO, ht, if_true]
      unfold rowIdOkB
      rw [hg]
      simp [ht, hid v hg ht]
    · simp only [hg, jsTruthyO]
      rw [if_neg ht]
      unfold rowIdOkB
      rw [rowGet_rowSet_self]
      simp [jsTruthy, jsPrim, hgen]

theorem stateWfB_elim {s : DataState} (h : stateWfB s = true) :
    (∀ tr ∈ s.tables, tableWfB tr.2 = true)
    ∧ (∀ pr ∈ s.indexes, indexWfB pr.2 = true) := by
  simp only [stateWfB, Bool.and_eq_true, List.all_eq_true] at h
  exact h

theorem tableWfB_elim {rows : List JsRow} (h : tableWfB rows = true) :
    (∀ r ∈ rows, rowIdOkB r = true)
    ∧ (∀ r ∈ rows, rowIdCount rows (rowGet r "id") ≤ 1) := by
  simp only [tableWfB, Bool.and_eq_true, List.all_eq_true,
    decide_eq_true_eq] at h
  exact h

theorem indexWfB_elim {idx : DBIndex} (h : indexWfB idx = true) :
    alKeysDistinctB idx.data = true
    ∧ (∀ kv ∈ idx.data, ∀ x ∈ kv.2, idCount idx.data x ≤ 1) := by
  simp only [indexWfB, Bool.and_eq_true, List.all_eq_true,
    decide_eq_true_eq] at h
  exact h

theorem tableWfB_intro {rows : List JsRow}
    (h1 : ∀ r ∈ rows, rowIdOkB r = true)
    (h2 : ∀ r ∈ rows, rowIdCount rows (rowGet r "id") ≤ 1) :
    tableWfB rows = true := by
  simp only [tableWfB, Bool.and_eq_true, List.all_eq_true, decide_eq_true_eq]
  exact ⟨h1, h2⟩

theorem indexWfB_intro {idx : DBIndex}
    (h1 : alKeysDistinctB idx.data = true)
    (h2 : ∀ kv ∈ idx.data, ∀ x ∈ kv.2, idCount idx.data x ≤ 1) :
    indexWfB idx = true := by
  simp only [indexWfB, Bool.and_eq_true, List.all_eq_true, decide_eq_true_eq]
  exact ⟨h1, h2⟩

theorem stateWfB_intro {s : DataState}
    (h1 : ∀ tr ∈ s.tables, tableWfB tr.2 = true)
    (h2 : ∀ pr ∈ s.indexes, indexWfB pr.2 = true) : stateWfB s = true := by
  simp only [stateWfB, Bool.and_eq_true, List.all_eq_true]
  exact ⟨h1, h2⟩

theorem addDataRun_preserves (schemas : List (String × JsSchema))
    (genId t : String) (data0 : JsRow) (s s' : DataState)
    (hwf : stateWfB s = true) (hinv : indexInvariant s)
    (hgen : genId ≠ "")
    (hid : ∀ v, rowGet data0 "id" = some v → jsTruthy v = true → jsPrim v = true)
    (hrun : addDataRun schemas genId t data0 s = (s', none)) :
    stateWfB s' = true ∧ indexInvariant s' := by
  obtain ⟨hTW, hIW⟩ := stateWfB_elim hwf
  have hdOk : rowIdOkB (addEffectiveData genId data0) = true :=
    rowIdOkB_addEffectiveData genId data0 hgen hid
  obtain ⟨dv, hdv, hdvt, hdvp⟩ := rowIdOkB_elim hdOk
  unfold addDataRun addDataBuffered at hrun
  cases hval : validateSchemaFor schemas t (.vobj data0) with
  | error e =>
    rw [hval] at hrun
    simp at hrun
  | ok u =>
    rw [hval] at hrun
    dsimp only [] at hrun
    rcases hstep : updateIndexesForAdd t (addEffectiveData genId data0) s.indexes
      with ⟨idxs', e⟩
    rw [hstep] at hrun
    dsimp only [] at hrun
    cases e with
    | some err => simp at hrun
    | none =>
      unfold applyAddOp at hrun
      dsimp only [] at hrun
      cases hrows : alGet s.tables t with
      | none => rw [hrows] at hrun; simp at hrun
      | some rows =>
        rw [hrows] at hrun
        dsimp only [] at hrun
        by_cases hdup : (rows.any (fun item =>
            jsEqO (rowGet item "id") (rowGet (addEffectiveData genId data0) "id"))) = true
        · rw [if_pos hdup] at hrun
          simp at hrun
        · rw [if_neg (by simp [hdup])] at hrun
          dsimp only [] at hrun
          simp only [Prod.mk.injEq] at hrun
          obtain ⟨hs', -⟩ := hrun
          subst hs'
          have hdupF : ∀ item ∈ rows,
              jsEqO (rowGet item "id") (rowGet (addEffectiveData genId data0) "id") = false := by
            intro item hitem
            cases hx : jsEqO (rowGet item "id") (rowGet (addEffectiveData genId data0) "id") with
            | false => rfl
            | true => exact absurd (List.any_eq_true.mpr ⟨item, hitem, hx⟩) hdup
          have hidxs : idxs' = s.indexes.map
              (addIdxTransform t (addEffectiveData genId data0)) :=
            updateIndexesForAdd_ok hstep
          have hTrowsWf : tableWfB rows = true := hTW (t, rows) (alGet_mem hrows)
          obtain ⟨hRok, hRcount⟩ := tableWfB_elim hTrowsWf
          have hNewTableWf : tableWfB (rows ++ [addEffectiveData genId data0]) = true := by
            refine tableWfB_intro ?_ ?_
            · intro r hr
              rcases List.mem_append.mp hr with hr' | hr'
              · exact hRok r hr'
              · rw [List.mem_singleton.mp hr']
                exact hdOk
            · intro r hr
              have hsplit : rowIdCount (rows ++ [addEffectiveData genId data0]) (rowGet r "id")
                  = rowIdCount rows (rowGet r "id")
                    + rowIdCount [addEffectiveData genId data0] (rowGet r "id") :=
                List.countP_append _ _ _
              rcases List.mem_append.mp hr with hr' | hr'
              · have h1 := hRcount r hr'
                have h2 : rowIdCount [addEffectiveData genId data0] (rowGet r "id") = 0 := by
                  simp only [rowIdCount, List.countP_cons, List.countP_nil]
                  have := hdupF r hr'
                  rw [jsEqO_comm] at this
                  rw [this]
                  rfl
                omega
              · have hre := List.mem_singleton.mp hr'
                subst hre
                have h1 : rowIdCount rows (rowGet (addEffectiveData genId data0) "id") = 0 := by
                  unfold rowIdCount
                  rw [List.countP_eq_zero]
                  intro item hitem
                  simp [hdupF item hitem]
                have h2 : rowIdCount [addEffectiveData genId data0]
                    (rowGet (addEffectiveData genId data0) "id") = 1 := by
                  simp only [rowIdCount, List.countP_cons, List.countP_nil]
                  rw [jsEqO_id_refl hdOk]
                  rfl
                omega
          constructor
          · refine stateWfB_intro ?_ ?_
            · intro tr htr
              dsimp only [] at htr
              rcases mem_alSet htr with htr' | htr'
              · exact hTW tr htr'
              · rw [htr']
                exact hNewTableWf
            · intro pr hpr
              dsimp only [] at hpr
              rw [hidxs] at hpr
              obtain ⟨pr0, hpr0, rfl⟩ := List.mem_map.mp hpr
              have hwf0 := hIW pr0 hpr0
              unfold addIdxTransform
              by_cases hpt : (pr0.2.tableName == t) = true
              · rw [if_pos hpt]
                obtain ⟨hkd0, hcnt0⟩ := indexWfB_elim hwf0
                refine indexWfB_intro ?_ ?_
                · exact alKeysDistinctB_alSet _ _ hkd0
                · intro kv hkv x hx
                  have happ := idCount_idxAppendId pr0.2.data
                    (buildIndexKey (addEffectiveData genId data0) pr0.2.columns)
                    (rowGet (addEffectiveData genId data0) "id") x
                  by_cases hxd : jsEqO (rowGet (addEffectiveData genId data0) "id") x = true
                  · have hxe : rowGet (addEffectiveData genId data0) "id" = x :=
                      jsEqO_eq_of_true hxd
                    have hz : idCount pr0.2.data x = 0 := by
                      by_contra hnz
                      have hpos : 0 < idCount pr0.2.data x := Nat.pos_of_ne_zero hnz
                      obtain ⟨kv0, hkv0, y, hy, hyq⟩ := idCount_pos_elim hpos
                      have hres := hinv pr0 hpr0 kv0 hkv0 y hy
                      obtain ⟨r, hrmem, hreq, -⟩ := hres
                      have htb : (pr0.2.tableName == t) = true := hpt
                      have : pr0.2.tableName = t := by simpa using htb
                      rw [this, hrows] at hrmem
                      simp only [Option.getD_some] at hrmem
                      have hry : rowGet r "id" = y := jsEqO_eq_of_true hreq
                      have hyx : y = x := jsEqO_eq_of_true hyq
                      have := hdupF r hrmem
                      rw [hry, hyx, ← hxe] at this
                      rw [jsEqO_id_refl hdOk] at this
                      cases this
                    rw [happ, hz, if_pos hxd]
                  · rw [happ, if_neg hxd]
                    simp only [Nat.add_zero]
                    rcases trace_idxAppendId hkv hx with ⟨ids₀, hids₀, hx₀⟩ | ⟨-, hxe⟩
                    · exact hcnt0 (kv.1, ids₀) hids₀ x hx₀
                    · rw [hxe] at hxd
                      rw [jsEqO_id_refl hdOk] at hxd
                      cases hxd rfl
              · rw [if_neg (by simp [hpt])]
                exact hwf0
          · intro pr hpr kv hkv idv hidv
            dsimp only [] at hpr ⊢
            rw [hidxs] at hpr
            obtain ⟨pr0, hpr0, rfl⟩ := List.mem_map.mp hpr
            unfold addIdxTransform at hkv ⊢
            by_cases hpt : (pr0.2.tableName == t) = true
            · rw [if_pos hpt] at hkv ⊢
              dsimp only [] at hkv ⊢
              have htn : pr0.2.tableName = t := by simpa using hpt
              rw [htn, alGet_alSet_self]
              simp only [Option.getD_some]
              rcases trace_idxAppendId hkv hidv with ⟨ids₀, hids₀, hidv₀⟩ | ⟨hke, hxe⟩
              · have := hinv pr0 hpr0 (kv.1, ids₀) hids₀ idv hidv₀
                obtain ⟨r, hrmem, hreq, hrkey⟩ := this
                rw [htn, hrows] at hrmem
                simp only [Option.getD_some] at hrmem
                exact ⟨r, List.mem_append.mpr (.inl hrmem), hreq, hrkey⟩
              · refine ⟨addEffectiveData genId data0,
                  List.mem_append.mpr (.inr (List.mem_singleton.mpr rfl)), ?_, ?_⟩
                · rw [hxe]
                  exact jsEqO_id_refl hdOk
                · rw [hke]
            · rw [if_neg (by simp [hpt])] at hkv ⊢
              have htn : pr0.2.tableName ≠ t := by simpa using hpt
              rw [alGet_alSet_ne _ _ _ _ htn]
              exact hinv pr0 hpr0 kv hkv idv hidv

theorem row_eq_of_id_match {rows : List JsRow} {r r₀ : JsRow}
    (hcount1 : rowIdCount rows (rowGet r "id") ≤ 1) (hrok : rowIdOkB r = true)
    (hr : r ∈ rows) (hr₀ : r₀ ∈ rows)
    (heq : jsEqO (rowGet r₀ "id") (rowGet r "id") = true) : r₀ = r :=
  eq_of_countP_le_one hcount1 hr₀ hr heq (jsEqO_id_refl hrok)

theorem rowIdOkB_mkUpdatedRecord {r : JsRow} (upd : JsRow)
    (h : rowIdOkB r = true) : rowIdOkB (mkUpdatedRecord r upd) = true := by
  unfold rowIdOkB
  rw [mkUpdatedRecord_id h]
  exact h

theorem any_getD_elim {d : List (String × List (Option JsVal))} {k : String}
    {p : Option JsVal → Bool} (h : ((alGet d k).getD []).any p = true) :
    ∃ b, alGet d k = some b ∧ b.any p = true := by
  cases hg : alGet d k with
  | none => rw [hg] at h; simp at h
  | some b =>
    rw [hg] at h
    simp only [Option.getD_some] at h
    exact ⟨b, rfl, h⟩

theorem idCount_idxRemoveId_le (d : List (String × List (Option JsVal)))
    (key : String) (idv q : Option JsVal) :
    idCount (idxRemoveId d key idv) q ≤ idCount d q := by
  by_cases hany : ((alGet d key).getD []).any (fun x => jsEqO x idv) = true
  · have := idCount_idxRemoveId_match d key idv q hany
    omega
  · rw [idxRemoveId_of_no_match d key idv (by simpa using hany)]

theorem alKeysDistinctB_idxRemoveId (d : List (String × List (Option JsVal)))
    (key : String) (idv : Option JsVal) (h : alKeysDistinctB d = true) :
    alKeysDistinctB (idxRemoveId d key idv) = true := by
  unfold idxRemoveId
  cases hg : alGet d key with
  | none => exact h
  | some b =>
    simp only
    by_cases hany : b.any (fun x => jsEqO x idv) = true
    · rw [if_pos hany]
      by_cases he : (bucketRemoveFirst b idv).isEmpty = true
      · rw [if_pos he]
        exact alKeysDistinctB_alDel key h
      · rw [if_neg (by simp [he])]
        exact alKeysDistinctB_alSet key _ h
    · rw [if_neg (by simp [hany])]
      exact h

theorem alKeysDistinctB_idxAppendId (d : List (String × List (Option JsVal)))
    (key : String) (idv : Option JsVal) (h : alKeysDistinctB d = true) :
    alKeysDistinctB (idxAppendId d key idv) = true :=
  alKeysDistinctB_alSet key _ h

theorem idCount_remove_own_key_zero
    (d : List (String × List (Option JsVal))) (cols : List String)
    (r : JsRow) (rows : List JsRow)
    (hkd : alKeysDistinctB d = true)
    (hcnt : ∀ kv ∈ d, ∀ x ∈ kv.2, idCount d x ≤ 1)
    (hres : ∀ kv ∈ d, ∀ idv ∈ kv.2,
      ∃ r₀ ∈ rows, jsEqO (rowGet r₀ "id") idv = true
        ∧ buildIndexKey r₀ cols = kv.1)
    (hrok : rowIdOkB r = true)
    (hcount1 : rowIdCount rows (rowGet r "id") ≤ 1)
    (hrmem : r ∈ rows) :
    idCount (idxRemoveId d (buildIndexKey r cols) (rowGet r "id"))
      (rowGet r "id") = 0 := by
  by_cases hany : ((alGet d (buildIndexKey r cols)).getD []).any
      (fun x => jsEqO x (rowGet r "id")) = true
  · obtain ⟨b, hb, hbany⟩ := any_getD_elim hany
    obtain ⟨y, hy, hyq⟩ := List.any_eq_true.mp hbany
    have hle : idCount d (rowGet r "id") ≤ 1 := by
      have hye : y = rowGet r "id" := jsEqO_eq_of_true hyq
      have := hcnt (buildIndexKey r cols, b) (alGet_mem hb) y hy
      rw [hye] at this
      exact this
    have heq := idCount_idxRemoveId_match d (buildIndexKey r cols)
      (rowGet r "id") (rowGet r "id") hany
    rw [jsEqO_id_refl hrok] at heq
    simp only [if_true] at heq
    omega
  · rw [idxRemoveId_of_no_match d _ _ (by simpa using hany)]
    by_contra hnz
    have hpos : 0 < idCount d (rowGet r "id") := Nat.pos_of_ne_zero hnz
    obtain ⟨kv, hkv, y, hy, hyq⟩ := idCount_pos_elim hpos
    obtain ⟨r₀, hr₀mem, hr₀eq, hr₀key⟩ := hres kv hkv y hy
    have hye : y = rowGet r "id" := jsEqO_eq_of_true hyq
    have hr₀r : r₀ = r := by
      refine row_eq_of_id_match hcount1 hrok hrmem hr₀mem ?_
      rw [hye] at hr₀eq
      exact hr₀eq
    have hkey : kv.1 = buildIndexKey r cols := by
      rw [← hr₀key, hr₀r]
    have hget : alGet d (buildIndexKey r cols) = some kv.2 := by
      rw [← hkey]
      exact alGet_of_mem_distinct hkd (by rw [← Prod.mk.eta (p := kv)] at hkv; exact hkv)
    apply hany
    rw [hget]
    simp only [Option.getD_some]
    refine List.any_eq_true.mpr ⟨y, hy, ?_⟩
    rw [hye]
    exact jsEqO_id_refl hrok

/-- The per-index facts for a key-changing update: after removing the old
row's id from its old key and appending it under the new key, the index
is still well-formed and every entry resolves against the updated
table. -/
theorem updIdx_changed_branch
    (d : List (String × List (Option JsVal))) (cols : List String)
    (r nd : JsRow) (rows rows' : List JsRow)
    (hkd : alKeysDistinctB d = true)
    (hcnt : ∀ kv ∈ d, ∀ x ∈ kv.2, idCount d x ≤ 1)
    (hres : ∀ kv ∈ d, ∀ idv ∈ kv.2,
      ∃ r₀ ∈ rows, jsEqO (rowGet r₀ "id") idv = true
        ∧ buildIndexKey r₀ cols = kv.1)
    (hrok : rowIdOkB r = true)
    (hndid : rowGet nd "id" = rowGet r "id")
    (hcount1 : rowIdCount rows (rowGet r "id") ≤ 1)
    (hrmem : r ∈ rows)
    (hMemOld : ∀ x ∈ rows,
      jsEqO (rowGet x "id") (rowGet r "id") = false → x ∈ rows')
    (hMemNew : nd ∈ rows') :
    (alKeysDistinctB (idxAppendId (idxRemoveId d (buildIndexKey r cols)
          (rowGet r "id")) (buildIndexKey nd cols) (rowGet nd "id")) = true
      ∧ ∀ kv ∈ idxAppendId (idxRemoveId d (buildIndexKey r cols)
          (rowGet r "id")) (buildIndexKey nd cols) (rowGet nd "id"),
        ∀ x ∈ kv.2,
          idCount (idxAppendId (idxRemoveId d (buildIndexKey r cols)
            (rowGet r "id")) (buildIndexKey nd cols) (rowGet nd "id")) x ≤ 1)
    ∧ ∀ kv ∈ idxAppendId (idxRemoveId d (buildIndexKey r cols)
        (rowGet r "id")) (buildIndexKey nd cols) (rowGet nd "id"),
      ∀ idv ∈ kv.2,
        ∃ r₀ ∈ rows', jsEqO (rowGet r₀ "id") idv = true
          ∧ buildIndexKey r₀ cols = kv.1 := by
  have hz : idCount (idxRemoveId d (buildIndexKey r cols) (rowGet r "id"))
      (rowGet r "id") = 0 :=
    idCount_remove_own_key_zero d cols r rows hkd hcnt hres hrok hcount1 hrmem
  refine ⟨⟨?_, ?_⟩, ?_⟩
  · exact alKeysDistinctB_idxAppendId _ _ _
      (alKeysDistinctB_idxRemoveId _ _ _ hkd)
  · intro kv hkv x hx
    obtain ⟨k, ids⟩ := kv
    have happ := idCount_idxAppendId
      (idxRemoveId d (buildIndexKey r cols) (rowGet r "id"))
      (buildIndexKey nd cols) (rowGet nd "id") x
    by_cases hxd : jsEqO (rowGet nd "id") x = true
    · have hxe : x = rowGet r "id" := by
        rw [← jsEqO_eq_of_true hxd, hndid]
      rw [happ, if_pos hxd, hxe, hz]
    · rw [happ, if_neg hxd]
      simp only [Nat.add_zero]
      rcases trace_idxAppendId hkv hx with ⟨ids₀, hids₀, hx₀⟩ | ⟨-, hxe⟩
      · rcases trace_idxRemoveId hids₀ with ⟨ids₁, hids₁, hsub⟩
        exact le_trans (idCount_idxRemoveId_le _ _ _ _)
          (hcnt (k, ids₁) hids₁ x (hsub x hx₀))
      · exfalso
        apply hxd
        rw [hxe]
        rw [hndid]
        exact jsEqO_id_refl hrok
  · intro kv hkv idv hidv
    obtain ⟨k, ids⟩ := kv
    rcases trace_idxAppendId hkv hidv with ⟨ids₀, hids₀, hidv₀⟩ | ⟨hke, hxe⟩
    · rcases trace_idxRemoveId hids₀ with ⟨ids₁, hids₁, hsub⟩
      obtain ⟨r₀, hr₀mem, hr₀eq, hr₀key⟩ :=
        hres (k, ids₁) hids₁ idv (hsub idv hidv₀)
      cases hb : jsEqO (rowGet r₀ "id") (rowGet r "id") with
      | false => exact ⟨r₀, hMemOld r₀ hr₀mem hb, hr₀eq, hr₀key⟩
      | true =>
        exfalso
        have hr₀e : r₀ = r := row_eq_of_id_match hcount1 hrok hrmem hr₀mem hb
        subst hr₀e
        have hidve : rowGet r₀ "id" = idv := jsEqO_eq_of_true hr₀eq
        have hpos : 0 < idCount
            (idxRemoveId d (buildIndexKey r₀ cols) (rowGet r₀ "id"))
            (rowGet r₀ "id") := by
          refine idCount_pos_of_mem hids₀ hidv₀ ?_
          rw [← hidve]
          exact jsEqO_id_refl hrok
        omega
    · refine ⟨nd, hMemNew, ?_, ?_⟩
      · rw [hxe, hndid]
        exact jsEqO_id_refl hrok
      · rw [hke]

/-- When the indexed key of the updated record is unchanged, the index
data is untouched and its entries resolve against the updated table. -/
theorem updIdx_same_key_branch
    (d : List (String × List (Option JsVal))) (cols : List String)
    (r nd : JsRow) (rows rows' : List JsRow)
    (hres : ∀ kv ∈ d, ∀ idv ∈ kv.2,
      ∃ r₀ ∈ rows, jsEqO (rowGet r₀ "id") idv = true
        ∧ buildIndexKey r₀ cols = kv.1)
    (hrok : rowIdOkB r = true)
    (hndid : rowGet nd "id" = rowGet r "id")
    (hcount1 : rowIdCount rows (rowGet r "id") ≤ 1)
    (hrmem : r ∈ rows)
    (hMemOld : ∀ x ∈ rows,
      jsEqO (rowGet x "id") (rowGet r "id") = false → x ∈ rows')
    (hMemNew : nd ∈ rows')
    (hkeq : buildIndexKey r cols = buildIndexKey nd cols) :
    ∀ kv ∈ d, ∀ idv ∈ kv.2,
      ∃ r₀ ∈ rows', jsEqO (rowGet r₀ "id") idv = true
        ∧ buildIndexKey r₀ cols = kv.1 := by
  intro kv hkv idv hidv
  obtain ⟨r₀, hr₀mem, hr₀eq, hr₀key⟩ := hres kv hkv idv hidv
  cases hb : jsEqO (rowGet r₀ "id") (rowGet r "id") with
  | false => exact ⟨r₀, hMemOld r₀ hr₀mem hb, hr₀eq, hr₀key⟩
  | true =>
    have hr₀e : r₀ = r := row_eq_of_id_match hcount1 hrok hrmem hr₀mem hb
    subst hr₀e
    refine ⟨nd, hMemNew, ?_, ?_⟩
    · rw [hndid]
      exact hr₀eq
    · rw [← hkeq]
      exact hr₀key

/-- The per-index facts for a delete: after removing the deleted row's id
from the bucket of its key, the index is still well-formed and every
entry resolves against the shrunken table. -/
theorem delIdx_branch
    (d : List (String × List (Option JsVal))) (cols : List String)
    (r : JsRow) (rows rows' : List JsRow)
    (hkd : alKeysDistinctB d = true)
    (hcnt : ∀ kv ∈ d, ∀ x ∈ kv.2, idCount d x ≤ 1)
    (hres : ∀ kv ∈ d, ∀ idv ∈ kv.2,
      ∃ r₀ ∈ rows, jsEqO (rowGet r₀ "id") idv = true
        ∧ buildIndexKey r₀ cols = kv.1)
    (hrok : rowIdOkB r = true)
    (hcount1 : rowIdCount rows (rowGet r "id") ≤ 1)
    (hrmem : r ∈ rows)
    (hMemKeep : ∀ x ∈ rows,
      jsEqO (rowGet x "id") (rowGet r "id") = false → x ∈ rows') :
    (alKeysDistinctB (idxRemoveId d (buildIndexKey r cols)
        (rowGet r "id")) = true
      ∧ ∀ kv ∈ idxRemoveId d (buildIndexKey r cols) (rowGet r "id"),
        ∀ x ∈ kv.2,
          idCount (idxRemoveId d (buildIndexKey r cols) (rowGet r "id")) x ≤ 1)
    ∧ ∀ kv ∈ idxRemoveId d (buildIndexKey r cols) (rowGet r "id"),
      ∀ idv ∈ kv.2,
        ∃ r₀ ∈ rows', jsEqO (rowGet r₀ "id") idv = true
          ∧ buildIndexKey r₀ cols = kv.1 := by
  have hz : idCount (idxRemoveId d (buildIndexKey r cols) (rowGet r "id"))
      (rowGet r "id") = 0 :=
    idCount_remove_own_key_zero d cols r rows hkd hcnt hres hrok hcount1 hrmem
  refine ⟨⟨?_, ?_⟩, ?_⟩
  · exact alKeysDistinctB_idxRemoveId _ _ _ hkd
  · intro kv hkv x hx
    obtain ⟨k, ids⟩ := kv
    rcases trace_idxRemoveId hkv with ⟨ids₁, hids₁, hsub⟩
    exact le_trans (idCount_idxRemoveId_le _ _ _ _)
      (hcnt (k, ids₁) hids₁ x (hsub x hx))
  · intro kv hkv idv hidv
    obtain ⟨k, ids⟩ := kv
    rcases trace_idxRemoveId hkv with ⟨ids₁, hids₁, hsub⟩
    obtain ⟨r₀, hr₀mem, hr₀eq, hr₀key⟩ := hres (k, ids₁) hids₁ idv (hsub idv hidv)
    cases hb : jsEqO (rowGet r₀ "id") (rowGet r "id") with
    | false => exact ⟨r₀, hMemKeep r₀ hr₀mem hb, hr₀eq, hr₀key⟩
    | true =>
      exfalso
      have hr₀e : r₀ = r := row_eq_of_id_match hcount1 hrok hrmem hr₀mem hb
      subst hr₀e
      have hidve : rowGet r₀ "id" = idv := jsEqO_eq_of_true hr₀eq
      have hq : jsEqO idv (rowGet r₀ "id") = true := by
        rw [← hidve]
        exact jsEqO_id_refl hrok
      have hpos : 0 < idCount
          (idxRemoveId d (buildIndexKey r₀ cols) (rowGet r₀ "id"))
          (rowGet r₀ "id") := idCount_pos_of_mem hkv hidv hq
      omega

/-- One buffered-then-committed `update` of a single matched record
preserves well-formedness and the index invariant. -/
theorem singleUpdate_preserves
    (t : String) (upd : JsRow) (r : JsRow) (s : DataState)
    (rows rows' : List JsRow) (ixs' : List (String × DBIndex))
    (hwf : stateWfB s = true) (hinv : indexInvariant s)
    (hrows : alGet s.tables t = some rows) (hrmem : r ∈ rows)
    (hstep : updateIndexesForUpdate t r (mkUpdatedRecord r upd) s.indexes
      = (ixs', none))
    (hrep : replaceFirstById rows (rowGet r "id") (mkUpdatedRecord r upd)
      = some rows') :
    stateWfB ⟨alSet s.tables t rows', ixs'⟩ = true
      ∧ indexInvariant ⟨alSet s.tables t rows', ixs'⟩ := by
  obtain ⟨hTW, hIW⟩ := stateWfB_elim hwf
  have hTrowsWf : tableWfB rows = true := hTW (t, rows) (alGet_mem hrows)
  obtain ⟨hRok, hRcount⟩ := tableWfB_elim hTrowsWf
  have hrok : rowIdOkB r = true := hRok r hrmem
  have hndid : rowGet (mkUpdatedRecord r upd) "id" = rowGet r "id" :=
    mkUpdatedRecord_id hrok
  have hndok : rowIdOkB (mkUpdatedRecord r upd) = true :=
    rowIdOkB_mkUpdatedRecord upd hrok
  have hcount1 : rowIdCount rows (rowGet r "id") ≤ 1 := hRcount r hrmem
  have hixs : ixs' = s.indexes.map (updIdxTransform t r (mkUpdatedRecord r upd)) :=
    updateIndexesForUpdate_ok hstep
  have hMemNew := replaceFirstById_mem_new hrep
  have hMemOld := replaceFirstById_mem_old hrep
  have hMemInv := replaceFirstById_mem_inv hrep
  have hCntEq : ∀ q, rowIdCount rows' q = rowIdCount rows q :=
    fun q => replaceFirstById_count hrep hndid q
  have hNewTableWf : tableWfB rows' = true := by
    refine tableWfB_intro ?_ ?_
    · intro x hx
      rcases hMemInv x hx with rfl | hx'
      · exact hndok
      · exact hRok x hx'
    · intro x hx
      rw [hCntEq]
      rcases hMemInv x hx with rfl | hx'
      · rw [hndid]
        exact hcount1
      · exact hRcount x hx'
  constructor
  · refine stateWfB_intro ?_ ?_
    · intro tr htr
      dsimp only [] at htr
      rcases mem_alSet htr with htr' | htr'
      · exact hTW tr htr'
      · rw [htr']
        exact hNewTableWf
    · intro pr hpr
      dsimp only [] at hpr
      rw [hixs] at hpr
      obtain ⟨pr0, hpr0, rfl⟩ := List.mem_map.mp hpr
      have hwf0 := hIW pr0 hpr0
      unfold updIdxTransform
      by_cases hpt : (pr0.2.tableName == t) = true
      · rw [if_pos hpt]
        by_cases hkeq : (buildIndexKey r pr0.2.columns
            == buildIndexKey (mkUpdatedRecord r upd) pr0.2.columns) = true
        · rw [if_pos hkeq]
          exact hwf0
        · rw [if_neg hkeq]
          obtain ⟨hkd0, hcnt0⟩ := indexWfB_elim hwf0
          have htn : pr0.2.tableName = t := by simpa using hpt
          have hres0 : ∀ kv ∈ pr0.2.data, ∀ idv ∈ kv.2,
              ∃ r₀ ∈ rows, jsEqO (rowGet r₀ "id") idv = true
                ∧ buildIndexKey r₀ pr0.2.columns = kv.1 := by
            intro kv hkv idv hidv
            have := hinv pr0 hpr0 kv hkv idv hidv
            rw [htn, hrows] at this
            simpa using this
          obtain ⟨⟨hKD, hCNT⟩, -⟩ := updIdx_changed_branch pr0.2.data
            pr0.2.columns r (mkUpdatedRecord r upd) rows rows' hkd0 hcnt0
            hres0 hrok hndid hcount1 hrmem hMemOld hMemNew
          exact indexWfB_intro hKD hCNT
      · rw [if_neg (by simp [hpt])]
        exact hwf0
  · intro pr hpr kv hkv idv hidv
    dsimp only [] at hpr ⊢
    rw [hixs] at hpr
    obtain ⟨pr0, hpr0, rfl⟩ := List.mem_map.mp hpr
    unfold updIdxTransform at hkv ⊢
    by_cases hpt : (pr0.2.tableName == t) = true
    · rw [if_pos hpt] at hkv ⊢
      have htn : pr0.2.tableName = t := by simpa using hpt
      have hres0 : ∀ kv ∈ pr0.2.data, ∀ idv ∈ kv.2,
          ∃ r₀ ∈ rows, jsEqO (rowGet r₀ "id") idv = true
            ∧ buildIndexKey r₀ pr0.2.columns = kv.1 := by
        intro kv' hkv' idv' hidv'
        have := hinv pr0 hpr0 kv' hkv' idv' hidv'
        rw [htn, hrows] at this
        simpa using this
      by_cases hkeq : (buildIndexKey r pr0.2.columns
          == buildIndexKey (mkUpdatedRecord r upd) pr0.2.columns) = true
      · rw [if_pos hkeq] at hkv ⊢
        rw [htn, alGet_alSet_self]
        simp only [Option.getD_some]
        exact updIdx_same_key_branch pr0.2.data pr0.2.columns r
          (mkUpdatedRecord r upd) rows rows' hres0 hrok hndid hcount1 hrmem
          hMemOld hMemNew (by simpa using hkeq) kv hkv idv hidv
      · rw [if_neg hkeq] at hkv ⊢
        dsimp only [] at hkv ⊢
        rw [htn, alGet_alSet_self]
        simp only [Option.getD_some]
        obtain ⟨hkd0, hcnt0⟩ := indexWfB_elim (hIW pr0 hpr0)
        obtain ⟨-, hRES⟩ := updIdx_changed_branch pr0.2.data pr0.2.columns r
          (mkUpdatedRecord r upd) rows rows' hkd0 hcnt0 hres0 hrok hndid
          hcount1 hrmem hMemOld hMemNew
        exact hRES kv hkv idv hidv
    · rw [if_neg (by simp [hpt])] at hkv ⊢
      have htn : pr0.2.tableName ≠ t := by simpa using hpt
      rw [alGet_alSet_ne _ _ _ _ htn]
      exact hinv pr0 hpr0 kv hkv idv hidv

/-- One buffered-then-committed `delete` of a single matched record
preserves well-formedness and the index invariant. -/
theorem singleDelete_preserves
    (t : String) (r : JsRow) (s : DataState) (rows rows' : List JsRow)
    (hwf : stateWfB s = true) (hinv : indexInvariant s)
    (hrows : alGet s.tables t = some rows) (hrmem : r ∈ rows)
    (hrem : removeFirstById rows (rowGet r "id") = some rows') :
    stateWfB ⟨alSet s.tables t rows', updateIndexesForDelete t r s.indexes⟩ = true
      ∧ indexInvariant
        ⟨alSet s.tables t rows', updateIndexesForDelete t r s.indexes⟩ := by
  obtain ⟨hTW, hIW⟩ := stateWfB_elim hwf
  have hTrowsWf : tableWfB rows = true := hTW (t, rows) (alGet_mem hrows)
  obtain ⟨hRok, hRcount⟩ := tableWfB_elim hTrowsWf
  have hrok : rowIdOkB r = true := hRok r hrmem
  have hcount1 : rowIdCount rows (rowGet r "id") ≤ 1 := hRcount r hrmem
  have hMemSub := removeFirstById_mem hrem
  have hMemKeep := removeFirstById_mem_keep hrem
  have hCntLe : ∀ q, rowIdCount rows' q ≤ rowIdCount rows q := by
    intro q
    have := removeFirstById_count hrem q
    omega
  have hNewTableWf : tableWfB rows' = true := by
    refine tableWfB_intro ?_ ?_
    · intro x hx
      exact hRok x (hMemSub x hx)
    · intro x hx
      exact le_trans (hCntLe _) (hRcount x (hMemSub x hx))
  constructor
  · refine stateWfB_intro ?_ ?_
    · intro tr htr
      dsimp only [] at htr
      rcases mem_alSet htr with htr' | htr'
      · exact hTW tr htr'
      · rw [htr']
        exact hNewTableWf
    · intro pr hpr
      dsimp only [] at hpr
      unfold updateIndexesForDelete at hpr
      obtain ⟨pr0, hpr0, rfl⟩ := List.mem_map.mp hpr
      have hwf0 := hIW pr0 hpr0
      by_cases hpt : (pr0.2.tableName == t) = true
      · rw [if_pos hpt]
        obtain ⟨hkd0, hcnt0⟩ := indexWfB_elim hwf0
        have htn : pr0.2.tableName = t := by simpa using hpt
        have hres0 : ∀ kv ∈ pr0.2.data, ∀ idv ∈ kv.2,
            ∃ r₀ ∈ rows, jsEqO (rowGet r₀ "id") idv = true
              ∧ buildIndexKey r₀ pr0.2.columns = kv.1 := by
          intro kv hkv idv hidv
          have := hinv pr0 hpr0 kv hkv idv hidv
          rw [htn, hrows] at this
          simpa using this
        obtain ⟨⟨hKD, hCNT⟩, -⟩ := delIdx_branch pr0.2.data pr0.2.columns r
          rows rows' hkd0 hcnt0 hres0 hrok hcount1 hrmem hMemKeep
        exact indexWfB_intro hKD hCNT
      · rw [if_neg (by simp [hpt])]
        exact hwf0
  · intro pr hpr kv hkv idv hidv
    dsimp only [] at hpr ⊢
    unfold updateIndexesForDelete at hpr
    obtain ⟨pr0, hpr0, rfl⟩ := List.mem_map.mp hpr
    by_cases hpt : (pr0.2.tableName == t) = true
    · rw [if_pos hpt] at hkv ⊢
      dsimp only [] at hkv ⊢
      have htn : pr0.2.tableName = t := by simpa using hpt
      have hres0 : ∀ kv ∈ pr0.2.data, ∀ idv ∈ kv.2,
          ∃ r₀ ∈ rows, jsEqO (rowGet r₀ "id") idv = true
            ∧ buildIndexKey r₀ pr0.2.columns = kv.1 := by
        intro kv' hkv' idv' hidv'
        have := hinv pr0 hpr0 kv' hkv' idv' hidv'
        rw [htn, hrows] at this
        simpa using this
      rw [htn, alGet_alSet_self]
      simp only [Option.getD_some]
      obtain ⟨hkd0, hcnt0⟩ := indexWfB_elim (hIW pr0 hpr0)
      obtain ⟨-, hRES⟩ := delIdx_branch pr0.2.data pr0.2.columns r rows rows'
        hkd0 hcnt0 hres0 hrok hcount1 hrmem hMemKeep
      exact hRES kv hkv idv hidv
    · rw [if_neg (by simp [hpt])] at hkv ⊢
      have htn : pr0.2.tableName ≠ t := by simpa using hpt
      rw [alGet_alSet_ne _ _ _ _ htn]
      exact hinv pr0 hpr0 kv hkv idv hidv

/-- Proof device: the per-record interleaving of `updateData`'s buffer
phase (index maintenance) and commit phase (table rewrite).  On the
success path it agrees with the real order (all buffers, then all
commits), because buffering touches only the indexes and committing only
the tables. -/
def stepUpdateFold (t : String) (upd : JsRow) :
    List JsRow → DataState → DataState × Option String
  | [], st => (st, none)
  | r :: rest, st =>
    let nd := mkUpdatedRecord r upd
    let step := updateIndexesForUpdate t r nd st.indexes
    match step.2 with
    | some err => (⟨st.tables, step.1⟩, some err)
    | none =>
      match alGet st.tables t with
      | none => (⟨st.tables, step.1⟩, some "Table does not exist")
      | some rows =>
        match replaceFirstById rows (rowGet r "id") nd with
        | none => (⟨st.tables, step.1⟩, some "Record not found")
        | some rows' => stepUpdateFold t upd rest ⟨alSet st.tables t rows', step.1⟩

theorem bufferUpdates_commit_interleave (t : String) (upd : JsRow) :
    ∀ (records : List JsRow) (tb : List (String × List JsRow))
      (ix : List (String × DBIndex)) (ops : List (Option JsVal × JsRow))
      (ixF : List (String × DBIndex)) (st' : DataState),
    bufferUpdates t upd records ix = (ops, ixF, none) →
    commitUpdateOps t ops ⟨tb, ixF⟩ = (st', none) →
    stepUpdateFold t upd records ⟨tb, ix⟩ = (st', none) := by
  intro records
  induction records with
  | nil =>
    intro tb ix ops ixF st' hbuf hcommit
    simp only [bufferUpdates, Prod.mk.injEq] at hbuf
    obtain ⟨h1, h2, -⟩ := hbuf
    subst h1
    subst h2
    simp only [commitUpdateOps, Prod.mk.injEq] at hcommit
    obtain ⟨h3, -⟩ := hcommit
    subst h3
    rfl
  | cons r rest ih =>
    intro tb ix ops ixF st' hbuf hcommit
    unfold bufferUpdates at hbuf
    dsimp only [] at hbuf
    rcases hstep : updateIndexesForUpdate t r (mkUpdatedRecord r upd) ix
      with ⟨ix1, e⟩
    rw [hstep] at hbuf
    dsimp only [] at hbuf
    cases e with
    | some err => simp at hbuf
    | none =>
      rcases hcont : bufferUpdates t upd rest ix1 with ⟨ops2, ixF2, e2⟩
      rw [hcont] at hbuf
      dsimp only [] at hbuf
      simp only [Prod.mk.injEq] at hbuf
      obtain ⟨hops, hixF, he2⟩ := hbuf
      subst hops
      subst hixF
      subst he2
      unfold commitUpdateOps at hcommit
      dsimp only [] at hcommit
      cases halg : alGet tb t with
      | none =>
        rw [halg] at hcommit
        simp at hcommit
      | some rows =>
        rw [halg] at hcommit
        dsimp only [] at hcommit
        cases hrepl : replaceFirstById rows (rowGet r "id") (mkUpdatedRecord r upd) with
        | none =>
          rw [hrepl] at hcommit
          simp at hcommit
        | some rows' =>
          rw [hrepl] at hcommit
          dsimp only [] at hcommit
          have := ih (alSet tb t rows') ix1 ops2 ixF2 st' hcont hcommit
          unfold stepUpdateFold
          dsimp only []
          rw [hstep]
          dsimp only []
          rw [halg]
          dsimp only []
          rw [hrepl]
          exact this

theorem tableWfB_pairwise {rows : List JsRow} (h : tableWfB rows = true) :
    rows.Pairwise (fun a b => jsEqO (rowGet a "id") (rowGet b "id") = false) := by
  induction rows with
  | nil => exact List.Pairwise.nil
  | cons r rest ih =>
    obtain ⟨hok, hcnt⟩ := tableWfB_elim h
    have hrok := hok r (List.mem_cons_self _ _)
    have h1 := hcnt r (List.mem_cons_self _ _)
    simp only [rowIdCount, List.countP_cons, jsEqO_id_refl hrok, if_true] at h1
    have hz : List.countP (fun rr => jsEqO (rowGet rr "id") (rowGet r "id")) rest
        = 0 := by omega
    refine List.pairwise_cons.mpr ⟨?_, ih ?_⟩
    · intro x hx
      have hb := List.countP_eq_zero.mp hz x hx
      cases hc : jsEqO (rowGet x "id") (rowGet r "id") with
      | false =>
        rw [jsEqO_comm]
        exact hc
      | true => exact absurd hc hb
    · refine tableWfB_intro (fun x hx => hok x (List.mem_cons_of_mem _ hx)) ?_
      intro x hx
      have hle := hcnt x (List.mem_cons_of_mem _ hx)
      simp only [rowIdCount, List.countP_cons] at hle ⊢
      omega

theorem stepUpdateFold_preserves (t : String) (upd : JsRow) :
    ∀ (records : List JsRow) (s s' : DataState),
    stateWfB s = true → indexInvariant s →
    (∀ x ∈ records, ∃ rows, alGet s.tables t = some rows ∧ x ∈ rows) →
    records.Pairwise
      (fun a b => jsEqO (rowGet a "id") (rowGet b "id") = false) →
    stepUpdateFold t upd records s = (s', none) →
    stateWfB s' = true ∧ indexInvariant s' := by
  intro records
  induction records with
  | nil =>
    intro s s' hwf hinv hmem hpw hrun
    simp only [stepUpdateFold, Prod.mk.injEq] at hrun
    obtain ⟨h1, -⟩ := hrun
    subst h1
    exact ⟨hwf, hinv⟩
  | cons r rest ih =>
    intro s s' hwf hinv hmem hpw hrun
    unfold stepUpdateFold at hrun
    dsimp only [] at hrun
    rcases hstep : updateIndexesForUpdate t r (mkUpdatedRecord r upd) s.indexes
      with ⟨ix1, e⟩
    rw [hstep] at hrun
    dsimp only [] at hrun
    cases e with
    | some err => simp at hrun
    | none =>
      cases halg : alGet s.tables t with
      | none =>
        rw [halg] at hrun
        simp at hrun
      | some rows =>
        rw [halg] at hrun
        dsimp only [] at hrun
        cases hrepl : replaceFirstById rows (rowGet r "id")
            (mkUpdatedRecord r upd) with
        | none =>
          rw [hrepl] at hrun
          simp at hrun
        | some rows' =>
          rw [hrepl] at hrun
          have hrmem : r ∈ rows := by
            obtain ⟨rows0, hrows0, hmem0⟩ := hmem r (List.mem_cons_self _ _)
            rw [halg] at hrows0
            injection hrows0 with hre
            subst hre
            exact hmem0
          have hps := singleUpdate_preserves t upd r s rows rows' ix1 hwf hinv
            halg hrmem hstep hrepl
          obtain ⟨hpwh, hpwt⟩ := List.pairwise_cons.mp hpw
          refine ih ⟨alSet s.tables t rows', ix1⟩ s' hps.1 hps.2 ?_ hpwt hrun
          intro x hx
          refine ⟨rows', alGet_alSet_self _ _ _, ?_⟩
          obtain ⟨rows0, hrows0, hmem0⟩ := hmem x (List.mem_cons_of_mem _ hx)
          rw [halg] at hrows0
          injection hrows0 with hre
          subst hre
          have hne : jsEqO (rowGet x "id") (rowGet r "id") = false := by
            have := hpwh x hx
            rw [jsEqO_comm]
            exact this
          exact replaceFirstById_mem_old hrepl x hmem0 hne

theorem updateDataRun_preserves (schemas : List (String × JsSchema))
    (t : String) (filter : List (String × JsVal)) (upd : JsRow)
    (s s' : DataState)
    (hwf : stateWfB s = true) (hinv : indexInvariant s)
    (hrun : updateDataRun schemas t filter upd s = (s', none)) :
    stateWfB s' = true ∧ indexInvariant s' := by
  unfold updateDataRun at hrun
  cases hval : validateSchemaFor schemas t (.vobj upd) with
  | error e =>
    rw [hval] at hrun
    simp at hrun
  | ok u =>
    rw [hval] at hrun
    dsimp only [] at hrun
    cases hrows : alGet s.tables t with
    | none =>
      rw [hrows] at hrun
      simp at hrun
    | some rows =>
      rw [hrows] at hrun
      dsimp only [] at hrun
      rcases hbuf : bufferUpdates t upd
          (rows.filter (fun r => rowsMatchQuery r filter)) s.indexes
        with ⟨ops, ixF, e2⟩
      rw [hbuf] at hrun
      dsimp only [] at hrun
      cases e2 with
      | some err => simp at hrun
      | none =>
        have hfold := bufferUpdates_commit_interleave t upd
          (rows.filter (fun r => rowsMatchQuery r filter))
          s.tables s.indexes ops ixF s' hbuf hrun
        have hTrowsWf : tableWfB rows = true :=
          (stateWfB_elim hwf).1 (t, rows) (alGet_mem hrows)
        refine stepUpdateFold_preserves t upd
          (rows.filter (fun r => rowsMatchQuery r filter)) s s' hwf hinv
          ?_ ?_ hfold
        · intro x hx
          exact ⟨rows, hrows, (List.mem_filter.mp hx).1⟩
        · exact List.Pairwise.sublist (List.filter_sublist _)
            (tableWfB_pairwise hTrowsWf)

/-- Proof device: the per-record interleaving of `deleteData`'s index
maintenance and table commits (see `stepUpdateFold`). -/
def stepDeleteFold (t : String) :
    List JsRow → DataState → DataState × Option String
  | [], st => (st, none)
  | r :: rest, st =>
    let ix1 := updateIndexesForDelete t r st.indexes
    match alGet st.tables t with
    | none => (⟨st.tables, ix1⟩, some "Table does not exist")
    | some rows =>
      match removeFirstById rows (rowGet r "id") with
      | none => (⟨st.tables, ix1⟩, some "Record not found")
      | some rows' => stepDeleteFold t rest ⟨alSet st.tables t rows', ix1⟩

theorem deleteFold_interleave (t : String) :
    ∀ (records : List JsRow) (tb : List (String × List JsRow))
      (ix : List (String × DBIndex)) (st' : DataState),
    commitDeleteOps t (records.map (fun r => rowGet r "id"))
      ⟨tb, records.foldl (fun a r => updateIndexesForDelete t r a) ix⟩
      = (st', none) →
    stepDeleteFold t records ⟨tb, ix⟩ = (st', none) := by
  intro records
  induction records with
  | nil =>
    intro tb ix st' hcommit
    simp only [List.map_nil, List.foldl_nil, commitDeleteOps,
      Prod.mk.injEq] at hcommit
    obtain ⟨h1, -⟩ := hcommit
    subst h1
    rfl
  | cons r rest ih =>
    intro tb ix st' hcommit
    rw [List.map_cons, List.foldl_cons] at hcommit
    unfold commitDeleteOps at hcommit
    dsimp only [] at hcommit
    cases halg : alGet tb t with
    | none =>
      rw [halg] at hcommit
      simp at hcommit
    | some rows =>
      rw [halg] at hcommit
      dsimp only [] at hcommit
      cases hrem : removeFirstById rows (rowGet r "id") with
      | none =>
        rw [hrem] at hcommit
        simp at hcommit
      | some rows' =>
        rw [hrem] at hcommit
        dsimp only [] at hcommit
        have := ih (alSet tb t rows') (updateIndexesForDelete t r ix) st' hcommit
        unfold stepDeleteFold
        dsimp only []
        rw [halg]
        dsimp only []
        rw [hrem]
        exact this

theorem stepDeleteFold_preserves (t : String) :
    ∀ (records : List JsRow) (s s' : DataState),
    stateWfB s = true → indexInvariant s →
    (∀ x ∈ records, ∃ rows, alGet s.tables t = some rows ∧ x ∈ rows) →
    records.Pairwise
      (fun a b => jsEqO (rowGet a "id") (rowGet b "id") = false) →
    stepDeleteFold t records s = (s', none) →
    stateWfB s' = true ∧ indexInvariant s' := by
  intro records
  induction records with
  | nil =>
    intro s s' hwf hinv hmem hpw hrun
    simp only [stepDeleteFold, Prod.mk.injEq] at hrun
    obtain ⟨h1, -⟩ := hrun
    subst h1
    exact ⟨hwf, hinv⟩
  | cons r rest ih =>
    intro s s' hwf hinv hmem hpw hrun
    unfold stepDeleteFold at hrun
    dsimp only [] at hrun
    cases halg : alGet s.tables t with
    | none =>
      rw [halg] at hrun
      simp at hrun
    | some rows =>
      rw [halg] at hrun
      dsimp only [] at hrun
      cases hrem : removeFirstById rows (rowGet r "id") with
      | none =>
        rw [hrem] at hrun
        simp at hrun
      | some rows' =>
        rw [hrem] at hrun
        have hrmem : r ∈ rows := by
          obtain ⟨rows0, hrows0, hmem0⟩ := hmem r (List.mem_cons_self _ _)
          rw [halg] at hrows0
          injection hrows0 with hre
          subst hre
          exact hmem0
        have hps := singleDelete_preserves t r s rows rows' hwf hinv halg
          hrmem hrem
        obtain ⟨hpwh, hpwt⟩ := List.pairwise_cons.mp hpw
        refine ih ⟨alSet s.tables t rows', updateIndexesForDelete t r s.indexes⟩
          s' hps.1 hps.2 ?_ hpwt hrun
        intro x hx
        refine ⟨rows', alGet_alSet_self _ _ _, ?_⟩
        obtain ⟨rows0, hrows0, hmem0⟩ := hmem x (List.mem_cons_of_mem _ hx)
        rw [halg] at hrows0
        injection hrows0 with hre
        subst hre
        have hne : jsEqO (rowGet x "id") (rowGet r "id") = false := by
          have := hpwh x hx
          rw [jsEqO_comm]
          exact this
        exact removeFirstById_mem_keep hrem x hmem0 hne

theorem deleteDataRun_preserves (t : String)
    (filter : List (String × JsVal)) (s s' : DataState)
    (hwf : stateWfB s = true) (hinv : indexInvariant s)
    (hrun : deleteDataRun t filter s = (s', none)) :
    stateWfB s' = true ∧ indexInvariant s' := by
  unfold deleteDataRun at hrun
  cases hrows : alGet s.tables t with
  | none =>
    rw [hrows] at hrun
    simp at hrun
  | some rows =>
    rw [hrows] at hrun
    dsimp only [] at hrun
    have hfold := deleteFold_interleave t
      (rows.filter (fun r => rowsMatchQuery r filter)) s.tables s.indexes s' hrun
    have hTrowsWf : tableWfB rows = true :=
      (stateWfB_elim hwf).1 (t, rows) (alGet_mem hrows)
    refine stepDeleteFold_preserves t
      (rows.filter (fun r => rowsMatchQuery r filter)) s s' hwf hinv ?_ ?_ hfold
    · intro x hx
      exact ⟨rows, hrows, (List.mem_filter.mp hx).1⟩
    · exact List.Pairwise.sublist (List.filter_sublist _)
        (tableWfB_pairwise hTrowsWf)

/-- **C3** (amended): every *committed* implicit-transaction CRUD
operation — `addData`, `updateData` or `deleteData` run to success —
preserves data-layer well-formedness (truthy primitive ids, no duplicate
ids per table, distinct index keys, no id listed twice in an index) and
the index invariant: each id listed under a key `k` of an index resolves
to a row currently present in the owning table whose indexed columns,
joined with `::`, produce exactly `k`.  The rollback half of the original
claim is refuted by `rollback_leaves_dangling_index_entry`: indexes are
maintained eagerly at buffer time, and `rollbackTransaction` only
discards the operation buffer. -/
theorem runOp_preserves_index_invariant
    (schemas : List (String × JsSchema)) (op : TopOp) (s s' : DataState)
    (hwf : stateWfB s = true) (hinv : indexInvariant s)
    (hop : opInputOk op)
    (hrun : runOp schemas op s = (s', none)) :
    stateWfB s' = true ∧ indexInvariant s' := by
  cases op with
  | add t genId data0 =>
    exact addDataRun_preserves schemas genId t data0 s s' hwf hinv
      hop.1 hop.2 hrun
  | update t filter upd =>
    exact updateDataRun_preserves schemas t filter upd s s' hwf hinv hrun
  | del t filter =>
    exact deleteDataRun_preserves t filter s s' hwf hinv hrun

theorem runOp_preserves_index_invariant_witness :
    stateWfB (runOp [] (.add "t" "r1" [("a", .vstr "x")]) rbState).1 = true
    ∧ indexInvariant (runOp [] (.add "t" "r1" [("a", .vstr "x")]) rbState).1 :=
  runOp_preserves_index_invariant [] (.add "t" "r1" [("a", .vstr "x")])
    rbState (runOp [] (.add "t" "r1" [("a", .vstr "x")]) rbState).1
    (by decide) (by decide)
    ⟨by decide, fun v hv => nomatch hv⟩
    rfl

/-! # Claim C5: strict decryption validation and error kinds

`_decryptData` (src/SlimCryptDB.js lines 218–292), encryption-enabled
path.  Strings are modelled as `List Char`; `Buffer.from(part, 'hex')` as
`hexDecode` (Node semantics: decode hex pairs, stop at the first invalid
character, drop a trailing odd character); `String.prototype.split(':')`
as `splitOnChar`.  The AES-256-GCM decipher and `JSON.parse` are
parameters: `aesDec iv tag ct = none` models the decipher throwing its
authentication error (the `catch` block's message test recognises it),
`jsonParse pt = none` models invalid JSON.  A `Buffer` reaching the
function (the compression-mismatch path of claim C1) has no `.split`:
the `TypeError` is wrapped by the outer catch into a `Decryption failed`
error. -/

def hexVal (c : Char) : Option Nat :=
  if '0' ≤ c ∧ c ≤ '9' then some (c.toNat - '0'.toNat)
  else if 'a' ≤ c ∧ c ≤ 'f' then some (c.toNat - 'a'.toNat + 10)
  else if 'A' ≤ c ∧ c ≤ 'F' then some (c.toNat - 'A'.toNat + 10)
  else none

def hexDecode : List Char → List Nat
  | c1 :: c2 :: rest =>
    match hexVal c1, hexVal c2 with
    | some h, some l => (16 * h + l) :: hexDecode rest
    | _, _ => []
  | _ => []

def splitOnChar : List Char → Char → List (List Char)
  | [], _ => [[]]
  | c :: rest, sep =>
    if c == sep then [] :: splitOnChar rest sep
    else
      match splitOnChar rest sep with
      | [] => [[c]]
      | h :: t => (c :: h) :: t

/-- The argument `readData` hands to `_decryptData`: a string on the
normal path, a raw `Buffer` when the gunzip step was skipped. -/
inductive BufOrStr where
  | str : List Char → BufOrStr
  | buf : List Nat → BufOrStr

/-- The two error kinds `_decryptData` can surface: messages beginning
`Authentication failed:` are rethrown as-is by the outer catch, every
other failure is wrapped as `Decryption failed: …`. -/
inductive DecErr where
  | authFailed : String → DecErr
  | decryptionFailed : String → DecErr

/-- `_decryptData` with encryption enabled.  `aesDec` is the
AES-256-GCM decipher keyed with the engine key (`none` = authentication
failure), `jsonParse` the JSON parser (`none` = parse error). -/
def decryptData (aesDec : List Nat → List Nat → List Nat → Option (List Char))
    (jsonParse : List Char → Option JsVal) (input : BufOrStr) :
    Except DecErr JsVal :=
  match input with
  | .buf _ =>
    .error (.decryptionFailed "encryptedData.split is not a function")
  | .str s =>
    match splitOnChar s ':' with
    | [p0, p1, p2] =>
      let iv := hexDecode p0
      let tag := hexDecode p1
      let ct := hexDecode p2
      if iv.length ≠ 16 then
        .error (.decryptionFailed "Invalid IV length: expected 16")
      else if tag.length ≠ 16 then
        .error (.decryptionFailed "Invalid authentication tag length: expected 16")
      else if ct.length = 0 then
        .error (.decryptionFailed "Empty ciphertext")
      else
        match aesDec iv tag ct with
        | none => .error (.authFailed "data has been tampered with")
        | some pt =>
          match jsonParse pt with
          | none => .error (.authFailed "decrypted data is not valid JSON")
          | some v => .ok v
    | _ => .error (.decryptionFailed "Invalid encrypted data format")

/-- The well-formedness test of the claim: exactly three colon-separated
fields whose hex decodings give a 16-byte IV, a 16-byte tag and a
non-empty ciphertext; returns the decoded triple. -/
def encParts (input : BufOrStr) : Option (List Nat × List Nat × List Nat) :=
  match input with
  | .buf _ => none
  | .str s =>
    match splitOnChar s ':' with
    | [p0, p1, p2] =>
      let iv := hexDecode p0
      let tag := hexDecode p1
      let ct := hexDecode p2
      if iv.length = 16 ∧ tag.length = 16 ∧ ct.length ≠ 0 then
        some (iv, tag, ct)
      else none
    | _ => none

/-- **C5**: with encryption enabled, `_decryptData` (i) throws a
`Decryption failed` (format-kind) error for every input that is not
exactly three colon-separated fields decoding to a 16-byte IV, a 16-byte
authentication tag and a non-empty ciphertext, and (ii) on well-formed
input throws the distinguishable `Authentication failed` kind exactly
when the GCM decipher rejects the tag or the decrypted plaintext is not
valid JSON, returning the parsed value otherwise. -/
theorem decryptData_strict_validation
    (aesDec : List Nat → List Nat → List Nat → Option (List Char))
    (jsonParse : List Char → Option JsVal) (input : BufOrStr) :
    (encParts input = none →
      ∃ m, decryptData aesDec jsonParse input = .error (.decryptionFailed m))
    ∧ (∀ iv tag ct, encParts input = some (iv, tag, ct) →
        (((∃ m, decryptData aesDec jsonParse input = .error (.authFailed m))
            ↔ (aesDec iv tag ct = none
                ∨ ∃ pt, aesDec iv tag ct = some pt ∧ jsonParse pt = none))
          ∧ ∀ pt v, aesDec iv tag ct = some pt → jsonParse pt = some v →
              decryptData aesDec jsonParse input = .ok v)) := by
  cases input with
  | buf b =>
    refine ⟨fun _ => ⟨_, rfl⟩, fun iv tag ct h => nomatch h⟩
  | str s =>
    rcases hsp : splitOnChar s ':' with - | ⟨p0, - | ⟨p1, - | ⟨p2, - | ⟨p3, ps⟩⟩⟩⟩
    · exact ⟨fun _ => ⟨"Invalid encrypted data format",
        by simp [decryptData, hsp]⟩,
        fun iv tag ct h => by simp [encParts, hsp] at h⟩
    · exact ⟨fun _ => ⟨"Invalid encrypted data format",
        by simp [decryptData, hsp]⟩,
        fun iv tag ct h => by simp [encParts, hsp] at h⟩
    · exact ⟨fun _ => ⟨"Invalid encrypted data format",
        by simp [decryptData, hsp]⟩,
        fun iv tag ct h => by simp [encParts, hsp] at h⟩
    · by_cases h16 : (hexDecode p0).length = 16
      · by_cases h16t : (hexDecode p1).length = 16
        · by_cases hct : (hexDecode p2).length = 0
          · exact ⟨fun _ => ⟨"Empty ciphertext",
              by simp [decryptData, hsp, h16, h16t, hct]⟩,
              fun iv tag ct h => by simp [encParts, hsp, hct] at h⟩
          · constructor
            · intro h
              simp [encParts, hsp, h16, h16t, hct] at h
            · intro iv tag ct h
              simp only [encParts, hsp] at h
              rw [if_pos ⟨h16, h16t, hct⟩] at h
              injection h with h'
              obtain ⟨rfl, h''⟩ := Prod.mk.injEq .. ▸ h'
              obtain ⟨rfl, rfl⟩ := Prod.mk.injEq .. ▸ h''
              cases hdec : aesDec (hexDecode p0) (hexDecode p1) (hexDecode p2) with
              | none =>
                have hD : decryptData aesDec jsonParse (.str s)
                    = .error (.authFailed "data has been tampered with") := by
                  simp [decryptData, hsp, h16, h16t, hct, hdec]
                refine ⟨⟨fun _ => .inl rfl, fun _ => ⟨_, hD⟩⟩, ?_⟩
                intro pt v h1 h2
                exact nomatch h1
              | some pt =>
                cases hjp : jsonParse pt with
                | none =>
                  have hD : decryptData aesDec jsonParse (.str s)
                      = .error (.authFailed "decrypted data is not valid JSON") := by
                    simp [decryptData, hsp, h16, h16t, hct, hdec, hjp]
                  refine ⟨⟨fun _ => .inr ⟨pt, rfl, hjp⟩, fun _ => ⟨_, hD⟩⟩, ?_⟩
                  intro pt' v h1 h2
                  injection h1 with h1'
                  subst h1'
                  rw [hjp] at h2
                  exact nomatch h2
                | some v =>
                  have hD : decryptData aesDec jsonParse (.str s) = .ok v := by
                    simp [decryptData, hsp, h16, h16t, hct, hdec, hjp]
                  refine ⟨⟨?_, ?_⟩, ?_⟩
                  · intro hex
                    obtain ⟨m, hm⟩ := hex
                    rw [hD] at hm
                    exact nomatch hm
                  · intro hcase
                    rcases hcase with h1 | ⟨pt', h1, h2⟩
                    · exact nomatch h1
                    · injection h1 with h1'
                      subst h1'
                      rw [hjp] at h2
                      exact nomatch h2
                  · intro pt' v' h1 h2
                    injection h1 with h1'
                    subst h1'
                    rw [hjp] at h2
                    injection h2 with h2'
                    subst h2'
                    exact hD
        · exact ⟨fun _ => ⟨"Invalid authentication tag length: expected 16",
            by simp [decryptData, hsp, h16, h16t]⟩,
            fun iv tag ct h => by simp [encParts, hsp, h16t] at h⟩
      · exact ⟨fun _ => ⟨"Invalid IV length: expected 16",
          by simp [decryptData, hsp, h16]⟩,
          fun iv tag ct h => by simp [encParts, hsp, h16] at h⟩
    · exact ⟨fun _ => ⟨"Invalid encrypted data format",
        by simp [decryptData, hsp]⟩,
        fun iv tag ct h => by simp [encParts, hsp] at h⟩

/-- C5 witness: a one-character input has a single colon field, so the
format-kind error is thrown. -/
theorem decryptData_strict_validation_witness :
    ∃ m, decryptData (fun _ _ _ => none) (fun _ => none)
      (.str ['a']) = .error (.decryptionFailed m) :=
  (decryptData_strict_validation (fun _ _ _ => none) (fun _ => none)
    (.str ['a'])).1 rfl

/-! # Claim C1: committed mutations round-trip through the table file

`commitTransaction` → `_applyOperation` → `_applyAdd/Update/DeleteOperation`
(read-modify-write of the whole table file), `_writeDataDirect`, `readData`
and the codec pipeline `_encryptData` / `_compressData` /
`_decompressData` / `_decryptData` (src/SlimCryptDB.js lines 177–292,
462–504, 1387–1437, 1517–1606), with `options.encrypt = true`.  The
external libraries are parameters gathered in `CryptoEnv`: `JSON.stringify`
/ `JSON.parse`, the AES-256-GCM cipher pair, gzip/gunzip (composed with
the UTF-8 transcoding at the Buffer boundary) and the IV stream
`crypto.randomBytes(16)`.  Hex transcoding (`Buffer.toString('hex')` /
`Buffer.from(hex, 'hex')`) and `split(':')` are concrete.  Files store
what `fs.writeFile` received — a string (no compression) or a gzip
`Buffer`; `fs.readFile` always hands back a `Buffer`.  The per-operation
WAL append is orthogonal to the table file and not modelled. -/

def hexDigitChar (n : Nat) : Char :=
  "0123456789abcdef".data.getD n '0'

def hexEncode : List Nat → List Char
  | [] => []
  | b :: bs => hexDigitChar (b / 16 % 16) :: hexDigitChar (b % 16) :: hexEncode bs

theorem hexVal_hexDigitChar : ∀ n < 16, hexVal (hexDigitChar n) = some n := by
  decide

theorem hexDigitChar_ne_colon : ∀ n < 16, hexDigitChar n ≠ ':' := by
  decide

theorem hexDecode_hexEncode (bs : List Nat) (h : ∀ b ∈ bs, b < 256) :
    hexDecode (hexEncode bs) = bs := by
  induction bs with
  | nil => rfl
  | cons b rest ih =>
    have hb : b < 256 := h b (List.mem_cons_self _ _)
    have h1 : b / 16 % 16 < 16 := Nat.mod_lt _ (by omega)
    have h2 : b % 16 < 16 := Nat.mod_lt _ (by omega)
    simp only [hexEncode, hexDecode, hexVal_hexDigitChar _ h1,
      hexVal_hexDigitChar _ h2]
    rw [ih (fun x hx => h x (List.mem_cons_of_mem _ hx))]
    congr 1
    omega

theorem colon_not_mem_hexEncode (bs : List Nat) : ':' ∉ hexEncode bs := by
  induction bs with
  | nil => simp [hexEncode]
  | cons b rest ih =>
    intro h
    rcases List.mem_cons.mp h with h' | h'
    · exact hexDigitChar_ne_colon (b / 16 % 16) (Nat.mod_lt _ (by omega)) h'.symm
    · rcases List.mem_cons.mp h' with h'' | h''
      · exact hexDigitChar_ne_colon (b % 16) (Nat.mod_lt _ (by omega)) h''.symm
      · exact ih h''

theorem splitOnChar_append (a rest : List Char) (ha : ':' ∉ a) :
    splitOnChar (a ++ ':' :: rest) ':' = a :: splitOnChar rest ':' := by
  induction a with
  | nil => rfl
  | cons c a' ih =>
    have hc : ¬((c == ':') = true) := by
      simp only [beq_iff_eq]
      intro h
      exact ha (h ▸ List.mem_cons_self _ _)
    have ih' := ih (fun h => ha (List.mem_cons_of_mem _ h))
    simp only [List.cons_append, splitOnChar, List.append_eq]
    rw [if_neg hc, ih']

theorem splitOnChar_no_sep (a : List Char) (ha : ':' ∉ a) :
    splitOnChar a ':' = [a] := by
  induction a with
  | nil => rfl
  | cons c a' ih =>
    have hc : ¬((c == ':') = true) := by
      simp only [beq_iff_eq]
      intro h
      exact ha (h ▸ List.mem_cons_self _ _)
    have ih' := ih (fun h => ha (List.mem_cons_of_mem _ h))
    simp only [splitOnChar]
    rw [if_neg hc, ih']

/-- The external library functions the engine calls, as parameters:
`JSON.stringify`/`JSON.parse`, the AES-256-GCM cipher keyed with the
engine key (`aesEnc iv pt = (ciphertext, authTag)`), gzip/gunzip composed
with the UTF-8 transcoding at the Buffer boundary, `Buffer.from(str)`
(UTF-8 encode) and `Buffer.toString('utf8')`, the IV stream
`crypto.randomBytes(16)` and the `Date.now()` timestamp. -/
structure CryptoEnv where
  jsonStringify : JsVal → List Char
  jsonParse : List Char → Option JsVal
  ivs : Nat → List Nat
  aesEnc : List Nat → List Char → List Nat × List Nat
  aesDec : List Nat → List Nat → List Nat → Option (List Char)
  gzipF : List Char → List Nat
  gunzipF : List Nat → Option (List Char)
  utf8Enc : List Char → List Nat
  utf8Dec : List Nat → List Char
  now : Int

/-- `_encryptData` with `options.encrypt`: stringify, encrypt under the
`i`-th fresh IV, and format `iv:authTag:ciphertext` in hex. -/
def encryptDataModel (env : CryptoEnv) (i : Nat) (v : JsVal) : List Char :=
  let pt := env.jsonStringify v
  let iv := env.ivs i
  let p := env.aesEnc iv pt
  hexEncode iv ++ ':' :: (hexEncode p.2 ++ ':' :: hexEncode p.1)

/-- The table payload `_writeDataDirect` serializes. -/
def tableJson (env : CryptoEnv) (t : String) (rows : List JsVal) : JsVal :=
  .vobj [("name", .vstr t), ("rows", .varr rows), ("lastModified", .vnum env.now)]

/-- `fs.readFile` always yields a `Buffer`; a file written as a string
holds its UTF-8 bytes. -/
def readFileModel (env : CryptoEnv) : BufOrStr → BufOrStr
  | .str s => .buf (env.utf8Enc s)
  | .buf b => .buf b

/-- `_decompressData` with compression on: gunzip a `Buffer` and decode
UTF-8; when gunzip fails, fall back to decoding the raw bytes; leave a
non-`Buffer` untouched. -/
def decompressModel (env : CryptoEnv) : BufOrStr → BufOrStr
  | .buf b =>
    match env.gunzipF b with
    | some s => .str s
    | none => .str (env.utf8Dec b)
  | .str s => .str s

/-- The message of the error `_decryptData` throws. -/
def renderDecErr : DecErr → String
  | .authFailed m => "Authentication failed: " ++ m
  | .decryptionFailed m => "Decryption failed: " ++ m

/-- `readData` with an empty query: read the file (ENOENT → table does
not exist), optionally decompress, decrypt, and return `tableData.rows
|| []` (the empty query keeps every row; a truthy non-array `rows`, which
the engine never writes, would crash the `.filter` call). -/
def readDataModel (env : CryptoEnv) (compression : Bool)
    (file : Option BufOrStr) : Except String (List JsVal) :=
  match file with
  | none => .error "Table does not exist"
  | some content =>
    let data := readFileModel env content
    let data := if compression then decompressModel env data else data
    match decryptData env.aesDec env.jsonParse data with
    | .error e => .error (renderDecErr e)
    | .ok v =>
      match jsGetProp v "rows" with
      | some (.varr items) => .ok items
      | some w =>
        if jsTruthy w then .error "rows.filter is not a function" else .ok []
      | none => .ok []

/-- `_writeDataDirect`: wrap the rows in the table payload, encrypt, then
gzip when compression is on (`fs.writeFile` then stores bytes or the raw
string). -/
def writeDataDirectModel (env : CryptoEnv) (compression : Bool) (i : Nat)
    (t : String) (rows : List JsVal) : BufOrStr :=
  let s := encryptDataModel env i (tableJson env t rows)
  if compression then .buf (env.gzipF s) else .str s

/-- A buffered transaction operation as `commitTransaction` replays it. -/
inductive FileOp where
  | addOp : JsVal → FileOp
  | updOp : Option JsVal → JsVal → FileOp
  | delOp : Option JsVal → FileOp

def vId (v : JsVal) : Option JsVal := jsGetProp v "id"

/-- `findIndex(item => item.id === id)` followed by assignment. -/
def replaceFirstV (rows : List JsVal) (idv : Option JsVal) (nd : JsVal) :
    Option (List JsVal) :=
  match rows with
  | [] => none
  | r :: rest =>
    if jsEqO (vId r) idv then some (nd :: rest)
    else (replaceFirstV rest idv nd).map (r :: ·)

/-- `findIndex(item => item.id === id)` followed by `splice(index, 1)`. -/
def removeFirstV (rows : List JsVal) (idv : Option JsVal) :
    Option (List JsVal) :=
  match rows with
  | [] => none
  | r :: rest =>
    if jsEqO (vId r) idv then some rest
    else (removeFirstV rest idv).map (r :: ·)

/-- The row-level effect of one buffered operation
(`_applyAdd/Update/DeleteOperation` between their read and their
write). -/
def applyFileOpRows (op : FileOp) (rows : List JsVal) :
    Except String (List JsVal) :=
  match op with
  | .addOp data =>
    if rows.any (fun item => jsEqO (vId item) (vId data)) then
      .error "Duplicate ID"
    else .ok (rows ++ [data])
  | .updOp idv nd =>
    match replaceFirstV rows idv nd with
    | none => .error "Record not found"
    | some rows' => .ok rows'
  | .delOp idv =>
    match removeFirstV rows idv with
    | none => .error "Record not found"
    | some rows' => .ok rows'

/-- `_applyOperation`: read the whole table, apply the operation, write
the whole table back under a fresh IV. -/
def applyOperationModel (env : CryptoEnv) (compression : Bool) (t : String)
    (op : FileOp) (st : Option BufOrStr × Nat) :
    (Option BufOrStr × Nat) × Option String :=
  match readDataModel env compression st.1 with
  | .error e => (st, some e)
  | .ok rows =>
    match applyFileOpRows op rows with
    | .error e => (st, some e)
    | .ok rows' =>
      ((some (writeDataDirectModel env compression st.2 t rows'), st.2 + 1), none)

/-- The commit loop of `commitTransaction`: apply the buffered operations
in order, stopping at the first error (which triggers the rollback). -/
def commitOpsModel (env : CryptoEnv) (compression : Bool) (t : String) :
    List FileOp → (Option BufOrStr × Nat) →
    (Option BufOrStr × Nat) × Option String
  | [], st => (st, none)
  | op :: rest, st =>
    match applyOperationModel env compression t op st with
    | (st', some e) => (st', some e)
    | (st', none) => commitOpsModel env compression t rest st'

/-- The specification-side fold: the transaction's buffered operations
applied in buffer order to the previous row sequence. -/
def applyFileOps : List FileOp → List JsVal → Except String (List JsVal)
  | [], rows => .ok rows
  | op :: rest, rows =>
    match applyFileOpRows op rows with
    | .error e => .error e
    | .ok rows' => applyFileOps rest rows'

/-- The codec round-trip at the string level: decrypting an
`_encryptData` output recovers the serialized value, given the cipher and
JSON laws at that value. -/
theorem decryptData_encryptDataModel (env : CryptoEnv) (i : Nat) (v : JsVal)
    (hIvLen : (env.ivs i).length = 16)
    (hIvByte : ∀ b ∈ env.ivs i, b < 256)
    (hTagLen : ((env.aesEnc (env.ivs i) (env.jsonStringify v)).2).length = 16)
    (hTagByte : ∀ b ∈ (env.aesEnc (env.ivs i) (env.jsonStringify v)).2, b < 256)
    (hCtNe : (env.aesEnc (env.ivs i) (env.jsonStringify v)).1 ≠ [])
    (hCtByte : ∀ b ∈ (env.aesEnc (env.ivs i) (env.jsonStringify v)).1, b < 256)
    (hAes : env.aesDec (env.ivs i)
        (env.aesEnc (env.ivs i) (env.jsonStringify v)).2
        (env.aesEnc (env.ivs i) (env.jsonStringify v)).1
      = some (env.jsonStringify v))
    (hJson : env.jsonParse (env.jsonStringify v) = some v) :
    decryptData env.aesDec env.jsonParse (.str (encryptDataModel env i v))
      = .ok v := by
  have hsplit : splitOnChar (encryptDataModel env i v) ':'
      = [hexEncode (env.ivs i),
         hexEncode (env.aesEnc (env.ivs i) (env.jsonStringify v)).2,
         hexEncode (env.aesEnc (env.ivs i) (env.jsonStringify v)).1] := by
    unfold encryptDataModel
    rw [splitOnChar_append _ _ (colon_not_mem_hexEncode _),
        splitOnChar_append _ _ (colon_not_mem_hexEncode _),
        splitOnChar_no_sep _ (colon_not_mem_hexEncode _)]
  simp only [decryptData, hsplit]
  rw [hexDecode_hexEncode _ hIvByte, hexDecode_hexEncode _ hTagByte,
      hexDecode_hexEncode _ hCtByte, hIvLen, hTagLen]
  have hctz : ¬((env.aesEnc (env.ivs i) (env.jsonStringify v)).1.length = 0) :=
    fun h => hCtNe (List.length_eq_zero.mp h)
  rw [if_neg (by omega), if_neg (by omega), if_neg hctz, hAes]
  simp only [hJson]

/-- The file-level round-trip with compression on: reading back a
`_writeDataDirect` output yields exactly the written rows. -/
theorem readDataModel_writeDataDirectModel (env : CryptoEnv) (i : Nat)
    (t : String) (rows : List JsVal)
    (hIvLen : (env.ivs i).length = 16)
    (hIvByte : ∀ b ∈ env.ivs i, b < 256)
    (hTagLen : ∀ iv pt, ((env.aesEnc iv pt).2).length = 16)
    (hTagByte : ∀ iv pt, ∀ b ∈ (env.aesEnc iv pt).2, b < 256)
    (hCtNe : ∀ iv pt, (env.aesEnc iv pt).1 ≠ [])
    (hCtByte : ∀ iv pt, ∀ b ∈ (env.aesEnc iv pt).1, b < 256)
    (hAes : ∀ iv pt, env.aesDec iv (env.aesEnc iv pt).2 (env.aesEnc iv pt).1
      = some pt)
    (hJson : ∀ v, env.jsonParse (env.jsonStringify v) = some v)
    (hGzip : ∀ s, env.gunzipF (env.gzipF s) = some s) :
    readDataModel env true (some (writeDataDirectModel env true i t rows))
      = .ok rows := by
  have hdec := decryptData_encryptDataModel env i (tableJson env t rows)
    hIvLen hIvByte (hTagLen _ _) (hTagByte _ _) (hCtNe _ _) (hCtByte _ _)
    (hAes _ _) (hJson _)
  simp only [writeDataDirectModel, readDataModel, readFileModel, if_true,
    reduceIte, decompressModel, hGzip, hdec]
  rfl

/-- **C1** (amended): with compression enabled (the default), every
successful `commitTransaction` replay of buffered add/update/delete
operations leaves the table file so that `readData` with an empty query
succeeds and returns exactly the row sequence obtained by applying the
buffered operations in buffer order to the previously stored row
sequence.  The hypotheses are the laws of the external libraries: fresh
16-byte IVs, 16-byte GCM tags, non-empty ciphertexts, byte-valued cipher
output, AES decryption inverting encryption, `JSON.parse` inverting
`JSON.stringify`, and gunzip inverting gzip.  (With compression disabled
and encryption on, the pipeline never round-trips — see
`readData_uncompressed_always_fails`: `readData` hands the raw file
`Buffer` to `_decryptData`, whose `split` call throws, so no operation
can even commit.) -/
theorem commit_readData_roundtrip (env : CryptoEnv)
    (hIvLen : ∀ j, (env.ivs j).length = 16)
    (hIvByte : ∀ j, ∀ b ∈ env.ivs j, b < 256)
    (hTagLen : ∀ iv pt, ((env.aesEnc iv pt).2).length = 16)
    (hTagByte : ∀ iv pt, ∀ b ∈ (env.aesEnc iv pt).2, b < 256)
    (hCtNe : ∀ iv pt, (env.aesEnc iv pt).1 ≠ [])
    (hCtByte : ∀ iv pt, ∀ b ∈ (env.aesEnc iv pt).1, b < 256)
    (hAes : ∀ iv pt, env.aesDec iv (env.aesEnc iv pt).2 (env.aesEnc iv pt).1
      = some pt)
    (hJson : ∀ v, env.jsonParse (env.jsonStringify v) = some v)
    (hGzip : ∀ s, env.gunzipF (env.gzipF s) = some s)
    (t : String) (ops : List FileOp) (file0 : Option BufOrStr) (i0 : Nat)
    (R0 : List JsVal) (st1 : Option BufOrStr × Nat)
    (hread0 : readDataModel env true file0 = .ok R0)
    (hcommit : commitOpsModel env true t ops (file0, i0) = (st1, none)) :
    ∃ R1, applyFileOps ops R0 = .ok R1
      ∧ readDataModel env true st1.1 = .ok R1 := by
  induction ops generalizing file0 i0 R0 with
  | nil =>
    simp only [commitOpsModel, Prod.mk.injEq] at hcommit
    obtain ⟨h1, -⟩ := hcommit
    subst h1
    exact ⟨R0, rfl, hread0⟩
  | cons op rest ih =>
    unfold commitOpsModel applyOperationModel at hcommit
    dsimp only [] at hcommit
    rw [hread0] at hcommit
    dsimp only [] at hcommit
    cases hop : applyFileOpRows op R0 with
    | error e =>
      rw [hop] at hcommit
      simp at hcommit
    | ok rows' =>
      rw [hop] at hcommit
      dsimp only [] at hcommit
      have hread1 : readDataModel env true
          (some (writeDataDirectModel env true i0 t rows')) = .ok rows' :=
        readDataModel_writeDataDirectModel env i0 t rows' (hIvLen i0)
          (hIvByte i0) hTagLen hTagByte hCtNe hCtByte hAes hJson hGzip
      obtain ⟨R1, hfold, hread⟩ := ih _ _ _ hread1 hcommit
      refine ⟨R1, ?_, hread⟩
      simp only [applyFileOps, hop]
      exact hfold

/-! ## A concrete environment satisfying the C1 library laws

An injective three-bytes-per-character text/byte codec stands in for
UTF-8, gzip and the AES cipher, and a tagged fuel-prefixed serialization
of `JsVal` stands in for `JSON.stringify`/`JSON.parse`; each instance
satisfies the round-trip law it is contracted to. -/

theorem char_toNat_lt (c : Char) : c.toNat < 1114112 := by
  rcases c.valid with h | h
  · have h' : c.toNat < 55296 := h
    omega
  · exact h.2

def encodeChars : List Char → List Nat
  | [] => []
  | c :: cs =>
    c.toNat / 65536 :: c.toNat / 256 % 256 :: c.toNat % 256 :: encodeChars cs

def decodeChars : List Nat → List Char
  | b1 :: b2 :: b3 :: bs =>
    Char.ofNat (b1 * 65536 + b2 * 256 + b3) :: decodeChars bs
  | _ => []

theorem decodeChars_encodeChars (cs : List Char) :
    decodeChars (encodeChars cs) = cs := by
  induction cs with
  | nil => rfl
  | cons c cs ih =>
    simp only [encodeChars, decodeChars, ih]
    congr 1
    have h1 : c.toNat / 65536 * 65536 + c.toNat / 256 % 256 * 256
        + c.toNat % 256 = c.toNat := by omega
    rw [h1]
    exact Char.ofNat_toNat c

theorem encodeChars_byte (cs : List Char) : ∀ b ∈ encodeChars cs, b < 256 := by
  induction cs with
  | nil => simp [encodeChars]
  | cons c cs ih =>
    intro b hb
    have hc := char_toNat_lt c
    simp only [encodeChars, List.mem_cons] at hb
    rcases hb with rfl | rfl | rfl | hb
    · omega
    · omega
    · omega
    · exact ih b hb

def unaryNat (n : Nat) : List Char := List.replicate n '1' ++ ['.']

def decUnary : List Char → Option (Nat × List Char)
  | '1' :: r => (decUnary r).map (fun p => (p.1 + 1, p.2))
  | '.' :: r => some (0, r)
  | _ => none

theorem decUnary_unaryNat (n : Nat) (rest : List Char) :
    decUnary (unaryNat n ++ rest) = some (n, rest) := by
  induction n with
  | zero => rfl
  | succ m ih =>
    simp only [unaryNat, List.replicate_succ, List.cons_append] at ih ⊢
    simp only [decUnary, ih, Option.map_some']

def encChars (cs : List Char) : List Char := unaryNat cs.length ++ cs

def decChars (cs : List Char) : Option (List Char × List Char) :=
  match decUnary cs with
  | some (n, r) => if n ≤ r.length then some (r.take n, r.drop n) else none
  | none => none

theorem decChars_encChars (cs rest : List Char) :
    decChars (encChars cs ++ rest) = some (cs, rest) := by
  simp only [encChars, List.append_assoc]
  simp only [decChars, decUnary_unaryNat]
  rw [if_pos (by simp)]
  rw [List.take_left', List.drop_left']
  · rfl
  · rfl

def encInt (i : Int) : List Char :=
  if i < 0 then '-' :: unaryNat i.natAbs else '+' :: unaryNat i.natAbs

def decInt (cs : List Char) : Option (Int × List Char) :=
  match cs with
  | '-' :: r => (decUnary r).map (fun p => (-(p.1 : Int), p.2))
  | '+' :: r => (decUnary r).map (fun p => ((p.1 : Int), p.2))
  | _ => none

theorem decInt_encInt (i : Int) (rest : List Char) :
    decInt (encInt i ++ rest) = some (i, rest) := by
  by_cases hi : i < 0
  · simp only [encInt, if_pos hi, List.cons_append, decInt,
      decUnary_unaryNat, Option.map_some']
    congr 2
    omega
  · simp only [encInt, if_neg hi, List.cons_append, decInt,
      decUnary_unaryNat, Option.map_some']
    congr 2
    omega

mutual

/-- Node count of a value: the fuel its serialization needs to decode. -/
def jsNodes : JsVal → Nat
  | .vnull => 1
  | .vbool _ => 1
  | .vnum _ => 1
  | .vstr _ => 1
  | .varr vs => jsNodesL vs + 1
  | .vobj ps => jsNodesF ps + 1
termination_by v => (sizeOf v, 0)

def jsNodesL : List JsVal → Nat
  | [] => 1
  | v :: vs => jsNodes v + jsNodesL vs
termination_by vs => (sizeOf vs, 1)

def jsNodesF : List (String × JsVal) → Nat
  | [] => 1
  | (_, v) :: ps => jsNodes v + jsNodesF ps
termination_by ps => (sizeOf ps, 1)

end

mutual

/-- A tagged injective serialization of `JsVal` (the witness's
`JSON.stringify` core). -/
def jsEnc : JsVal → List Char
  | .vnull => ['n']
  | .vbool true => ['t']
  | .vbool false => ['f']
  | .vnum i => 'i' :: encInt i
  | .vstr s => 's' :: encChars s.data
  | .varr vs => 'a' :: (jsEncList vs ++ ['e'])
  | .vobj ps => 'o' :: (jsEncFields ps ++ ['e'])
termination_by v => (sizeOf v, 0)

def jsEncList : List JsVal → List Char
  | [] => []
  | v :: vs => jsEnc v ++ jsEncList vs
termination_by vs => (sizeOf vs, 1)

def jsEncFields : List (String × JsVal) → List Char
  | [] => []
  | (k, v) :: ps => encChars k.data ++ (jsEnc v ++ jsEncFields ps)
termination_by ps => (sizeOf ps, 1)

end

mutual

/-- Fuel-indexed decoder for `jsEnc`. -/
def jsDecV : Nat → List Char → Option (JsVal × List Char)
  | 0, _ => none
  | _ + 1, [] => none
  | f + 1, c :: r =>
    if c = 'n' then some (.vnull, r)
    else if c = 't' then some (.vbool true, r)
    else if c = 'f' then some (.vbool false, r)
    else if c = 'i' then (decInt r).map (fun p => (.vnum p.1, p.2))
    else if c = 's' then (decChars r).map (fun p => (.vstr (String.mk p.1), p.2))
    else if c = 'a' then (jsDecItems f r).map (fun p => (.varr p.1, p.2))
    else if c = 'o' then (jsDecFields f r).map (fun p => (.vobj p.1, p.2))
    else none

def jsDecItems : Nat → List Char → Option (List JsVal × List Char)
  | 0, _ => none
  | _ + 1, [] => none
  | f + 1, c :: r =>
    if c = 'e' then some ([], r)
    else
      match jsDecV f (c :: r) with
      | some (v, r') =>
        match jsDecItems f r' with
        | some p => some (v :: p.1, p.2)
        | none => none
      | none => none

def jsDecFields : Nat → List Char → Option (List (String × JsVal) × List Char)
  | 0, _ => none
  | _ + 1, [] => none
  | f + 1, c :: r =>
    if c = 'e' then some ([], r)
    else
      match decChars (c :: r) with
      | some (ks, r1) =>
        match jsDecV f r1 with
        | some (v, r2) =>
          match jsDecFields f r2 with
          | some p => some ((String.mk ks, v) :: p.1, p.2)
          | none => none
        | none => none
      | none => none

end

theorem jsNodes_pos (v : JsVal) : 0 < jsNodes v := by
  cases v <;> simp [jsNodes]

theorem jsNodesL_pos (vs : List JsVal) : 0 < jsNodesL vs := by
  cases vs with
  | nil => simp [jsNodesL]
  | cons v vs =>
    have := jsNodes_pos v
    simp only [jsNodesL]
    omega

theorem jsNodesF_pos (ps : List (String × JsVal)) : 0 < jsNodesF ps := by
  cases ps with
  | nil => simp [jsNodesF]
  | cons p ps =>
    obtain ⟨k, v⟩ := p
    have := jsNodes_pos v
    simp only [jsNodesF]
    omega

theorem jsEnc_head (v : JsVal) : ∃ c tail, jsEnc v = c :: tail ∧ c ≠ 'e' := by
  cases v with
  | vnull => exact ⟨'n', [], by simp [jsEnc], by decide⟩
  | vbool b =>
    cases b
    · exact ⟨'f', [], by simp [jsEnc], by decide⟩
    · exact ⟨'t', [], by simp [jsEnc], by decide⟩
  | vnum i => exact ⟨'i', encInt i, by simp [jsEnc], by decide⟩
  | vstr s => exact ⟨'s', encChars s.data, by simp [jsEnc], by decide⟩
  | varr vs => exact ⟨'a', jsEncList vs ++ ['e'], by simp [jsEnc], by decide⟩
  | vobj ps => exact ⟨'o', jsEncFields ps ++ ['e'], by simp [jsEnc], by decide⟩

theorem encChars_head (cs : List Char) :
    ∃ c tail, encChars cs = c :: tail ∧ c ≠ 'e' := by
  unfold encChars unaryNat
  cases hn : cs.length with
  | zero => exact ⟨'.', cs, by simp, by decide⟩
  | succ m =>
    refine ⟨'1', (List.replicate m '1' ++ ['.']) ++ cs, ?_, by decide⟩
    simp [List.replicate_succ]


theorem jsDec_jsEnc (f : Nat) :
    (∀ v rest, jsNodes v ≤ f → jsDecV f (jsEnc v ++ rest) = some (v, rest))
    ∧ (∀ vs rest, jsNodesL vs ≤ f →
        jsDecItems f (jsEncList vs ++ 'e' :: rest) = some (vs, rest))
    ∧ (∀ ps rest, jsNodesF ps ≤ f →
        jsDecFields f (jsEncFields ps ++ 'e' :: rest) = some (ps, rest)) := by
  induction f with
  | zero =>
    refine ⟨fun v rest h => absurd h (by have := jsNodes_pos v; omega),
            fun vs rest h => absurd h (by have := jsNodesL_pos vs; omega),
            fun ps rest h => absurd h (by have := jsNodesF_pos ps; omega)⟩
  | succ f ih =>
    obtain ⟨ihV, ihL, ihF⟩ := ih
    refine ⟨?_, ?_, ?_⟩
    · intro v rest hb
      cases v with
      | vnull =>
        have harr : jsEnc JsVal.vnull ++ rest = 'n' :: rest := by
          simp [jsEnc]
        rw [harr]
        simp [jsDecV]
      | vbool b =>
        cases b with
        | false =>
          have harr : jsEnc (JsVal.vbool false) ++ rest = 'f' :: rest := by
            simp [jsEnc]
          rw [harr]
          simp [jsDecV]
        | true =>
          have harr : jsEnc (JsVal.vbool true) ++ rest = 't' :: rest := by
            simp [jsEnc]
          rw [harr]
          simp [jsDecV]
      | vnum i =>
        have harr : jsEnc (JsVal.vnum i) ++ rest = 'i' :: (encInt i ++ rest) := by
          simp [jsEnc]
        rw [harr]
        simp [jsDecV, decInt_encInt]
      | vstr s =>
        have harr : jsEnc (JsVal.vstr s) ++ rest
            = 's' :: (encChars s.data ++ rest) := by
          simp [jsEnc]
        rw [harr]
        simp [jsDecV, decChars_encChars]
      | varr vs =>
        have hbound : jsNodesL vs ≤ f := by
          simp only [jsNodes] at hb
          omega
        have harr : jsEnc (JsVal.varr vs) ++ rest
            = 'a' :: (jsEncList vs ++ 'e' :: rest) := by
          simp [jsEnc]
        rw [harr]
        simp [jsDecV, ihL vs rest hbound]
      | vobj ps =>
        have hbound : jsNodesF ps ≤ f := by
          simp only [jsNodes] at hb
          omega
        have harr : jsEnc (JsVal.vobj ps) ++ rest
            = 'o' :: (jsEncFields ps ++ 'e' :: rest) := by
          simp [jsEnc]
        rw [harr]
        simp [jsDecV, ihF ps rest hbound]
    · intro vs rest hb
      cases vs with
      | nil => simp [jsEncList, jsDecItems]
      | cons v vs' =>
        obtain ⟨c, tail, hhead, hce⟩ := jsEnc_head v
        have hbv : jsNodes v ≤ f := by
          have h1 := jsNodesL_pos vs'
          simp only [jsNodesL] at hb
          omega
        have hbl : jsNodesL vs' ≤ f := by
          have h1 := jsNodes_pos v
          simp only [jsNodesL] at hb
          omega
        have harr : jsEncList (v :: vs') ++ 'e' :: rest
            = c :: (tail ++ (jsEncList vs' ++ 'e' :: rest)) := by
          simp [jsEncList, hhead]
        rw [harr]
        simp only [jsDecItems]
        rw [if_neg hce]
        have hre : c :: (tail ++ (jsEncList vs' ++ 'e' :: rest))
            = jsEnc v ++ (jsEncList vs' ++ 'e' :: rest) := by
          rw [hhead, List.cons_append]
        rw [hre]
        simp only [ihV v _ hbv, ihL vs' rest hbl]
    · intro ps rest hb
      cases ps with
      | nil => simp [jsEncFields, jsDecFields]
      | cons p ps' =>
        obtain ⟨k, v⟩ := p
        obtain ⟨c, tail, hhead, hce⟩ := encChars_head k.data
        have hbv : jsNodes v ≤ f := by
          have h1 := jsNodesF_pos ps'
          simp only [jsNodesF] at hb
          omega
        have hbf : jsNodesF ps' ≤ f := by
          have h1 := jsNodes_pos v
          simp only [jsNodesF] at hb
          omega
        have harr : jsEncFields ((k, v) :: ps') ++ 'e' :: rest
            = c :: (tail ++ (jsEnc v ++ (jsEncFields ps' ++ 'e' :: rest))) := by
          simp [jsEncFields, hhead]
        rw [harr]
        simp only [jsDecFields]
        rw [if_neg hce]
        have hre : c :: (tail ++ (jsEnc v ++ (jsEncFields ps' ++ 'e' :: rest)))
            = encChars k.data ++ (jsEnc v ++ (jsEncFields ps' ++ 'e' :: rest)) := by
          rw [hhead, List.cons_append]
        rw [hre]
        simp only [decChars_encChars, ihV v _ hbv, ihF ps' rest hbf]

/-- The witness's `JSON.stringify`: the tagged serialization prefixed
with its own decoding fuel. -/
def cexJsonStringify (v : JsVal) : List Char := unaryNat (jsNodes v) ++ jsEnc v

/-- The witness's `JSON.parse`: read the fuel, then decode. -/
def cexJsonParse (cs : List Char) : Option JsVal :=
  match decUnary cs with
  | some (n, r) => (jsDecV n r).map (fun p => p.1)
  | none => none

theorem cexJsonParse_stringify (v : JsVal) :
    cexJsonParse (cexJsonStringify v) = some v := by
  unfold cexJsonStringify cexJsonParse
  rw [decUnary_unaryNat]
  have h := (jsDec_jsEnc (jsNodes v)).1 v [] le_rfl
  rw [List.append_nil] at h
  simp [h]

/-- A concrete `CryptoEnv` satisfying every C1 library law: the
three-bytes-per-character codec plays gzip/gunzip and (with a leading
marker byte) the AES cipher, and the fuel-prefixed serialization plays
`JSON.stringify`/`JSON.parse`. -/
def cexEnv : CryptoEnv where
  jsonStringify := cexJsonStringify
  jsonParse := cexJsonParse
  ivs := fun _ => List.replicate 16 0
  aesEnc := fun _ pt => (0 :: encodeChars pt, List.replicate 16 0)
  aesDec := fun _ _ ct =>
    match ct with
    | _ :: bs => some (decodeChars bs)
    | [] => none
  gzipF := encodeChars
  gunzipF := fun bs => some (decodeChars bs)
  utf8Enc := fun _ => []
  utf8Dec := fun _ => []
  now := 0

theorem cexEnv_ivLen : ∀ j, (cexEnv.ivs j).length = 16 := fun _ => rfl

theorem cexEnv_ivByte : ∀ j, ∀ b ∈ cexEnv.ivs j, b < 256 := by
  intro j b hb
  have := List.eq_of_mem_replicate hb
  omega

theorem cexEnv_tagLen : ∀ iv pt, ((cexEnv.aesEnc iv pt).2).length = 16 :=
  fun _ _ => rfl

theorem cexEnv_tagByte : ∀ iv pt, ∀ b ∈ (cexEnv.aesEnc iv pt).2, b < 256 := by
  intro iv pt b hb
  have := List.eq_of_mem_replicate hb
  omega

theorem cexEnv_ctNe : ∀ iv pt, (cexEnv.aesEnc iv pt).1 ≠ [] :=
  fun _ _ => List.cons_ne_nil _ _

theorem cexEnv_ctByte : ∀ iv pt, ∀ b ∈ (cexEnv.aesEnc iv pt).1, b < 256 := by
  intro iv pt b hb
  rcases List.mem_cons.mp hb with rfl | hb'
  · omega
  · exact encodeChars_byte pt b hb'

theorem cexEnv_aes : ∀ iv pt,
    cexEnv.aesDec iv (cexEnv.aesEnc iv pt).2 (cexEnv.aesEnc iv pt).1
      = some pt := by
  intro iv pt
  show some (decodeChars (encodeChars pt)) = some pt
  rw [decodeChars_encodeChars]

theorem cexEnv_json : ∀ v, cexEnv.jsonParse (cexEnv.jsonStringify v) = some v :=
  cexJsonParse_stringify

theorem cexEnv_gzip : ∀ s, cexEnv.gunzipF (cexEnv.gzipF s) = some s := by
  intro s
  show some (decodeChars (encodeChars s)) = some s
  rw [decodeChars_encodeChars]

/-- C1 counterexample: with compression disabled (and encryption on) the
claimed round-trip fails outright — `readData` hands the raw file
`Buffer` to `_decryptData`, whose `split` call throws — and therefore a
buffered `add` cannot even be committed: its read-modify-write fails with
the same error.  The "optionally-gzip" half of the claim never
round-trips. -/
theorem readData_uncompressed_always_fails :
    readDataModel cexEnv false
        (some (writeDataDirectModel cexEnv false 0 "t" []))
      = .error "Decryption failed: encryptedData.split is not a function"
    ∧ commitOpsModel cexEnv false "t" [.addOp (.vobj [("id", .vstr "1")])]
        (some (writeDataDirectModel cexEnv false 0 "t" []), 1)
      = ((some (writeDataDirectModel cexEnv false 0 "t" []), 1),
          some "Decryption failed: encryptedData.split is not a function") := by
  exact ⟨rfl, rfl⟩

/-- C1 witness: the amended round-trip applied in the concrete
environment — a committed (empty) operation list over a table file
holding one row reads back exactly that row. -/
theorem commit_readData_roundtrip_witness :
    ∃ R1, applyFileOps [] [JsVal.vobj [("id", JsVal.vstr "1")]] = .ok R1
      ∧ readDataModel cexEnv true
          (some (writeDataDirectModel cexEnv true 0 "t"
            [JsVal.vobj [("id", JsVal.vstr "1")]]))
        = .ok R1 :=
  commit_readData_roundtrip cexEnv cexEnv_ivLen cexEnv_ivByte cexEnv_tagLen
    cexEnv_tagByte cexEnv_ctNe cexEnv_ctByte cexEnv_aes cexEnv_json
    cexEnv_gzip "t" []
    (some (writeDataDirectModel cexEnv true 0 "t"
      [JsVal.vobj [("id", JsVal.vstr "1")]]))
    1 [JsVal.vobj [("id", JsVal.vstr "1")]]
    (some (writeDataDirectModel cexEnv true 0 "t"
      [JsVal.vobj [("id", JsVal.vstr "1")]]), 1)
    (readDataModel_writeDataDirectModel cexEnv 0 "t"
      [JsVal.vobj [("id", JsVal.vstr "1")]] (cexEnv_ivLen 0) (cexEnv_ivByte 0)
      cexEnv_tagLen cexEnv_tagByte cexEnv_ctNe cexEnv_ctByte cexEnv_aes
      cexEnv_json cexEnv_gzip)
    rfl
